import Mathlib

/-!
# gcc-mapfile-tool: the map-file parser `parseMapfile`

A shallow embedding of `src/parseMapfile.mjs`.

* A JavaScript string is a `List Char` (the lines come from a decoded text
  stream, so they are well-formed Unicode); string comparison goes through the
  UTF-16 code units, as in JavaScript.
* A JavaScript Number is a `JSNum`: the parser only ever produces integers,
  `NaN` and the two infinities.  Integers are rounded to the nearest double
  (ties to even), so the model agrees with `parseInt` and `+` on every input.
* A regular expression literal is a list of quantified character classes,
  matched greedily with backtracking, first success wins.
* The line loop is the function `step`, folded over the lines by `run`.
-/

namespace MapfileTool

/-! ## JavaScript numbers -/

/-- The Numbers the program can produce: `NaN`, `-Infinity`, an integer-valued
double, `+Infinity`.  The two zeros are identified: the program only applies
`<`, `>`, `<=`, `>=`, `+` and `toString(16)` to numbers, which agree on them. -/
inductive JSNum where
  | nan
  | ninf
  | fin (v : Int)
  | pinf
  deriving DecidableEq, Repr

/-- Number of binary digits of `n`, by halving at most `fuel` times. -/
def bitLenAux : Nat → Nat → Nat
  | 0, _ => 0
  | fuel + 1, n => if n = 0 then 0 else bitLenAux fuel (n / 2) + 1

/-- Number of binary digits of `n`. -/
def bitLen (n : Nat) : Nat := bitLenAux n n

/-- Round a natural number to the nearest double, ties to even; `none` when the
result overflows to `Infinity`. -/
def roundNat (n : Nat) : Option Nat :=
  if n < 2 ^ 53 then some n
  else
    let e := bitLen n - 53
    let q := n / 2 ^ e
    let r := n % 2 ^ e
    let half := 2 ^ (e - 1)
    let q1 := if half < r ∨ (r = half ∧ q % 2 = 1) then q + 1 else q
    let v := q1 * 2 ^ e
    if 2 ^ 1024 ≤ v then none else some v

/-- The Number value of a mathematical integer. -/
def JSNum.ofInt (i : Int) : JSNum :=
  match roundNat i.natAbs with
  | some m => if i < 0 then .fin (-(m : Int)) else .fin (m : Int)
  | none => if i < 0 then .ninf else .pinf

/-- The operator `a < b` on Numbers. -/
def JSNum.lt : JSNum → JSNum → Bool
  | .nan, _ => false
  | _, .nan => false
  | .fin a, .fin b => decide (a < b)
  | .ninf, .ninf => false
  | .ninf, _ => true
  | _, .ninf => false
  | .pinf, _ => false
  | _, .pinf => true

/-- The operator `a > b` on Numbers. -/
def JSNum.gt (a b : JSNum) : Bool := JSNum.lt b a

/-- The operator `a <= b` on Numbers. -/
def JSNum.le : JSNum → JSNum → Bool
  | .nan, _ => false
  | _, .nan => false
  | a, b => JSNum.lt a b || decide (a = b)

/-- The operator `a >= b` on Numbers. -/
def JSNum.ge (a b : JSNum) : Bool := JSNum.le b a

/-- The operator `a + b` on Numbers. -/
def JSNum.add : JSNum → JSNum → JSNum
  | .nan, _ => .nan
  | _, .nan => .nan
  | .pinf, .ninf => .nan
  | .ninf, .pinf => .nan
  | .pinf, _ => .pinf
  | _, .pinf => .pinf
  | .ninf, _ => .ninf
  | _, .ninf => .ninf
  | .fin a, .fin b => JSNum.ofInt (a + b)

/-! ## Characters and `parseInt` -/

/-- The class `\s` (and the white space `parseInt` skips): WhiteSpace and
LineTerminator code points. -/
def isSpace (c : Char) : Bool :=
  let n := c.toNat
  (9 ≤ n && n ≤ 13) || n = 32 || n = 160 || n = 5760 || (8192 ≤ n && n ≤ 8202) ||
    n = 8232 || n = 8233 || n = 8239 || n = 8287 || n = 12288 || n = 65279

/-- The class `[0-9a-f]`. -/
def isHexLower (c : Char) : Bool :=
  let n := c.toNat
  (48 ≤ n && n ≤ 57) || (97 ≤ n && n ≤ 102)

/-- Value of a radix-16 digit, either case; `none` for any other character. -/
def hexDigit? (c : Char) : Option Nat :=
  let n := c.toNat
  if 48 ≤ n ∧ n ≤ 57 then some (n - 48)
  else if 97 ≤ n ∧ n ≤ 102 then some (n - 87)
  else if 65 ≤ n ∧ n ≤ 70 then some (n - 55)
  else none

/-- Reads the longest prefix of radix-16 digits: the value so far and the number
of digits read. -/
def readHex : List Char → Nat → Nat → Nat × Nat
  | [], acc, cnt => (acc, cnt)
  | c :: cs, acc, cnt =>
    match hexDigit? c with
    | some d => readHex cs (acc * 16 + d) (cnt + 1)
    | none => (acc, cnt)

/-- Drops leading white space. -/
def trimStart : List Char → List Char
  | [] => []
  | c :: cs => if isSpace c then trimStart cs else c :: cs

/-- Drops a leading `0x` or `0X`. -/
def stripHexPrefix : List Char → List Char
  | '0' :: 'x' :: cs => cs
  | '0' :: 'X' :: cs => cs
  | cs => cs

/-- The call `parseInt(s, 16)`. -/
def parseInt16 (s : List Char) : JSNum :=
  let t := trimStart s
  let (neg, t1) :=
    match t with
    | '-' :: cs => (true, cs)
    | '+' :: cs => (false, cs)
    | cs => (false, cs)
  let (v, cnt) := readHex (stripHexPrefix t1) 0 0
  if cnt = 0 then .nan
  else if neg then JSNum.ofInt (-(v : Int)) else JSNum.ofInt (v : Int)

/-! ## Regular expressions -/

/-- The character classes that occur in the program's regular expressions. -/
inductive CClass where
  | space
  | nonSpace
  | hexLower
  | rwx
  | lit (c : Char)
  deriving DecidableEq, Repr

/-- Membership of a character in a class. -/
def CClass.test : CClass → Char → Bool
  | .space, c => isSpace c
  | .nonSpace, c => !isSpace c
  | .hexLower, c => isHexLower c
  | .rwx, c => c = 'r' || c = 'w' || c = 'x'
  | .lit d, c => c = d

/-- Quantifiers: exactly one, `+`, `*` (all greedy). -/
inductive Quant where
  | one
  | plus
  | star
  deriving DecidableEq, Repr

/-- One quantified class, possibly wrapped in a capture group. -/
structure Atom where
  cls : CClass
  quant : Quant
  capture : Bool
  deriving DecidableEq, Repr

/-- A regular expression `/^ atoms /` or `/^ atoms $/`. -/
structure Regex where
  atoms : List Atom
  anchorEnd : Bool
  deriving DecidableEq, Repr

/-- Greedy repetition with backtracking: consume characters of the class as long
as possible, then try the continuation `k` on the longest match first and on
shorter and shorter ones after it.  `acc` is what has been consumed so far. -/
def greedy {α : Type} (p : Char → Bool) (k : List Char → List Char → Option α) :
    List Char → List Char → Option α
  | acc, [] => k acc []
  | acc, c :: cs =>
    if p c then
      match greedy p k (acc ++ [c]) cs with
      | some r => some r
      | none => k acc (c :: cs)
    else k acc (c :: cs)

/-- Match one atom at the head of the input and hand what it consumed, and the
rest of the input, to the continuation. -/
def matchAtom {α : Type} (a : Atom) (k : List Char → List Char → Option α)
    (input : List Char) : Option α :=
  match a.quant with
  | .one =>
    match input with
    | c :: cs => if a.cls.test c then k [c] cs else none
    | [] => none
  | .plus =>
    match input with
    | c :: cs => if a.cls.test c then greedy a.cls.test k [c] cs else none
    | [] => none
  | .star => greedy a.cls.test k [] input

/-- Match a sequence of atoms from the start of the input; returns the captured
groups in order. -/
def matchAtoms (anchorEnd : Bool) :
    List Atom → List (List Char) → List Char → Option (List (List Char))
  | [], caps, rest => if anchorEnd && !rest.isEmpty then none else some caps
  | a :: as, caps, input =>
    matchAtom a
      (fun m rest => matchAtoms anchorEnd as (if a.capture then caps ++ [m] else caps) rest)
      input

/-- The call `line.match(re)`: `none` for `null`, otherwise the groups
`found[1]`, `found[2]`, ... -/
def reMatch (re : Regex) (line : List Char) : Option (List (List Char)) :=
  matchAtoms re.anchorEnd re.atoms [] line

/-- A capture group around a quantified class. -/
def grp (c : CClass) (q : Quant) : Atom := ⟨c, q, true⟩

/-- A quantified class outside any group. -/
def cls (c : CClass) (q : Quant) : Atom := ⟨c, q, false⟩

/-- A literal character. -/
def chr (c : Char) : Atom := ⟨.lit c, .one, false⟩

/-- The expression `/^(\S+)\s+0x(\S+)\s+0x(\S+)\s+([rwx]+)$/`. -/
def reMemory : Regex :=
  ⟨[grp .nonSpace .plus, cls .space .plus, chr '0', chr 'x', grp .nonSpace .plus,
    cls .space .plus, chr '0', chr 'x', grp .nonSpace .plus, cls .space .plus,
    grp .rwx .plus], true⟩

/-- The expression `/^(\S*)\s+0x(\S*)\s+0x(\S*)/`. -/
def reSection : Regex :=
  ⟨[grp .nonSpace .star, cls .space .plus, chr '0', chr 'x', grp .nonSpace .star,
    cls .space .plus, chr '0', chr 'x', grp .nonSpace .star], false⟩

/-- The expression `/^(\S*)$/`. -/
def reSectionName : Regex := ⟨[grp .nonSpace .star], true⟩

/-- The tail `0x([0-9a-f]+)\s+0x([0-9a-f]+)\s+(\S+)\((\S+)\)` of the two
symbol expressions with archive information. -/
def tailArchive : List Atom :=
  [chr '0', chr 'x', grp .hexLower .plus, cls .space .plus, chr '0', chr 'x',
   grp .hexLower .plus, cls .space .plus, grp .nonSpace .plus, chr '(',
   grp .nonSpace .plus, chr ')']

/-- The tail `0x([0-9a-f]+)\s+0x([0-9a-f]+)\s+(\S+)` of the two symbol
expressions with only object information. -/
def tailObject : List Atom :=
  [chr '0', chr 'x', grp .hexLower .plus, cls .space .plus, chr '0', chr 'x',
   grp .hexLower .plus, cls .space .plus, grp .nonSpace .plus]

/-- The expression
`/^\s(\S+)\s+0x([0-9a-f]+)\s+0x([0-9a-f]+)\s+(\S+)\((\S+)\)$/`. -/
def reSymbolArchive : Regex :=
  ⟨cls .space .one :: grp .nonSpace .plus :: cls .space .plus :: tailArchive, true⟩

/-- The expression `/^\s(\S+)\s+0x([0-9a-f]+)\s+0x([0-9a-f]+)\s+(\S+)$/`. -/
def reSymbolObject : Regex :=
  ⟨cls .space .one :: grp .nonSpace .plus :: cls .space .plus :: tailObject, true⟩

/-- The expression `/^\s(\S*)$/`. -/
def reSymbolName : Regex := ⟨[cls .space .one, grp .nonSpace .star], true⟩

/-- The expression `/^\s+0x([0-9a-f]+)\s+0x([0-9a-f]+)$/`. -/
def reSection2 : Regex :=
  ⟨[cls .space .plus, chr '0', chr 'x', grp .hexLower .plus, cls .space .plus,
    chr '0', chr 'x', grp .hexLower .plus], true⟩

/-- The expression `/^\s+0x([0-9a-f]+)\s+0x([0-9a-f]+)\s+(\S+)\((\S+)\)$/`. -/
def reSymbol2Archive : Regex := ⟨cls .space .plus :: tailArchive, true⟩

/-- The expression `/^\s+0x([0-9a-f]+)\s+0x([0-9a-f]+)\s+(\S+)$/`. -/
def reSymbol2Object : Regex := ⟨cls .space .plus :: tailObject, true⟩

/-! ## Data model -/

/-- A symbol object `{ name, origin, length, archive, object }`; `archive` is
absent (`undefined`) in the object-only forms. -/
structure Symbol where
  name : List Char
  origin : JSNum
  length : JSNum
  archive : Option (List Char)
  object : List Char
  deriving DecidableEq, Repr

/-- A section object `{ name, origin, length, symbols }`. -/
structure Section where
  name : List Char
  origin : JSNum
  length : JSNum
  symbols : List Symbol
  deriving DecidableEq, Repr

/-- A memory region object `{ name, origin, length, attributes, sections }`. -/
structure MemoryRegion where
  name : List Char
  origin : JSNum
  length : JSNum
  attributes : List Char
  sections : List Section
  deriving DecidableEq, Repr

/-- What the program can throw: the `TypeError` of reading a property of
`undefined` or `null`. -/
inductive JSError where
  | typeError
  deriving DecidableEq, Repr

/-- The variables of the line loop.  `sec` is the variable `section`: `none` when
it is `undefined` or `null`, otherwise the position (region index, index in that
region's `sections`) of the object it refers to, which never moves during the
parse because the lists only grow at the end.  `name` is read only after it has
been assigned, so its initial `undefined` is represented by the empty string. -/
structure State where
  map : List MemoryRegion
  sec : Option (Nat × Nat)
  state : Nat
  name : List Char
  deriving DecidableEq, Repr

/-- The variables before the first line. -/
def State.init : State := ⟨[], none, 0, []⟩

/-- Apply `f` to the element at an index, if there is one. -/
def modifyAt {α : Type} (f : α → α) : Nat → List α → List α
  | _, [] => []
  | 0, x :: xs => f x :: xs
  | n + 1, x :: xs => x :: modifyAt f n xs

/-- The test of `findMemory`:
`section.origin >= region.origin && section.origin <= region.origin + region.length`. -/
def inRegion (region : MemoryRegion) (origin : JSNum) : Bool :=
  JSNum.ge origin region.origin && JSNum.le origin (JSNum.add region.origin region.length)

/-- The closure `findMemory`: the index of the first region, in the order of
`map`, that passes the test; `none` for the `undefined` it returns otherwise. -/
def findMemory : List MemoryRegion → JSNum → Option Nat
  | [], _ => none
  | region :: rest, origin =>
    if inRegion region origin then some 0 else (findMemory rest origin).map (· + 1)

/-- The statement `mem.sections.push(section)` for the region at index `i`. -/
def pushSection (map : List MemoryRegion) (i : Nat) (s : Section) : List MemoryRegion :=
  modifyAt (fun mem => { mem with sections := mem.sections ++ [s] }) i map

/-- The statement `section.symbols.push(symbol)` for the section at position `pos`. -/
def pushSymbol (map : List MemoryRegion) (pos : Nat × Nat) (y : Symbol) : List MemoryRegion :=
  modifyAt
    (fun mem =>
      { mem with
        sections := (modifyAt (fun s => { s with symbols := s.symbols ++ [y] }) pos.2 mem.sections) })
    pos.1 map

/-- Number of sections of the region at index `i`. -/
def sectionCount (map : List MemoryRegion) (i : Nat) : Nat :=
  match map.get? i with
  | some mem => mem.sections.length
  | none => 0

/-- The block shared by the one-line and the two-line section definition: build
the section, and attach it to the region `findMemory` returns when its origin is
positive, else reset `section` to `null`.  Reading `mem.sections` of an
`undefined` `mem` throws. -/
def openSection (s : State) (name : List Char) (origin length : JSNum) :
    Except JSError State :=
  if JSNum.gt origin (.fin 0) then
    match findMemory s.map origin with
    | some i =>
      .ok { s with map := pushSection s.map i ⟨name, origin, length, []⟩,
                   sec := some (i, sectionCount s.map i) }
    | none => .error .typeError
  else .ok { s with sec := none }

/-- The statement `section.symbols.push(symbol)`; throws on a `null` section. -/
def addSymbol (s : State) (y : Symbol) : Except JSError State :=
  match s.sec with
  | some pos => .ok { s with map := pushSymbol s.map pos y }
  | none => .error .typeError

/-- The literal `"Memory Configuration"`. -/
def memoryConfiguration : List Char := "Memory Configuration".toList

/-- The literal `"Linker script and memory map"`. -/
def linkerScript : List Char := "Linker script and memory map".toList

/-- One iteration of the line loop: the `switch (state)` applied to one line. -/
def step (s : State) (line : List Char) : Except JSError State :=
  match s.state with
  | 0 =>
    if line = memoryConfiguration then .ok { s with state := 1 } else .ok s
  | 1 =>
    if line ≠ linkerScript then
      match reMatch reMemory line with
      | some [n, o, l, a] =>
        .ok { s with map := s.map ++ [⟨n, parseInt16 o, parseInt16 l, a, []⟩] }
      | _ => .ok s
    else .ok { s with state := 2 }
  | 2 =>
    if line.head? = some '.' then
      match reMatch reSection line with
      | some [n, o, l] => openSection s n (parseInt16 o) (parseInt16 l)
      | _ =>
        match reMatch reSectionName line with
        | some [n] => .ok { s with name := n, state := 3 }
        | _ => .ok s
    else if s.sec.isSome && line.head? = some ' ' && line.get? 1 ≠ some '*' then
      match reMatch reSymbolArchive line with
      | some [n, o, l, a, b] =>
        addSymbol s ⟨n, parseInt16 o, parseInt16 l, some a, b⟩
      | _ =>
        match reMatch reSymbolObject line with
        | some [n, o, l, b] => addSymbol s ⟨n, parseInt16 o, parseInt16 l, none, b⟩
        | _ =>
          match reMatch reSymbolName line with
          | some [n] => .ok { s with name := n, state := 4 }
          | _ => .ok s
    else .ok s
  | 3 =>
    match reMatch reSection2 line with
    | some [o, l] =>
      match openSection s s.name (parseInt16 o) (parseInt16 l) with
      | .ok s1 => .ok { s1 with state := 2 }
      | .error e => .error e
    | _ => .ok { s with state := 2 }
  | 4 =>
    match reMatch reSymbol2Archive line with
    | some [o, l, a, b] =>
      match addSymbol s ⟨s.name, parseInt16 o, parseInt16 l, some a, b⟩ with
      | .ok s1 => .ok { s1 with state := 2 }
      | .error e => .error e
    | _ =>
      match reMatch reSymbol2Object line with
      | some [o, l, b] =>
        match addSymbol s ⟨s.name, parseInt16 o, parseInt16 l, none, b⟩ with
        | .ok s1 => .ok { s1 with state := 2 }
        | .error e => .error e
      | _ => .ok { s with state := 2 }
  | _ => .ok s

/-- The loop `for await (const line of rl)`, started from given variables. -/
def run : State → List (List Char) → Except JSError State
  | s, [] => .ok s
  | s, line :: rest =>
    match step s line with
    | .ok s1 => run s1 rest
    | .error e => .error e

/-- The value of `map` after the loop over all lines. -/
def parseLines (lines : List (List Char)) : Except JSError (List MemoryRegion) :=
  match run State.init lines with
  | .ok s => .ok s.map
  | .error e => .error e

/-! ## Sorting -/

/-- The UTF-16 code units of a string. -/
def utf16 : List Char → List Nat
  | [] => []
  | c :: cs =>
    if c.toNat < 65536 then c.toNat :: utf16 cs
    else (55296 + (c.toNat - 65536) / 1024) :: (56320 + (c.toNat - 65536) % 1024) :: utf16 cs

/-- Lexicographic comparison of code-unit sequences: `a < b` on strings. -/
def lexLt : List Nat → List Nat → Bool
  | _, [] => false
  | [], _ :: _ => true
  | a :: as, b :: bs => decide (a < b) || (decide (a = b) && lexLt as bs)

/-- What a property read `a[options.sortby]` can yield on the objects being
sorted. -/
inductive JSValue where
  | undefined
  | str (s : List Char)
  | num (n : JSNum)
  deriving DecidableEq, Repr

/-- The operator `a < b` on these values.  Two strings compare by code units, two
numbers as numbers; `undefined` converts to `NaN`, so the result is `false`.  A
field holds a string in every object or a number in every object, so a string is
never compared with a number. -/
def JSValue.lt : JSValue → JSValue → Bool
  | .str a, .str b => lexLt (utf16 a) (utf16 b)
  | .num a, .num b => JSNum.lt a b
  | _, _ => false

/-- The values of `sortby` admitted by the type `parseMapfileOptions`. -/
inductive SortField where
  | name
  | origin
  | length
  | archive
  | object
  deriving DecidableEq, Repr

/-- The values of `order` admitted by the type `parseMapfileOptions`. -/
inductive Order where
  | asc
  | desc
  deriving DecidableEq, Repr

/-- The values of `format` admitted by the type `parseMapfileOptions`. -/
inductive Format where
  | object
  | table
  deriving DecidableEq, Repr

/-- The object `options` without `filepath`: the lines are passed directly. -/
structure Options where
  sortby : Option SortField
  order : Option Order
  format : Option Format
  deriving DecidableEq, Repr

/-- The property read `symbol[sortby]`. -/
def Symbol.field (y : Symbol) : SortField → JSValue
  | .name => .str y.name
  | .origin => .num y.origin
  | .length => .num y.length
  | .archive =>
    match y.archive with
    | some a => .str a
    | none => .undefined
  | .object => .str y.object

/-- The property read `section[sortby]`: a section has no `archive` and no
`object`. -/
def Section.field (s : Section) : SortField → JSValue
  | .name => .str s.name
  | .origin => .num s.origin
  | .length => .num s.length
  | .archive => .undefined
  | .object => .undefined

/-- The two closures `compare`, over the values of the sort field:
`(a < b) ? 1 : -1` for `'desc'`, `(a > b) ? 1 : -1` otherwise. -/
def compare (order : Option Order) (a b : JSValue) : Int :=
  if order = some .desc then (if JSValue.lt a b then 1 else -1)
  else (if JSValue.lt b a then 1 else -1)

/-! The method `Array.prototype.sort(cmp)` is the host's.  The tool runs on Node.js,
whose engine (V8, from version 7.0) sorts with the procedure modelled below: `CountAndMakeRun` takes the
longest run at the start of the array, strictly descending or weakly ascending as
its first two elements are, and reverses a descending run in place;
`BinaryInsertionSort` then inserts the remaining elements one by one at the place
found by bisection.  The comparator is called as `cmp(later, earlier)` and only
the sign of its answer is used.  An array of fewer than 64 elements is handled as
one such run; a longer one is cut into runs, which are merged, and that gives the
same array whenever the comparator is a strict total order on the elements.  The
model treats every array as one run. -/

/-- The loop of `CountAndMakeRun` after the first two elements: the elements that
continue the run, and the rest of the array.  An element continues a descending
run when `cmp(current, previous) < 0`, an ascending run when it is not. -/
def extendRun {α : Type} (cmp : α → α → Int) (desc : Bool) (prev : α) :
    List α → List α × List α
  | [] => ([], [])
  | x :: xs =>
    if decide (cmp x prev < 0) = desc then
      (x :: (extendRun cmp desc x xs).1, (extendRun cmp desc x xs).2)
    else ([], x :: xs)

/-- The host's `CountAndMakeRun`: the run at the start of the array, made
ascending, and the rest of the array.  The run is descending when
`cmp(second, first) < 0`, and is then reversed. -/
def countAndMakeRun {α : Type} (cmp : α → α → Int) : List α → List α × List α
  | [] => ([], [])
  | [a] => ([a], [])
  | a :: b :: rest =>
    if cmp b a < 0 then
      ((a :: b :: (extendRun cmp true b rest).1).reverse, (extendRun cmp true b rest).2)
    else (a :: b :: (extendRun cmp false b rest).1, (extendRun cmp false b rest).2)

/-- The bisection loop of `BinaryInsertionSort`: `while (left < right)`, with
`mid = left + ((right - left) >> 1)`, `right = mid` when `cmp(pivot, work[mid]) < 0`
and `left = mid + 1` otherwise.  The first argument bounds the number of rounds;
`right - left` rounds are enough, since every round shrinks the interval. -/
def binarySearch {α : Type} (cmp : α → α → Int) (pivot : α) (work : List α) :
    Nat → Nat → Nat → Nat
  | 0, left, _ => left
  | fuel + 1, left, right =>
    if left < right then
      match work[left + (right - left) / 2]? with
      | some m =>
        if cmp pivot m < 0 then binarySearch cmp pivot work fuel left (left + (right - left) / 2)
        else binarySearch cmp pivot work fuel (left + (right - left) / 2 + 1) right
      | none => left
    else left

/-- One round of `BinaryInsertionSort`: the pivot is put at the index the
bisection of the whole sorted part ends on. -/
def binaryInsert {α : Type} (cmp : α → α → Int) (pivot : α) (work : List α) : List α :=
  work.take (binarySearch cmp pivot work work.length 0 work.length) ++
    pivot :: work.drop (binarySearch cmp pivot work work.length 0 work.length)

/-- The host's `BinaryInsertionSort`: the elements after the run are inserted
into it from left to right. -/
def binaryInsertionSort {α : Type} (cmp : α → α → Int) : List α → List α → List α
  | work, [] => work
  | work, pivot :: rest => binaryInsertionSort cmp (binaryInsert cmp pivot work) rest

/-- The method `Array.prototype.sort(cmp)` of the host: the run at the start of
the array, then the insertion of the other elements. -/
def arraySort {α : Type} (cmp : α → α → Int) (l : List α) : List α :=
  binaryInsertionSort cmp (countAndMakeRun cmp l).1 (countAndMakeRun cmp l).2

/-- The statement `section.symbols.sort(compare)`. -/
def sortSymbols (f : SortField) (order : Option Order) (s : Section) : Section :=
  { s with symbols := arraySort (fun a b => compare order (a.field f) (b.field f)) s.symbols }

/-- The body of `for (const mem of map)`: sort the symbols of every section of
the region, then `mem.sections.sort(compare)`. -/
def sortSections (f : SortField) (order : Option Order) (mem : MemoryRegion) : MemoryRegion :=
  { mem with
    sections :=
      arraySort (fun a b => compare order (a.field f) (b.field f))
        (mem.sections.map (sortSymbols f order)) }

/-- The body of `if (options.sortby)`: the loop over the regions. -/
def sortPass (f : SortField) (order : Option Order) (map : List MemoryRegion) :
    List MemoryRegion :=
  map.map (sortSections f order)

/-! ## Table output -/

/-- The digit character of a value below 16, lower case. -/
def hexChar (d : Nat) : Char :=
  if d < 10 then Char.ofNat (48 + d) else Char.ofNat (87 + d)

/-- Radix-16 digits of `n`, most significant first, in front of `acc`. -/
def hexDigitsAux : Nat → Nat → List Char → List Char
  | 0, _, acc => acc
  | fuel + 1, n, acc =>
    if n < 16 then hexChar n :: acc else hexDigitsAux fuel (n / 16) (hexChar (n % 16) :: acc)

/-- The call `n.toString(16)`.  For an integer the digits are exact, which every
host prints below `2^53`; above, a host may print zeros for the digits beyond the
precision of a double. -/
def toString16 : JSNum → List Char
  | .nan => "NaN".toList
  | .pinf => "Infinity".toList
  | .ninf => "-Infinity".toList
  | .fin v =>
    if v < 0 then '-' :: hexDigitsAux (v.natAbs + 1) v.natAbs []
    else hexDigitsAux (v.natAbs + 1) v.natAbs []

/-- One row of the table: the array of seven entries pushed per symbol. -/
structure Row where
  region : List Char
  sectionName : List Char
  symbol : List Char
  origin : List Char
  length : JSNum
  archive : Option (List Char)
  object : List Char
  deriving DecidableEq, Repr

/-- The body of `if (options.format === 'table')`. -/
def toTable (map : List MemoryRegion) : List Row :=
  map.flatMap fun mem =>
    mem.sections.flatMap fun s =>
      s.symbols.map fun y =>
        ⟨mem.name, s.name, y.name, '0' :: 'x' :: toString16 y.origin, y.length, y.archive,
          y.object⟩

/-- What `parseMapfile` resolves to: the array of regions or the table. -/
inductive Output where
  | object (map : List MemoryRegion)
  | table (rows : List Row)
  deriving DecidableEq, Repr

/-- The part of `parseMapfile` after the line loop. -/
def finish (options : Options) (map : List MemoryRegion) : Output :=
  let sorted :=
    match options.sortby with
    | some f => sortPass f options.order map
    | none => map
  if options.format = some .table then .table (toTable sorted) else .object sorted

/-- The function `parseMapfile` on the lines of the file at `options.filepath`:
`.error` when the returned promise is rejected. -/
def parseMapfile (options : Options) (lines : List (List Char)) : Except JSError Output :=
  match parseLines lines with
  | .ok map => .ok (finish options map)
  | .error e => .error e

/-! ## Input shapes and matching paths used in the statements -/

/-- The input is empty or starts with a character outside the class. -/
def StopsAt (p : Char → Bool) (rest : List Char) : Prop :=
  ∀ c, rest.head? = some c → p c = false

/-- A segment that an atom consumes on the greedy path: all its characters are in
the class, its length fits the quantifier, and a repetition cannot go on into
the rest of the input. -/
def SegOK (a : Atom) (seg rest : List Char) : Prop :=
  (∀ c ∈ seg, a.cls.test c = true) ∧
  match a.quant with
  | .one => ∃ c, seg = [c]
  | .plus => seg ≠ [] ∧ StopsAt a.cls.test rest
  | .star => StopsAt a.cls.test rest

/-- The segments, one per atom, that the atoms consume in front of `tail`. -/
def SegMatch (tail : List Char) : List Atom → List (List Char) → Prop
  | [], [] => True
  | a :: as, s :: ss => SegOK a s (ss.flatten ++ tail) ∧ SegMatch tail as ss
  | _, _ => False

/-- The segments of the atoms that are capture groups. -/
def captured : List Atom → List (List Char) → List (List Char)
  | a :: as, s :: ss => if a.capture then s :: captured as ss else captured as ss
  | _, _ => []

/-- A name token: a non-empty string without white space. -/
def Token (t : List Char) : Prop := t ≠ [] ∧ ∀ c ∈ t, isSpace c = false

/-- A non-empty string of lower-case hexadecimal digits. -/
def HexToken (t : List Char) : Prop := t ≠ [] ∧ ∀ c ∈ t, isHexLower c = true

/-- A non-empty string of white space. -/
def Blank (w : List Char) : Prop := w ≠ [] ∧ ∀ c ∈ w, isSpace c = true

/-- A non-empty string over the characters `r`, `w`, `x`. -/
def AttrToken (t : List Char) : Prop := t ≠ [] ∧ ∀ c ∈ t, CClass.rwx.test c = true

/-- The fields `0xORIGIN 0xLENGTH`. -/
def fields2 (o l : List Char) : List Char := '0' :: 'x' :: (o ++ ' ' :: '0' :: 'x' :: l)

/-- The fields `0xORIGIN 0xLENGTH TRAILER`. -/
def fields3 (o l t : List Char) : List Char := fields2 o (l ++ ' ' :: t)

/-- The configuration line `NAME 0xORIGIN 0xLENGTH ATTR`. -/
def memoryLine (n o l a : List Char) : List Char := n ++ ' ' :: fields3 o l a

/-- The one-line section header `NAME 0xORIGIN 0xLENGTH`. -/
def sectionLine (n o l : List Char) : List Char := n ++ ' ' :: fields2 o l

/-- The one-line symbol ` NAME 0xORIGIN 0xLENGTH TRAILER`. -/
def symbolLine (n o l t : List Char) : List Char := ' ' :: (n ++ ' ' :: fields3 o l t)

/-- The trailer `X(Y)`. -/
def parenForm (x y : List Char) : List Char := x ++ '(' :: (y ++ [')'])

instance (t : List Char) : Decidable (Token t) := by unfold Token; infer_instance
instance (t : List Char) : Decidable (HexToken t) := by unfold HexToken; infer_instance
instance (t : List Char) : Decidable (Blank t) := by unfold Blank; infer_instance
instance (t : List Char) : Decidable (AttrToken t) := by unfold AttrToken; infer_instance

/-- Every section is attached to the region `findMemory` returns for its origin,
and its origin is positive. -/
def SectionsOK (map : List MemoryRegion) : Prop :=
  ∀ i r, map[i]? = some r → ∀ x ∈ r.sections,
    JSNum.gt x.origin (.fin 0) = true ∧ findMemory map x.origin = some i

/-- The invariant of the line loop: sections sit where `findMemory` puts them,
and no section exists before the memory map starts. -/
def Inv (s : State) : Prop :=
  SectionsOK s.map ∧ (s.state ≤ 1 → ∀ r ∈ s.map, r.sections = [])

/-- What the match leaves in the capture groups: one string per capturing atom,
in order, made of characters of the class of the atom and, unless the quantifier
is `*`, not empty. -/
def CapOK : List Atom → List (List Char) → Prop
  | [], ms => ms = []
  | a :: as, ms =>
    if a.capture = true then
      ∃ m rest, ms = m :: rest ∧ (∀ c ∈ m, a.cls.test c = true) ∧
        (a.quant ≠ .star → m ≠ []) ∧ CapOK as rest
    else CapOK as ms

/-- What the symbol expressions guarantee of a symbol: `object` is a token,
`archive`, when present, is a token, and `origin` and `length` are `parseInt` of
non-empty strings of lower-case hexadecimal digits. -/
def SymbolOK (y : Symbol) : Prop :=
  Token y.object ∧ (∀ a, y.archive = some a → Token a) ∧
    (∃ o, HexToken o ∧ y.origin = parseInt16 o) ∧ (∃ l, HexToken l ∧ y.length = parseInt16 l)

/-- What one iteration of the line loop can do to `map`: nothing; in state 1,
push a region without sections; in the memory map, push a section without
symbols onto the region `findMemory` returns for its positive origin and make it
the open section; or push a symbol, as the symbol expressions read it, onto the
open section. -/
inductive StepEffect (s s1 : State) : Prop where
  | same (hmap : s1.map = s.map)
  | region (r : MemoryRegion) (hstate : s.state = 1) (hr : r.sections = [])
      (hmap : s1.map = s.map ++ [r])
  | sect (i : Nat) (x : Section) (hstate : 2 ≤ s.state) (hx : x.symbols = [])
      (hpos : JSNum.gt x.origin (.fin 0) = true) (hfind : findMemory s.map x.origin = some i)
      (hmap : s1.map = pushSection s.map i x) (hsec : s1.sec = some (i, sectionCount s.map i))
  | symbol (pos : Nat × Nat) (y : Symbol) (hstate : 2 ≤ s.state) (hsec : s.sec = some pos)
      (hmap : s1.map = pushSymbol s.map pos y) (hsec1 : s1.sec = s.sec) (hy : SymbolOK y)

/-- No address passes the range test of two different regions. -/
def RangesDisjoint (map : List MemoryRegion) : Prop :=
  ∀ (j k : Nat) (rj rk : MemoryRegion) (o : JSNum), j ≠ k → map[j]? = some rj →
    map[k]? = some rk →
    ¬ (inRegion rj o = true ∧ inRegion rk o = true)

/-- A small map file: two regions, a section with two symbols in the first, a
section given on two lines in the second, and a discarded section. -/
def sampleLines : List (List Char) :=
  ["Memory Configuration".toList,
   "FLASH 0x08000000 0x00020000 xr".toList,
   "RAM 0x20000000 0x00005000 xrw".toList,
   "Linker script and memory map".toList,
   ".text 0x08000000 0x1000".toList,
   " main 0x08000100 0x40 main.o".toList,
   " foo 0x08000200 0x10 libbar.a(bar.o)".toList,
   ".bss".toList,
   "   0x20000000 0x200".toList,
   ".comment 0x0 0x30".toList]

/-- The regions `sampleLines` parses to. -/
def sampleMap : List MemoryRegion :=
  [⟨"FLASH".toList, .fin 0x8000000, .fin 0x20000, "xr".toList,
    [⟨".text".toList, .fin 0x8000000, .fin 0x1000,
      [⟨"main".toList, .fin 0x8000100, .fin 0x40, none, "main.o".toList⟩,
       ⟨"foo".toList, .fin 0x8000200, .fin 0x10, some "libbar.a".toList, "bar.o".toList⟩]⟩]⟩,
   ⟨"RAM".toList, .fin 0x20000000, .fin 0x5000, "xrw".toList,
    [⟨".bss".toList, .fin 0x20000000, .fin 0x200, []⟩]⟩]

/-- Section `b` is section `a` with symbols pushed at the end: same fields, and
every symbol of `a` is at the same index in `b`. -/
def SectionExt (a b : Section) : Prop :=
  a.name = b.name ∧ a.origin = b.origin ∧ a.length = b.length ∧
    ∀ (k : Nat) (y : Symbol), a.symbols[k]? = some y → b.symbols[k]? = some y

/-- Region `b` is region `a` with sections pushed at the end and symbols pushed at
the end of its sections: same fields, and every section of `a` is at the same
index in `b`, possibly with more symbols at its end. -/
def RegionExt (a b : MemoryRegion) : Prop :=
  a.name = b.name ∧ a.origin = b.origin ∧ a.length = b.length ∧
    a.attributes = b.attributes ∧
    ∀ (j : Nat) (x : Section), a.sections[j]? = some x →
      ∃ x1, b.sections[j]? = some x1 ∧ SectionExt x x1

/-- The array `m1` is `m` after pushes only: every region of `m` is at the same
index in `m1`, possibly with more sections and symbols at the ends of its lists.
Nothing is inserted in front of an older entry, removed or reordered. -/
def MapExt (m m1 : List MemoryRegion) : Prop :=
  ∀ (i : Nat) (r : MemoryRegion), m[i]? = some r → ∃ r1, m1[i]? = some r1 ∧ RegionExt r r1

/-- A value that the comparison operators can order: not `undefined`, not `NaN`. -/
def Defined (v : JSValue) : Prop := v ≠ .undefined ∧ v ≠ .num .nan

instance (v : JSValue) : Decidable (Defined v) := by unfold Defined; infer_instance

/-- The value `a` comes strictly before the value `b` in the requested direction:
`a > b` for `'desc'`, `a < b` otherwise. -/
def precedes (order : Option Order) (a b : JSValue) : Prop :=
  if order = some .desc then JSValue.lt b a = true else JSValue.lt a b = true

/-- A list of values is strictly descending for `'desc'`, strictly ascending
otherwise. -/
def StrictlyOrdered (order : Option Order) (vals : List JSValue) : Prop :=
  vals.Pairwise (precedes order)

/-- Scenario E: one region with sections of length `0x10`, `0x100`, `0x4`. -/
def sortLines : List (List Char) :=
  ["Memory Configuration".toList,
   "FLASH 0x08000000 0x00020000 xr".toList,
   "Linker script and memory map".toList,
   ".a 0x08000000 0x10".toList,
   " f 0x08000000 0x4 a.o".toList,
   " g 0x08000004 0xc a.o".toList,
   ".b 0x08000010 0x100".toList,
   ".c 0x08000110 0x4".toList]

/-- A region as the configuration line creates it: with no sections. -/
def regionHead (r : MemoryRegion) : MemoryRegion := { r with sections := [] }

/-- Total number of symbols over all sections of all regions. -/
def symbolCount (map : List MemoryRegion) : Nat :=
  (map.map fun r => (r.sections.map fun x => x.symbols.length).sum).sum

/-- Section `b` is section `a` with its symbols permuted: same fields, and the
symbols of `b` are a permutation of those of `a`. -/
def SectionPerm (a b : Section) : Prop :=
  a.name = b.name ∧ a.origin = b.origin ∧ a.length = b.length ∧ a.symbols.Perm b.symbols

/-- Region `b` is region `a` with its sections permuted and the symbols of each
section permuted: same fields, and the sections of `b` are a permutation of a
list that matches the sections of `a` one to one, in order, up to the order of
their symbols. -/
def RegionPerm (a b : MemoryRegion) : Prop :=
  a.name = b.name ∧ a.origin = b.origin ∧ a.length = b.length ∧
    a.attributes = b.attributes ∧
    ∃ l, List.Forall₂ SectionPerm a.sections l ∧ l.Perm b.sections

/-- Two regions declared as `RAM` then `FLASH`, no memory map. -/
def ramFlashLines : List (List Char) :=
  ["Memory Configuration".toList,
   "RAM 0x20000000 0x00005000 xrw".toList,
   "FLASH 0x08000000 0x00020000 xr".toList,
   "Linker script and memory map".toList]

/-- Every symbol of the structure is as the symbol expressions read it. -/
def AllSymbolsOK (map : List MemoryRegion) : Prop :=
  ∀ r ∈ map, ∀ x ∈ r.sections, ∀ y ∈ x.symbols, SymbolOK y

/-- The number that a string of hexadecimal digits denotes, most significant
digit first. -/
def hexRead (ds : List Char) : Nat :=
  ds.foldl (fun acc c => acc * 16 + (hexDigit? c).getD 0) 0

/-- The string is the lower-case hexadecimal numeral of `v` without leading
zeros: not empty, all digits lower-case hexadecimal, a leading `0` only for `0`
itself, and read in base 16 it gives `v`. -/
def IsHexNumeral (ds : List Char) (v : Nat) : Prop :=
  ds ≠ [] ∧ (∀ c ∈ ds, isHexLower c = true) ∧ (ds.head? = some '0' → ds = ['0']) ∧
    hexRead ds = v

/-- The row pushed for symbol `y` of section `x` of region `r`. -/
def rowOf (r : MemoryRegion) (x : Section) (y : Symbol) : Row :=
  ⟨r.name, x.name, y.name, '0' :: 'x' :: toString16 y.origin, y.length, y.archive, y.object⟩

/-- A section holding one symbol whose origin field has 257 hexadecimal digits. -/
def overflowLines : List (List Char) :=
  ["Memory Configuration".toList,
   "FLASH 0x08000000 0x00020000 xr".toList,
   "Linker script and memory map".toList,
   ".text 0x08000000 0x1000".toList,
   " big 0x".toList ++ List.replicate 257 'f' ++ " 0x4 a.o".toList]

/-- Equality of results of `Except` type is decidable when it is for errors and
values. -/
instance exceptDecEq {ε α : Type} [DecidableEq ε] [DecidableEq α] : DecidableEq (Except ε α) :=
  fun a b =>
    match a, b with
    | .ok x, .ok y =>
      if h : x = y then isTrue (by rw [h]) else isFalse (fun he => h (Except.ok.inj he))
    | .error x, .error y =>
      if h : x = y then isTrue (by rw [h]) else isFalse (fun he => h (Except.error.inj he))
    | .ok _, .error _ => isFalse (fun he => by cases he)
    | .error _, .ok _ => isFalse (fun he => by cases he)

/-- The region that a configuration line creates: the line matches
`<name> 0x<field> 0x<field> <attr>`, with `attr` a non-empty string over `r`, `w`,
`x`, and the region has no sections. -/
def regionOfLine (line : List Char) : Option MemoryRegion :=
  match reMatch reMemory line with
  | some [n, o, l, a] => some ⟨n, parseInt16 o, parseInt16 l, a, []⟩
  | _ => none

/-- The lines strictly after the first line equal to `Memory Configuration` and
before the first later line equal to `Linker script and memory map`. -/
def configLines (lines : List (List Char)) : List (List Char) :=
  ((lines.dropWhile (fun l => decide (l ≠ memoryConfiguration))).drop 1).takeWhile
    (fun l => decide (l ≠ linkerScript))

/-- One region per configuration line that matches, in the order of the lines. -/
def declaredRegions (lines : List (List Char)) : List MemoryRegion :=
  (configLines lines).filterMap regionOfLine

/-- The regions still to come from the lines not yet read, by the state of the
line loop. -/
def pendingRegions : Nat → List (List Char) → List MemoryRegion
  | 0, lines => declaredRegions lines
  | 1, lines => (lines.takeWhile (fun l => decide (l ≠ linkerScript))).filterMap regionOfLine
  | _ + 2, _ => []

/-- One section with three symbols: `r` of the archive `liba.a`, `q` of no
archive, `p` of the archive `libz.a`. -/
def archiveLines : List (List Char) :=
  ["Memory Configuration".toList,
   "FLASH 0x08000000 0x00020000 xr".toList,
   "Linker script and memory map".toList,
   ".text 0x08000000 0x1000".toList,
   " r 0x08000000 0x10 liba.a(r.o)".toList,
   " q 0x08000010 0x10 q.o".toList,
   " p 0x08000020 0x10 libz.a(p.o)".toList]

/-- The regions `archiveLines` parses to. -/
def archiveMap : List MemoryRegion :=
  [⟨"FLASH".toList, .fin 0x8000000, .fin 0x20000, "xr".toList,
    [⟨".text".toList, .fin 0x8000000, .fin 0x1000,
      [⟨"r".toList, .fin 0x8000000, .fin 0x10, some "liba.a".toList, "r.o".toList⟩,
       ⟨"q".toList, .fin 0x8000010, .fin 0x10, none, "q.o".toList⟩,
       ⟨"p".toList, .fin 0x8000020, .fin 0x10, some "libz.a".toList, "p.o".toList⟩]⟩]⟩]

/-! # Theorems -/

/-! ## Regular expressions: the greedy path and backtracking -/

theorem greedy_none {α : Type} (p : Char → Bool) (k : List Char → List Char → Option α) :
    ∀ (input acc : List Char),
      (∀ pre post, input = pre ++ post → (∀ c ∈ pre, p c = true) → k (acc ++ pre) post = none) →
      greedy p k acc input = none := by
  intro input
  induction input with
  | nil =>
    intro acc h
    simpa [greedy] using h [] [] rfl (by simp)
  | cons c cs ih =>
    intro acc h
    have h0 : k acc (c :: cs) = none := by simpa using h [] (c :: cs) rfl (by simp)
    unfold greedy
    by_cases hp : p c = true
    · have hrec : greedy p k (acc ++ [c]) cs = none := by
        apply ih
        intro pre post hsplit hall
        have := h (c :: pre) post (by simp [hsplit]) (by
          intro d hd
          rcases List.mem_cons.1 hd with rfl | hd
          · exact hp
          · exact hall d hd)
        simpa using this
      simp [hp, hrec, h0]
    · simp [hp, h0]

theorem greedy_backtrack {α : Type} (p : Char → Bool) (k : List Char → List Char → Option α)
    (v : α) :
    ∀ (pre post acc : List Char), (∀ c ∈ pre, p c = true) →
      k (acc ++ pre) post = some v →
      (∀ pre2 post2, post = pre2 ++ post2 → pre2 ≠ [] → (∀ c ∈ pre2, p c = true) →
        k (acc ++ pre ++ pre2) post2 = none) →
      greedy p k acc (pre ++ post) = some v := by
  intro pre
  induction pre with
  | nil =>
    intro post acc _ hk hfail
    simp only [List.nil_append, List.append_nil] at hk hfail ⊢
    cases post with
    | nil => simpa [greedy] using hk
    | cons c cs =>
      unfold greedy
      by_cases hp : p c = true
      · have hrec : greedy p k (acc ++ [c]) cs = none := by
          apply greedy_none
          intro pre2 post2 hsplit hall
          have := hfail (c :: pre2) post2 (by simp [hsplit]) (by simp) (by
            intro d hd
            rcases List.mem_cons.1 hd with rfl | hd
            · exact hp
            · exact hall d hd)
          simpa using this
        simp [hp, hrec, hk]
      · simp [hp, hk]
  | cons x xs ih =>
    intro post acc hall hk hfail
    have hx : p x = true := hall x (by simp)
    have hrec : greedy p k (acc ++ [x]) (xs ++ post) = some v := by
      apply ih
      · intro c hc
        exact hall c (by simp [hc])
      · simpa using hk
      · intro pre2 post2 hsplit hne hall2
        simpa using hfail pre2 post2 hsplit hne hall2
    simp only [List.cons_append]
    unfold greedy
    simp [hx, hrec]

theorem greedy_some {α : Type} (p : Char → Bool) (k : List Char → List Char → Option α)
    (v : α) :
    ∀ (input acc : List Char), greedy p k acc input = some v →
      ∃ pre post, input = pre ++ post ∧ (∀ c ∈ pre, p c = true) ∧ k (acc ++ pre) post = some v := by
  intro input
  induction input with
  | nil =>
    intro acc h
    exact ⟨[], [], rfl, by simp, by simpa [greedy] using h⟩
  | cons c cs ih =>
    intro acc h
    unfold greedy at h
    by_cases hp : p c = true
    · simp only [hp, if_true] at h
      cases hrec : greedy p k (acc ++ [c]) cs with
      | some r =>
        rw [hrec] at h
        obtain ⟨pre, post, hsplit, hall, hk⟩ := ih (acc ++ [c]) (by rw [hrec]; exact h)
        refine ⟨c :: pre, post, by simp [hsplit], ?_, by simpa using hk⟩
        intro d hd
        rcases List.mem_cons.1 hd with rfl | hd
        · exact hp
        · exact hall d hd
      | none =>
        rw [hrec] at h
        exact ⟨[], c :: cs, rfl, by simp, by simpa using h⟩
    · simp only [hp] at h
      exact ⟨[], c :: cs, rfl, by simp, by simpa using h⟩

theorem greedy_longest {α : Type} (p : Char → Bool) (k : List Char → List Char → Option α)
    (v : α) (pre post acc : List Char) (hall : ∀ c ∈ pre, p c = true) (hstop : StopsAt p post)
    (hk : k (acc ++ pre) post = some v) : greedy p k acc (pre ++ post) = some v := by
  apply greedy_backtrack p k v pre post acc hall hk
  intro pre2 post2 hsplit hne hall2
  cases pre2 with
  | nil => exact absurd rfl hne
  | cons d ds =>
    have h1 := hstop d (by simp [hsplit])
    have h2 := hall2 d (by simp)
    simp [h1] at h2

theorem greedy_exact {α : Type} (p : Char → Bool) (k : List Char → List Char → Option α) :
    ∀ (pre post acc : List Char), (∀ c ∈ pre, p c = true) → StopsAt p post →
      (∀ pre1 pre2, pre = pre1 ++ pre2 → pre2 ≠ [] → k (acc ++ pre1) (pre2 ++ post) = none) →
      greedy p k acc (pre ++ post) = k (acc ++ pre) post := by
  intro pre
  induction pre with
  | nil =>
    intro post acc _ hstop _
    cases post with
    | nil => simp [greedy]
    | cons c cs =>
      have hc : p c = false := hstop c rfl
      simp [greedy, hc]
  | cons x xs ih =>
    intro post acc hall hstop hfail
    have hx : p x = true := hall x (by simp)
    have hrec : greedy p k (acc ++ [x]) (xs ++ post) = k (acc ++ x :: xs) post := by
      rw [ih post (acc ++ [x]) (fun c hc => hall c (by simp [hc])) hstop]
      · simp
      · intro pre1 pre2 hsplit hne
        have := hfail (x :: pre1) pre2 (by simp [hsplit]) hne
        simpa using this
    have h0 : k acc (x :: xs ++ post) = none := by
      simpa using hfail [] (x :: xs) rfl (by simp)
    simp only [List.cons_append]
    unfold greedy
    simp only [hx, if_true, hrec]
    cases hk : k (acc ++ x :: xs) post with
    | some r => rfl
    | none => simpa using h0

theorem greedy_map {α β : Type} (p : Char → Bool) (k : List Char → List Char → Option α)
    (f : α → β) : ∀ (input acc : List Char),
      greedy p (fun m r => (k m r).map f) acc input = (greedy p k acc input).map f := by
  intro input
  induction input with
  | nil => intro acc; simp [greedy]
  | cons c cs ih =>
    intro acc
    unfold greedy
    by_cases hp : p c = true
    · simp only [hp, if_true, ih]
      cases greedy p k (acc ++ [c]) cs <;> simp
    · simp [hp]

theorem matchAtom_map {α β : Type} (a : Atom) (k : List Char → List Char → Option α)
    (f : α → β) (input : List Char) :
    matchAtom a (fun m r => (k m r).map f) input = (matchAtom a k input).map f := by
  unfold matchAtom
  cases a.quant with
  | one =>
    cases input with
    | nil => simp
    | cons c cs => by_cases h : a.cls.test c = true <;> simp [h]
  | plus =>
    cases input with
    | nil => simp
    | cons c cs => by_cases h : a.cls.test c = true <;> simp [h, greedy_map]
  | star => simp [greedy_map]

theorem matchAtoms_caps (anch : Bool) : ∀ (atoms : List Atom) (caps : List (List Char))
    (input : List Char),
    matchAtoms anch atoms caps input = (matchAtoms anch atoms [] input).map (caps ++ ·) := by
  intro atoms
  induction atoms with
  | nil =>
    intro caps input
    by_cases h : (anch && !input.isEmpty) = true <;> simp [matchAtoms, h]
  | cons a as ih =>
    intro caps input
    simp only [matchAtoms]
    rw [← matchAtom_map]
    congr 1
    funext m r
    by_cases hc : a.capture = true
    · simp only [hc, if_true]
      rw [ih (caps ++ [m]) r, ih ([] ++ [m]) r]
      cases matchAtoms anch as [] r <;> simp
    · have hc2 : a.capture = false := by simpa using hc
      simp only [hc2, Bool.false_eq_true, if_false]
      rw [ih caps r]

theorem matchAtom_seg {α : Type} (a : Atom) (k : List Char → List Char → Option α) (v : α)
    (seg rest : List Char) (h : SegOK a seg rest) (hk : k seg rest = some v) :
    matchAtom a k (seg ++ rest) = some v := by
  obtain ⟨hall, hq⟩ := h
  unfold matchAtom
  cases hquant : a.quant with
  | one =>
    rw [hquant] at hq
    obtain ⟨c, rfl⟩ := hq
    have hc : a.cls.test c = true := hall c (by simp)
    simpa [hc] using hk
  | plus =>
    rw [hquant] at hq
    obtain ⟨hne, hstop⟩ := hq
    cases seg with
    | nil => exact absurd rfl hne
    | cons c cs =>
      have hc : a.cls.test c = true := hall c (by simp)
      simp only [List.cons_append, hc, if_true]
      exact greedy_longest _ k v cs rest [c] (fun d hd => hall d (by simp [hd])) hstop
        (by simpa using hk)
  | star =>
    rw [hquant] at hq
    exact greedy_longest _ k v seg rest [] hall hq (by simpa using hk)

theorem matchAtoms_segs (anch : Bool) (atoms2 : List Atom) (rest : List Char)
    (v : List (List Char)) : ∀ (atoms1 : List Atom) (segs caps : List (List Char)),
    SegMatch rest atoms1 segs →
    matchAtoms anch atoms2 (caps ++ captured atoms1 segs) rest = some v →
    matchAtoms anch (atoms1 ++ atoms2) caps (segs.flatten ++ rest) = some v := by
  intro atoms1
  induction atoms1 with
  | nil =>
    intro segs caps h hk
    cases segs with
    | nil => simpa [captured] using hk
    | cons s ss => simp [SegMatch] at h
  | cons a as ih =>
    intro segs caps h hk
    cases segs with
    | nil => simp [SegMatch] at h
    | cons s ss =>
      obtain ⟨hs, hss⟩ := h
      simp only [List.cons_append, matchAtoms, List.flatten_cons, List.append_assoc]
      apply matchAtom_seg a _ v s (ss.flatten ++ rest) hs
      apply ih ss _ hss
      by_cases hc : a.capture = true
      · simpa [captured, hc] using hk
      · have hc2 : a.capture = false := by simpa using hc
        simpa [captured, hc2] using hk

theorem reMatch_segs (re : Regex) (segs : List (List Char)) (tail : List Char)
    (h : SegMatch tail re.atoms segs) (hend : re.anchorEnd = true → tail = []) :
    reMatch re (segs.flatten ++ tail) = some (captured re.atoms segs) := by
  unfold reMatch
  have := matchAtoms_segs re.anchorEnd [] tail (captured re.atoms segs) re.atoms segs [] h (by
    cases hb : re.anchorEnd with
    | false => simp [matchAtoms]
    | true => simp [matchAtoms, hend hb])
  simpa using this

theorem isHexLower_not_space (c : Char) (h : isHexLower c = true) : isSpace c = false := by
  simp only [isHexLower, Bool.or_eq_true, Bool.and_eq_true, decide_eq_true_eq] at h
  simp only [isSpace, Bool.or_eq_false_iff, Bool.and_eq_false_imp, decide_eq_true_eq,
    decide_eq_false_iff_not]
  omega

theorem rwx_not_space (c : Char) (h : CClass.rwx.test c = true) : isSpace c = false := by
  simp only [CClass.test, Bool.or_eq_true, decide_eq_true_eq] at h
  rcases h with (rfl | rfl) | rfl <;> rfl

theorem hexToken_isToken {t : List Char} (h : HexToken t) : Token t :=
  ⟨h.1, fun c hc => isHexLower_not_space c (h.2 c hc)⟩

theorem attrToken_isToken {t : List Char} (h : AttrToken t) : Token t :=
  ⟨h.1, fun c hc => rwx_not_space c (h.2 c hc)⟩

theorem matchAtom_some {α : Type} (a : Atom) (k : List Char → List Char → Option α) (v : α)
    (input : List Char) (h : matchAtom a k input = some v) :
    ∃ m r, input = m ++ r ∧ (∀ c ∈ m, a.cls.test c = true) ∧ k m r = some v := by
  unfold matchAtom at h
  cases hq : a.quant with
  | one =>
    rw [hq] at h
    cases input with
    | nil => simp at h
    | cons c cs =>
      by_cases hc : a.cls.test c = true
      · simp only [hc, if_true] at h
        exact ⟨[c], cs, rfl, by simpa using hc, h⟩
      · simp [hc] at h
  | plus =>
    rw [hq] at h
    cases input with
    | nil => simp at h
    | cons c cs =>
      by_cases hc : a.cls.test c = true
      · simp only [hc, if_true] at h
        obtain ⟨pre, post, hsplit, hall, hk⟩ := greedy_some _ k v cs [c] h
        refine ⟨c :: pre, post, by simp [hsplit], ?_, by simpa using hk⟩
        intro d hd
        rcases List.mem_cons.1 hd with rfl | hd
        · exact hc
        · exact hall d hd
      · simp [hc] at h
  | star =>
    rw [hq] at h
    obtain ⟨pre, post, hsplit, hall, hk⟩ := greedy_some _ k v input [] h
    exact ⟨pre, post, hsplit, hall, by simpa using hk⟩

theorem matchAtoms_last (d : Char) : ∀ (atoms : List Atom) (caps : List (List Char))
    (input : List Char) (v : List (List Char)),
    matchAtoms true (atoms ++ [chr d]) caps input = some v → input.getLast? = some d := by
  intro atoms
  induction atoms with
  | nil =>
    intro caps input v h
    obtain ⟨m, r, hsplit, _, hk⟩ := matchAtom_some _ _ v input (by simpa [matchAtoms] using h)
    simp only [List.nil_append, matchAtoms] at h
    unfold matchAtom at h
    cases input with
    | nil => simp [chr] at h
    | cons c cs =>
      cases cs with
      | nil =>
        by_cases hc : c = d
        · simp [hc]
        · simp [chr, CClass.test, hc] at h
      | cons e es =>
        by_cases hc : c = d <;> simp [chr, CClass.test, hc, matchAtoms] at h
  | cons a as ih =>
    intro caps input v h
    simp only [List.cons_append, matchAtoms] at h
    obtain ⟨m, r, hsplit, _, hk⟩ := matchAtom_some _ _ v input h
    have hr := ih _ r v hk
    subst hsplit
    cases r with
    | nil => simp at hr
    | cons x xs => rw [List.getLast?_append_of_ne_nil _ (by simp)]; exact hr

theorem matchAtoms_space_plus_none (anch : Bool) (as : List Atom) (caps : List (List Char))
    (b : Bool) (input : List Char) (h : StopsAt isSpace input) :
    matchAtoms anch (⟨.space, .plus, b⟩ :: as) caps input = none := by
  simp only [matchAtoms, matchAtom]
  cases input with
  | nil => rfl
  | cons c cs =>
    have hc : isSpace c = false := h c rfl
    simp [CClass.test, hc]

theorem matchAtoms_lit_none (anch : Bool) (as : List Atom) (caps : List (List Char))
    (d : Char) (input : List Char) (h : input.head? ≠ some d) :
    matchAtoms anch (chr d :: as) caps input = none := by
  simp only [matchAtoms, matchAtom, chr]
  cases input with
  | nil => rfl
  | cons c cs =>
    have hc : c ≠ d := by simpa using h
    simp [CClass.test, hc]

/-! ## The program's expressions on lines made of tokens -/

theorem reMemory_match (n o l a : List Char) (hn : Token n) (ho : Token o) (hl : Token l)
    (ha : AttrToken a) :
    reMatch reMemory (memoryLine n o l a) =
      some [n, o, l, a] := by
  obtain ⟨hn1, hn2⟩ := hn
  obtain ⟨ho1, ho2⟩ := ho
  obtain ⟨hl1, hl2⟩ := hl
  have has := (attrToken_isToken ha).2
  obtain ⟨ha1, ha2⟩ := ha
  have := reMatch_segs reMemory
    [n, [' '], ['0'], ['x'], o, [' '], ['0'], ['x'], l, [' '], a] [] (by
      cases a with
      | nil => exact absurd rfl ha1
      | cons t ts =>
        simp [SegMatch, SegOK, reMemory, grp, cls, chr, StopsAt, hn1, ho1, hl1] at *
        simp_all +decide [CClass.test]) (by simp)
  simpa [memoryLine, sectionLine, symbolLine, fields2, fields3, captured, reMemory, grp, cls, chr] using this

theorem reSection_match (n o l : List Char) (hn : Token n) (ho : HexToken o) (hl : HexToken l) :
    reMatch reSection (sectionLine n o l) =
      some [n, o, l] := by
  obtain ⟨hn1, hn2⟩ := hn
  obtain ⟨ho1, ho2⟩ := hexToken_isToken ho
  obtain ⟨hl1, hl2⟩ := hexToken_isToken hl
  have := reMatch_segs reSection
    [n, [' '], ['0'], ['x'], o, [' '], ['0'], ['x'], l] [] (by
      simp [SegMatch, SegOK, reSection, grp, cls, chr, StopsAt] at *
      simp_all +decide [CClass.test]) (by simp [reSection])
  simpa [memoryLine, sectionLine, symbolLine, fields2, fields3, captured, reSection, grp, cls, chr] using this

theorem reSymbolObject_match (n o l t : List Char) (hn : Token n) (ho : HexToken o)
    (hl : HexToken l) (ht : Token t) :
    reMatch reSymbolObject (symbolLine n o l t) =
      some [n, o, l, t] := by
  obtain ⟨hn1, hn2⟩ := hn
  obtain ⟨ho1, ho2⟩ := ho
  obtain ⟨hl1, hl2⟩ := hl
  obtain ⟨ht1, ht2⟩ := ht
  have := reMatch_segs reSymbolObject
    [[' '], n, [' '], ['0'], ['x'], o, [' '], ['0'], ['x'], l, [' '], t] [] (by
      cases t with
      | nil => exact absurd rfl ht1
      | cons c cs =>
        simp [SegMatch, SegOK, reSymbolObject, tailObject, grp, cls, chr, CClass.test, StopsAt,
          hn1, ho1, hl1]
        simp_all +decide) (by simp)
  simpa [memoryLine, sectionLine, symbolLine, fields2, fields3, captured, reSymbolObject, tailObject, grp, cls, chr] using this

theorem reSymbol2Object_match (w o l t : List Char) (hw : Blank w) (ho : HexToken o)
    (hl : HexToken l) (ht : Token t) :
    reMatch reSymbol2Object (w ++ fields3 o l t) =
      some [o, l, t] := by
  obtain ⟨hw1, hw2⟩ := hw
  obtain ⟨ho1, ho2⟩ := ho
  obtain ⟨hl1, hl2⟩ := hl
  obtain ⟨ht1, ht2⟩ := ht
  have := reMatch_segs reSymbol2Object
    [w, ['0'], ['x'], o, [' '], ['0'], ['x'], l, [' '], t] [] (by
      cases t with
      | nil => exact absurd rfl ht1
      | cons c cs =>
        simp [SegMatch, SegOK, reSymbol2Object, tailObject, grp, cls, chr, CClass.test, StopsAt,
          hw1, ho1, hl1]
        simp_all +decide) (by simp)
  simpa [memoryLine, sectionLine, symbolLine, fields2, fields3, captured, reSymbol2Object, tailObject, grp, cls, chr] using this

theorem reSection2_match (w o l : List Char) (hw : Blank w) (ho : HexToken o)
    (hl : HexToken l) :
    reMatch reSection2 (w ++ fields2 o l) = some [o, l] := by
  obtain ⟨hw1, hw2⟩ := hw
  obtain ⟨ho1, ho2⟩ := ho
  obtain ⟨hl1, hl2⟩ := hl
  have := reMatch_segs reSection2
    [w, ['0'], ['x'], o, [' '], ['0'], ['x'], l] [] (by
      simp [SegMatch, SegOK, reSection2, grp, cls, chr, CClass.test, StopsAt, hw1, ho1, hl1]
      simp_all +decide) (by simp)
  simpa [memoryLine, sectionLine, symbolLine, fields2, fields3, captured, reSection2, grp, cls, chr] using this

theorem reSectionName_match (n : List Char) (hn : ∀ c ∈ n, isSpace c = false) :
    reMatch reSectionName n = some [n] := by
  have := reMatch_segs reSectionName [n] [] (by
      simp [SegMatch, SegOK, reSectionName, grp, CClass.test, StopsAt]
      exact hn) (by simp)
  simpa [memoryLine, sectionLine, symbolLine, fields2, fields3, captured, reSectionName, grp] using this

theorem reSymbolName_match (n : List Char) (hn : ∀ c ∈ n, isSpace c = false) :
    reMatch reSymbolName (' ' :: n) = some [n] := by
  have := reMatch_segs reSymbolName [[' '], n] [] (by
      simp [SegMatch, SegOK, reSymbolName, grp, cls, CClass.test, StopsAt]
      exact ⟨by decide, hn⟩) (by simp)
  simpa [memoryLine, sectionLine, symbolLine, fields2, fields3, captured, reSymbolName, grp, cls] using this

theorem reSymbolArchive_none (line : List Char) (h : line.getLast? ≠ some ')') :
    reMatch reSymbolArchive line = none := by
  cases hm : reMatch reSymbolArchive line with
  | none => rfl
  | some v =>
    exfalso
    apply h
    exact matchAtoms_last ')'
      [cls .space .one, grp .nonSpace .plus, cls .space .plus, chr '0', chr 'x',
        grp .hexLower .plus, cls .space .plus, chr '0', chr 'x', grp .hexLower .plus,
        cls .space .plus, grp .nonSpace .plus, chr '(', grp .nonSpace .plus] [] line v hm

/-! ## Scenario A -/

theorem ne_linkerScript_of_zero (line : List Char) (h : '0' ∈ line) : line ≠ linkerScript := by
  intro he
  rw [he] at h
  revert h
  decide

theorem memoryLine_ne (n o l a : List Char) : memoryLine n o l a ≠ linkerScript :=
  ne_linkerScript_of_zero _ (by simp [memoryLine, fields3, fields2])

theorem sectionLine_head (n o l : List Char) (c : Char) (h : n.head? = some c) :
    (sectionLine n o l).head? = some c := by
  cases n with
  | nil => simp at h
  | cons d ds => simpa [sectionLine] using h

theorem symbolLine_head (n o l t : List Char) : (symbolLine n o l t).head? = some ' ' := rfl

theorem symbolLine_second (n o l t : List Char) (hn : n ≠ []) :
    (symbolLine n o l t)[1]? = n.head? := by
  cases n with
  | nil => exact absurd rfl hn
  | cons d ds => simp [symbolLine]

theorem symbolLine_last (n o l t : List Char) (ht : t ≠ []) :
    (symbolLine n o l t).getLast? = t.getLast? := by
  have : symbolLine n o l t = (' ' :: (n ++ ' ' :: '0' :: 'x' :: (o ++ ' ' :: '0' :: 'x' :: (l ++ [' '])))) ++ t := by
    simp [symbolLine, fields3, fields2]
  rw [this, List.getLast?_append_of_ne_nil _ ht]

theorem run_nil (s : State) : run s [] = .ok s := rfl

theorem run_cons_ok {s s1 : State} {line : List Char} (rest : List (List Char))
    (h : step s line = .ok s1) : run s (line :: rest) = run s1 rest := by
  simp [run, h]

theorem run_cons_error {s : State} {line : List Char} {e : JSError} (rest : List (List Char))
    (h : step s line = .error e) : run s (line :: rest) = .error e := by
  simp [run, h]

/-- C1 (amended): Scenario A in general.  With no sort and the object format, the
five lines `Memory Configuration`, `R 0xRO 0xRL ATTR`, `Linker script and memory
map`, `SN 0xSO 0xSL`, ` N 0xO 0xL T` give exactly one region `R` holding exactly
one section `SN` holding exactly one symbol `N` with object `T` and no archive,
all origins and lengths as `parseInt` reads them; here `R`, `SN`, `N`, `T` are
tokens, `SN` starts with `.`, `N` does not start with `*`, `T` has no
parenthesis, the numbers are lower-case hexadecimal, `ATTR` is over `rwx`, and
the section origin is positive and inside the region. -/
theorem scenarioA_general (options : Options) (R ro rl attr sn so sl N O L T : List Char)
    (hsort : options.sortby = none) (hfmt : options.format ≠ some .table)
    (hR : Token R) (hro : HexToken ro) (hrl : HexToken rl) (hattr : AttrToken attr)
    (hsn : Token sn) (hdot : sn.head? = some '.') (hso : HexToken so) (hsl : HexToken sl)
    (hpos : JSNum.gt (parseInt16 so) (.fin 0) = true)
    (hin : inRegion ⟨R, parseInt16 ro, parseInt16 rl, attr, []⟩ (parseInt16 so) = true)
    (hN : Token N) (hstar : N.head? ≠ some '*') (hO : HexToken O) (hL : HexToken L)
    (hT : Token T) (hpar : ∀ c ∈ T, c ≠ '(' ∧ c ≠ ')') :
    parseMapfile options
        [memoryConfiguration, memoryLine R ro rl attr, linkerScript, sectionLine sn so sl,
         symbolLine N O L T] =
      .ok (.object
        [⟨R, parseInt16 ro, parseInt16 rl, attr,
          [⟨sn, parseInt16 so, parseInt16 sl,
            [⟨N, parseInt16 O, parseInt16 L, none, T⟩]⟩]⟩]) := by
  have h1 : step State.init memoryConfiguration = .ok ⟨[], none, 1, []⟩ := rfl
  have h2 : step ⟨[], none, 1, []⟩ (memoryLine R ro rl attr) =
      .ok ⟨[⟨R, parseInt16 ro, parseInt16 rl, attr, []⟩], none, 1, []⟩ := by
    simp [step, memoryLine_ne, reMemory_match R ro rl attr hR (hexToken_isToken hro) (hexToken_isToken hrl) hattr]
  have h3 : step ⟨[⟨R, parseInt16 ro, parseInt16 rl, attr, []⟩], none, 1, []⟩ linkerScript =
      .ok ⟨[⟨R, parseInt16 ro, parseInt16 rl, attr, []⟩], none, 2, []⟩ := by
    simp [step]
  have h4 : step ⟨[⟨R, parseInt16 ro, parseInt16 rl, attr, []⟩], none, 2, []⟩
      (sectionLine sn so sl) =
      .ok ⟨[⟨R, parseInt16 ro, parseInt16 rl, attr, [⟨sn, parseInt16 so, parseInt16 sl, []⟩]⟩],
        some (0, 0), 2, []⟩ := by
    simp [step, sectionLine_head sn so sl '.' hdot, reSection_match sn so sl hsn hso hsl,
      openSection, hpos, findMemory, hin, pushSection, modifyAt, sectionCount]
  have h5 : step
      ⟨[⟨R, parseInt16 ro, parseInt16 rl, attr, [⟨sn, parseInt16 so, parseInt16 sl, []⟩]⟩],
        some (0, 0), 2, []⟩ (symbolLine N O L T) =
      .ok ⟨[⟨R, parseInt16 ro, parseInt16 rl, attr,
          [⟨sn, parseInt16 so, parseInt16 sl, [⟨N, parseInt16 O, parseInt16 L, none, T⟩]⟩]⟩],
        some (0, 0), 2, []⟩ := by
    have hlast : (symbolLine N O L T).getLast? ≠ some ')' := by
      rw [symbolLine_last N O L T hT.1]
      intro hl
      exact (hpar ')' (List.mem_of_getLast?_eq_some hl)).2 rfl
    simp [step, symbolLine_head, symbolLine_second N O L T hN.1, hstar,
      reSymbolArchive_none _ hlast, reSymbolObject_match N O L T hN hO hL hT,
      addSymbol, pushSymbol, modifyAt]
  have hf : options.format = some .table ↔ False := by simp [hfmt]
  have hrun := run_cons_ok [] h5
  rw [run_nil, ← run_cons_ok _ h4, ← run_cons_ok _ h3, ← run_cons_ok _ h2, ← run_cons_ok _ h1]
    at hrun
  simp only [parseMapfile, parseLines, hrun, finish, hsort, hf, if_false]

/-- C1 (counterexample): the generalisation of Scenario A to every name token
and every hexadecimal origin fails: the symbol name token `*main` gives no
symbol, the section name token `text` gives no section, and the section origin
`0x09000000`, outside `FLASH`, makes the call throw. -/
theorem scenarioA_counterexample :
    (Token "*main".toList ∧
      parseMapfile ⟨none, none, none⟩
          ["Memory Configuration".toList, "FLASH 0x08000000 0x00020000 xr".toList,
           "Linker script and memory map".toList, ".text 0x08000000 0x1000".toList,
           " *main 0x08000100 0x40 main.o".toList] =
        .ok (.object [⟨"FLASH".toList, .fin 0x8000000, .fin 0x20000, "xr".toList,
          [⟨".text".toList, .fin 0x8000000, .fin 0x1000, []⟩]⟩])) ∧
    (Token "text".toList ∧
      parseMapfile ⟨none, none, none⟩
          ["Memory Configuration".toList, "FLASH 0x08000000 0x00020000 xr".toList,
           "Linker script and memory map".toList, "text 0x08000000 0x1000".toList,
           " main 0x08000100 0x40 main.o".toList] =
        .ok (.object [⟨"FLASH".toList, .fin 0x8000000, .fin 0x20000, "xr".toList, []⟩])) ∧
    (HexToken "09000000".toList ∧ JSNum.gt (parseInt16 "09000000".toList) (.fin 0) = true ∧
      parseMapfile ⟨none, none, none⟩
          ["Memory Configuration".toList, "FLASH 0x08000000 0x00020000 xr".toList,
           "Linker script and memory map".toList, ".text 0x09000000 0x1000".toList,
           " main 0x09000100 0x40 main.o".toList] =
        .error .typeError) :=
  ⟨⟨by decide, rfl⟩, ⟨by decide, rfl⟩, ⟨by decide, rfl, rfl⟩⟩

/-- C1 (witness): Scenario A itself, the instance `FLASH`, `.text`, `main` of the
general statement. -/
theorem scenarioA_witness :
    parseMapfile ⟨none, none, none⟩
        ["Memory Configuration".toList, "FLASH 0x08000000 0x00020000 xr".toList,
         "Linker script and memory map".toList, ".text 0x08000000 0x1000".toList,
         " main 0x08000100 0x40 main.o".toList] =
      .ok (.object [⟨"FLASH".toList, .fin 0x8000000, .fin 0x20000, "xr".toList,
        [⟨".text".toList, .fin 0x8000000, .fin 0x1000,
          [⟨"main".toList, .fin 0x8000100, .fin 0x40, none, "main.o".toList⟩]⟩]⟩]) :=
  scenarioA_general ⟨none, none, none⟩ "FLASH".toList "08000000".toList "00020000".toList
    "xr".toList ".text".toList "08000000".toList "1000".toList "main".toList "08000100".toList
    "40".toList "main.o".toList rfl (by decide) (by decide) (by decide) (by decide) (by decide)
    (by decide) (by decide) (by decide) (by decide) rfl rfl (by decide) (by decide) (by decide)
    (by decide) (by decide) (by decide)

/-! ## Region resolution and the invariant of the line loop -/

theorem getElem?_modifyAt {α : Type} (f : α → α) : ∀ (i : Nat) (l : List α) (j : Nat),
    (modifyAt f i l)[j]? = if j = i then (l[j]?).map f else l[j]? := by
  intro i l
  induction l generalizing i with
  | nil => intro j; simp [modifyAt]
  | cons x xs ih =>
    intro j
    cases i with
    | zero =>
      cases j with
      | zero => simp [modifyAt]
      | succ j => simp [modifyAt]
    | succ i =>
      cases j with
      | zero => simp [modifyAt]
      | succ j => simp [modifyAt, ih]

theorem mem_modifyAt {α : Type} (f : α → α) : ∀ (i : Nat) (l : List α) (x : α),
    x ∈ modifyAt f i l → ∃ x0 ∈ l, x = x0 ∨ x = f x0 := by
  intro i l
  induction l generalizing i with
  | nil => intro x h; simp [modifyAt] at h
  | cons y ys ih =>
    intro x h
    cases i with
    | zero =>
      simp only [modifyAt, List.mem_cons] at h
      rcases h with rfl | h
      · exact ⟨y, by simp, Or.inr rfl⟩
      · exact ⟨x, by simp [h], Or.inl rfl⟩
    | succ i =>
      simp only [modifyAt, List.mem_cons] at h
      rcases h with rfl | h
      · exact ⟨x, by simp, Or.inl rfl⟩
      · obtain ⟨x0, hx0, hx⟩ := ih i x h
        exact ⟨x0, by simp [hx0], hx⟩

theorem findMemory_modifyAt (f : MemoryRegion → MemoryRegion)
    (hf : ∀ r, (f r).origin = r.origin ∧ (f r).length = r.length) :
    ∀ (i : Nat) (map : List MemoryRegion) (o : JSNum),
      findMemory (modifyAt f i map) o = findMemory map o := by
  intro i map
  induction map generalizing i with
  | nil => intro o; simp [modifyAt]
  | cons r rs ih =>
    intro o
    cases i with
    | zero => simp [modifyAt, findMemory, inRegion, hf r]
    | succ i => simp [modifyAt, findMemory, ih]

theorem findMemory_map (f : MemoryRegion → MemoryRegion)
    (hf : ∀ r, (f r).origin = r.origin ∧ (f r).length = r.length) :
    ∀ (map : List MemoryRegion) (o : JSNum), findMemory (map.map f) o = findMemory map o := by
  intro map
  induction map with
  | nil => intro o; rfl
  | cons r rs ih => intro o; simp [findMemory, inRegion, hf r, ih]

theorem findMemory_some : ∀ (map : List MemoryRegion) (o : JSNum) (i : Nat),
    findMemory map o = some i →
    (∃ r, map[i]? = some r ∧ inRegion r o = true) ∧
      ∀ j r, j < i → map[j]? = some r → inRegion r o = false := by
  intro map
  induction map with
  | nil => intro o i h; simp [findMemory] at h
  | cons r rs ih =>
    intro o i h
    simp only [findMemory] at h
    by_cases hr : inRegion r o = true
    · simp only [hr, if_true, Option.some.injEq] at h
      subst h
      exact ⟨⟨r, by simp, hr⟩, by intro j r' hj; omega⟩
    · have hr2 : inRegion r o = false := by simpa using hr
      simp only [hr2, Bool.false_eq_true, if_false] at h
      cases hrec : findMemory rs o with
      | none => simp [hrec] at h
      | some k =>
        simp only [hrec, Option.map_some', Option.some.injEq] at h
        subst h
        obtain ⟨⟨r1, hr1, hin⟩, hfirst⟩ := ih o k hrec
        refine ⟨⟨r1, by simpa using hr1, hin⟩, ?_⟩
        intro j r' hj hr'
        cases j with
        | zero =>
          simp only [List.getElem?_cons_zero, Option.some.injEq] at hr'
          subst hr'
          simpa using hr
        | succ j => exact hfirst j r' (by omega) (by simpa using hr')

theorem sectionsOK_pushSection (map : List MemoryRegion) (i : Nat) (x : Section)
    (hok : SectionsOK map) (hpos : JSNum.gt x.origin (.fin 0) = true)
    (hfind : findMemory map x.origin = some i) : SectionsOK (pushSection map i x) := by
  intro j r hr y hy
  have hfm : ∀ o, findMemory (pushSection map i x) o = findMemory map o :=
    fun o => findMemory_modifyAt
      (fun mem => { mem with sections := mem.sections ++ [x] }) (fun r => ⟨rfl, rfl⟩) i map o
  rw [hfm]
  unfold pushSection at hr
  rw [getElem?_modifyAt] at hr
  by_cases hji : j = i
  · simp only [hji, if_true] at hr
    cases hm : map[i]? with
    | none => simp [hm] at hr
    | some r0 =>
      simp only [hm, Option.map_some', Option.some.injEq] at hr
      subst hr
      simp only [List.mem_append, List.mem_singleton] at hy
      rcases hy with hy | rfl
      · rw [hji]; exact hok i r0 hm y hy
      · rw [hji]; exact ⟨hpos, hfind⟩
  · simp only [hji, if_false] at hr
    exact hok j r hr y hy

theorem sectionsOK_pushSymbol (map : List MemoryRegion) (pos : Nat × Nat) (y : Symbol)
    (hok : SectionsOK map) : SectionsOK (pushSymbol map pos y) := by
  intro j r hr x hx
  have hfm : ∀ o, findMemory (pushSymbol map pos y) o = findMemory map o :=
    fun o => findMemory_modifyAt
      (fun mem => { mem with sections :=
        (modifyAt (fun s => { s with symbols := s.symbols ++ [y] }) pos.2 mem.sections) })
      (fun r => ⟨rfl, rfl⟩) pos.1 map o
  rw [hfm]
  unfold pushSymbol at hr
  rw [getElem?_modifyAt] at hr
  by_cases hji : j = pos.1
  · simp only [hji, if_true] at hr
    cases hm : map[pos.1]? with
    | none => simp [hm] at hr
    | some r0 =>
      simp only [hm, Option.map_some', Option.some.injEq] at hr
      subst hr
      obtain ⟨x0, hx0, hx⟩ := mem_modifyAt _ _ _ _ hx
      have h0 := hok pos.1 r0 hm x0 hx0
      rw [hji]
      rcases hx with rfl | rfl
      · exact h0
      · exact h0
  · simp only [hji, if_false] at hr
    exact hok j r hr x hx

theorem sectionsOK_of_empty (map : List MemoryRegion) (h : ∀ r ∈ map, r.sections = []) :
    SectionsOK map := by
  intro i r hr x hx
  have := h r (List.getElem?_mem hr)
  simp [this] at hx

theorem matchAtom_some_ne {α : Type} (a : Atom) (k : List Char → List Char → Option α) (v : α)
    (input : List Char) (h : matchAtom a k input = some v) :
    ∃ m r, input = m ++ r ∧ (∀ c ∈ m, a.cls.test c = true) ∧ (a.quant ≠ .star → m ≠ []) ∧
      k m r = some v := by
  unfold matchAtom at h
  cases hq : a.quant with
  | one =>
    rw [hq] at h
    cases input with
    | nil => simp at h
    | cons c cs =>
      by_cases hc : a.cls.test c = true
      · simp only [hc, if_true] at h
        exact ⟨[c], cs, rfl, by simpa using hc, fun _ => by simp, h⟩
      · simp [hc] at h
  | plus =>
    rw [hq] at h
    cases input with
    | nil => simp at h
    | cons c cs =>
      by_cases hc : a.cls.test c = true
      · simp only [hc, if_true] at h
        obtain ⟨pre, post, hsplit, hall, hk⟩ := greedy_some _ k v cs [c] h
        refine ⟨c :: pre, post, by simp [hsplit], ?_, fun _ => by simp, by simpa using hk⟩
        intro d hd
        rcases List.mem_cons.1 hd with rfl | hd
        · exact hc
        · exact hall d hd
      · simp [hc] at h
  | star =>
    rw [hq] at h
    obtain ⟨pre, post, hsplit, hall, hk⟩ := greedy_some _ k v input [] h
    exact ⟨pre, post, hsplit, hall, fun hne => absurd rfl hne, by simpa using hk⟩

theorem matchAtoms_capOK (anch : Bool) : ∀ (atoms : List Atom) (caps : List (List Char))
    (input : List Char) (v : List (List Char)),
    matchAtoms anch atoms caps input = some v → ∃ new, v = caps ++ new ∧ CapOK atoms new := by
  intro atoms
  induction atoms with
  | nil =>
    intro caps input v h
    simp only [matchAtoms] at h
    split at h
    · cases h
    · simp only [Option.some.injEq] at h
      exact ⟨[], by simp [h], rfl⟩
  | cons a as ih =>
    intro caps input v h
    simp only [matchAtoms] at h
    obtain ⟨m, r, _, hall, hne, hk⟩ := matchAtom_some_ne _ _ v input h
    obtain ⟨new, hv, hnew⟩ := ih _ r v hk
    by_cases hc : a.capture = true
    · simp only [hc, if_true] at hv
      refine ⟨m :: new, by simp [hv], ?_⟩
      simp only [CapOK, hc, if_true]
      exact ⟨m, new, rfl, hall, hne, hnew⟩
    · simp only [hc, if_false] at hv
      refine ⟨new, hv, ?_⟩
      simp only [CapOK, hc, if_false]
      exact hnew

theorem reMatch_capOK (re : Regex) (line : List Char) (v : List (List Char))
    (h : reMatch re line = some v) : CapOK re.atoms v := by
  obtain ⟨new, hv, hnew⟩ := matchAtoms_capOK re.anchorEnd re.atoms [] line v h
  simp only [List.nil_append] at hv
  rw [hv]
  exact hnew

theorem capOK_grp (c : CClass) (q : Quant) (as : List Atom) (m : List Char)
    (rest : List (List Char)) :
    CapOK (grp c q :: as) (m :: rest) ↔
      (∀ d ∈ m, c.test d = true) ∧ (q ≠ .star → m ≠ []) ∧ CapOK as rest := by
  simp only [CapOK, grp, if_true]
  constructor
  · rintro ⟨m1, rest1, heq, h1, h2, h3⟩
    simp only [List.cons.injEq] at heq
    obtain ⟨rfl, rfl⟩ := heq
    exact ⟨h1, h2, h3⟩
  · rintro ⟨h1, h2, h3⟩
    exact ⟨m, rest, rfl, h1, h2, h3⟩

theorem capOK_cls (c : CClass) (q : Quant) (as : List Atom) (ms : List (List Char)) :
    CapOK (cls c q :: as) ms ↔ CapOK as ms := by
  simp [CapOK, cls]

theorem capOK_chr (d : Char) (as : List Atom) (ms : List (List Char)) :
    CapOK (chr d :: as) ms ↔ CapOK as ms := by
  simp [CapOK, chr]

theorem capOK_nil (ms : List (List Char)) : CapOK [] ms ↔ ms = [] := by
  simp [CapOK]

theorem reSymbolArchive_caps (line n o l a b : List Char)
    (h : reMatch reSymbolArchive line = some [n, o, l, a, b]) :
    Token n ∧ HexToken o ∧ HexToken l ∧ Token a ∧ Token b := by
  have := reMatch_capOK _ _ _ h
  simp only [reSymbolArchive, tailArchive, capOK_grp, capOK_cls, capOK_chr, capOK_nil,
    CClass.test] at this
  simp only [Token, HexToken]
  simp_all

theorem reSymbolObject_caps (line n o l b : List Char)
    (h : reMatch reSymbolObject line = some [n, o, l, b]) :
    Token n ∧ HexToken o ∧ HexToken l ∧ Token b := by
  have := reMatch_capOK _ _ _ h
  simp only [reSymbolObject, tailObject, capOK_grp, capOK_cls, capOK_chr, capOK_nil,
    CClass.test] at this
  simp only [Token, HexToken]
  simp_all

theorem reSymbol2Archive_caps (line o l a b : List Char)
    (h : reMatch reSymbol2Archive line = some [o, l, a, b]) :
    HexToken o ∧ HexToken l ∧ Token a ∧ Token b := by
  have := reMatch_capOK _ _ _ h
  simp only [reSymbol2Archive, tailArchive, capOK_grp, capOK_cls, capOK_chr, capOK_nil,
    CClass.test] at this
  simp only [Token, HexToken]
  simp_all

theorem reSymbol2Object_caps (line o l b : List Char)
    (h : reMatch reSymbol2Object line = some [o, l, b]) :
    HexToken o ∧ HexToken l ∧ Token b := by
  have := reMatch_capOK _ _ _ h
  simp only [reSymbol2Object, tailObject, capOK_grp, capOK_cls, capOK_chr, capOK_nil,
    CClass.test] at this
  simp only [Token, HexToken]
  simp_all

theorem openSection_ok (s s1 : State) (n : List Char) (o l : JSNum)
    (h : openSection s n o l = .ok s1) :
    s1.state = s.state ∧ s1.name = s.name ∧
      ((s1.map = s.map ∧ s1.sec = none ∧ JSNum.gt o (.fin 0) = false) ∨
        ∃ i, JSNum.gt o (.fin 0) = true ∧ findMemory s.map o = some i ∧
          s1.map = pushSection s.map i ⟨n, o, l, []⟩ ∧ s1.sec = some (i, sectionCount s.map i)) := by
  unfold openSection at h
  by_cases hpos : JSNum.gt o (.fin 0) = true
  · simp only [hpos, if_true] at h
    cases hf : findMemory s.map o with
    | none => simp [hf] at h
    | some i =>
      simp only [hf, Except.ok.injEq] at h
      subst h
      exact ⟨rfl, rfl, Or.inr ⟨i, hpos, rfl, rfl, rfl⟩⟩
  · have hpos2 : JSNum.gt o (.fin 0) = false := by simpa using hpos
    simp only [hpos2, Bool.false_eq_true, if_false, Except.ok.injEq] at h
    subst h
    exact ⟨rfl, rfl, Or.inl ⟨rfl, rfl, hpos2⟩⟩

theorem addSymbol_ok (s s1 : State) (y : Symbol) (h : addSymbol s y = .ok s1) :
    ∃ pos, s.sec = some pos ∧ s1 = { s with map := pushSymbol s.map pos y } := by
  unfold addSymbol at h
  cases hs : s.sec with
  | none => simp [hs] at h
  | some pos =>
    simp only [hs, Except.ok.injEq] at h
    exact ⟨pos, rfl, h.symm⟩

theorem openSection_effect (s s1 s2 : State) (n : List Char) (o l : JSNum) (k : Nat)
    (hstate : 2 ≤ s.state) (h : openSection s n o l = .ok s1)
    (h2 : s2 = { s1 with state := k }) : StepEffect s s2 := by
  obtain ⟨_, _, hcase⟩ := openSection_ok s s1 n o l h
  subst h2
  rcases hcase with ⟨hmap, _, _⟩ | ⟨i, hpos, hfind, hmap, hsec⟩
  · exact .same hmap
  · exact .sect i ⟨n, o, l, []⟩ hstate rfl hpos hfind hmap hsec

theorem addSymbol_effect (s s1 s2 : State) (y : Symbol) (k : Nat)
    (hstate : 2 ≤ s.state) (h : addSymbol s y = .ok s1)
    (h2 : s2 = { s1 with state := k }) (hy : SymbolOK y) : StepEffect s s2 := by
  obtain ⟨pos, hsec, rfl⟩ := addSymbol_ok s s1 y h
  subst h2
  exact .symbol pos y hstate hsec rfl rfl hy

theorem step_effect (s s1 : State) (line : List Char) (h : step s line = .ok s1) :
    StepEffect s s1 ∧ (s1.state ≤ 1 → s.state ≤ 1) := by
  unfold step at h
  split at h
  · -- state 0
    rename_i hst
    split at h <;> (simp only [Except.ok.injEq] at h; subst h)
    · exact ⟨.same rfl, fun _ => by omega⟩
    · exact ⟨.same rfl, fun _ => by omega⟩
  · -- state 1
    rename_i hst
    split at h
    · split at h <;> (simp only [Except.ok.injEq] at h; subst h)
      · exact ⟨.region _ hst rfl rfl, fun _ => by omega⟩
      · exact ⟨.same rfl, fun _ => by omega⟩
    · simp only [Except.ok.injEq] at h; subst h
      exact ⟨.same rfl, fun _ => by omega⟩
  · -- state 2
    rename_i hst
    have h2 : 2 ≤ s.state := by omega
    split at h
    · split at h
      · obtain ⟨hs, _, _⟩ := openSection_ok _ _ _ _ _ h
        exact ⟨openSection_effect s s1 s1 _ _ _ s1.state h2 h rfl, fun h1 => by omega⟩
      · split at h <;> (simp only [Except.ok.injEq] at h; subst h)
        · exact ⟨.same rfl, fun h1 => by simp at h1⟩
        · exact ⟨.same rfl, fun h1 => by omega⟩
    · split at h
      · split at h
        · rename_i n o l a b hm
          obtain ⟨_, ho, hl, ha, hb⟩ := reSymbolArchive_caps _ _ _ _ _ _ hm
          obtain ⟨pos, _, hs⟩ := addSymbol_ok _ _ _ h
          exact ⟨addSymbol_effect s s1 s1 _ s1.state h2 h rfl
              ⟨hb, fun a1 h1 => (by cases h1; exact ha), ⟨o, ho, rfl⟩, ⟨l, hl, rfl⟩⟩,
            fun h1 => by subst hs; simp at h1; omega⟩
        · split at h
          · rename_i n o l b hm
            obtain ⟨_, ho, hl, hb⟩ := reSymbolObject_caps _ _ _ _ _ hm
            obtain ⟨pos, _, hs⟩ := addSymbol_ok _ _ _ h
            exact ⟨addSymbol_effect s s1 s1 _ s1.state h2 h rfl
                ⟨hb, fun a1 h1 => (by cases h1), ⟨o, ho, rfl⟩, ⟨l, hl, rfl⟩⟩,
              fun h1 => by subst hs; simp at h1; omega⟩
          · split at h <;> (simp only [Except.ok.injEq] at h; subst h)
            · exact ⟨.same rfl, fun h1 => by simp at h1⟩
            · exact ⟨.same rfl, fun h1 => by omega⟩
      · simp only [Except.ok.injEq] at h; subst h
        exact ⟨.same rfl, fun h1 => by omega⟩
  · -- state 3
    rename_i hst
    have h2 : 2 ≤ s.state := by omega
    split at h
    · split at h
      · rename_i s0 hopen
        simp only [Except.ok.injEq] at h
        exact ⟨openSection_effect s s0 s1 _ _ _ 2 h2 hopen h.symm,
          fun h1 => by subst h; simp at h1⟩
      · simp at h
    · simp only [Except.ok.injEq] at h; subst h
      exact ⟨.same rfl, fun h1 => by simp at h1⟩
  · -- state 4
    rename_i hst
    have h2 : 2 ≤ s.state := by omega
    split at h
    · rename_i o l a b hm
      obtain ⟨ho, hl, ha, hb⟩ := reSymbol2Archive_caps _ _ _ _ _ hm
      split at h
      · rename_i s0 hadd
        simp only [Except.ok.injEq] at h
        exact ⟨addSymbol_effect s s0 s1 _ 2 h2 hadd h.symm
            ⟨hb, fun a1 h1 => (by cases h1; exact ha), ⟨o, ho, rfl⟩, ⟨l, hl, rfl⟩⟩,
          fun h1 => by subst h; simp at h1⟩
      · simp at h
    · split at h
      · rename_i o l b hm
        obtain ⟨ho, hl, hb⟩ := reSymbol2Object_caps _ _ _ _ hm
        split at h
        · rename_i s0 hadd
          simp only [Except.ok.injEq] at h
          exact ⟨addSymbol_effect s s0 s1 _ 2 h2 hadd h.symm
              ⟨hb, fun a1 h1 => (by cases h1), ⟨o, ho, rfl⟩, ⟨l, hl, rfl⟩⟩,
            fun h1 => by subst h; simp at h1⟩
        · simp at h
      · simp only [Except.ok.injEq] at h; subst h
        exact ⟨.same rfl, fun h1 => by simp at h1⟩
  · simp only [Except.ok.injEq] at h; subst h
    exact ⟨.same rfl, fun h1 => h1⟩

theorem step_inv (s s1 : State) (line : List Char) (hinv : Inv s)
    (h : step s line = .ok s1) : Inv s1 := by
  obtain ⟨heff, hst⟩ := step_effect s s1 line h
  obtain ⟨hok, hempty⟩ := hinv
  cases heff with
  | same hmap =>
    refine ⟨by rw [hmap]; exact hok, fun h1 => ?_⟩
    rw [hmap]
    exact hempty (hst h1)
  | region r hstate hr hmap =>
    have hall : ∀ r1 ∈ s1.map, r1.sections = [] := by
      intro r1 hr1
      rw [hmap, List.mem_append, List.mem_singleton] at hr1
      rcases hr1 with hr1 | rfl
      · exact hempty (by omega) r1 hr1
      · exact hr
    exact ⟨sectionsOK_of_empty _ hall, fun _ => hall⟩
  | sect i x hstate hx hpos hfind hmap hsec =>
    refine ⟨by rw [hmap]; exact sectionsOK_pushSection _ i x hok hpos hfind, fun h1 => ?_⟩
    have := hst h1
    omega
  | symbol pos y hstate hsec hmap hsec1 _ =>
    refine ⟨by rw [hmap]; exact sectionsOK_pushSymbol _ pos y hok, fun h1 => ?_⟩
    have := hst h1
    omega

theorem run_inv : ∀ (lines : List (List Char)) (s s1 : State), Inv s →
    run s lines = .ok s1 → Inv s1 := by
  intro lines
  induction lines with
  | nil =>
    intro s s1 hinv h
    simp only [run, Except.ok.injEq] at h
    subst h
    exact hinv
  | cons line rest ih =>
    intro s s1 hinv h
    cases hstep : step s line with
    | error e => rw [run_cons_error rest hstep] at h; cases h
    | ok s2 =>
      rw [run_cons_ok rest hstep] at h
      exact ih s2 s1 (step_inv s s2 line hinv hstep) h

theorem inv_init : Inv State.init :=
  ⟨sectionsOK_of_empty _ (by simp [State.init]), by simp [State.init]⟩

theorem parseLines_sectionsOK (lines : List (List Char)) (map : List MemoryRegion)
    (h : parseLines lines = .ok map) : SectionsOK map := by
  unfold parseLines at h
  cases hrun : run State.init lines with
  | error e => simp [hrun] at h
  | ok s =>
    simp only [hrun, Except.ok.injEq] at h
    subst h
    exact (run_inv lines State.init s inv_init hrun).1

theorem extendRun_append {α : Type} (cmp : α → α → Int) (desc : Bool) :
    ∀ (l : List α) (prev : α),
      (extendRun cmp desc prev l).1 ++ (extendRun cmp desc prev l).2 = l := by
  intro l
  induction l with
  | nil => intro _; rfl
  | cons x xs ih =>
    intro prev
    unfold extendRun
    by_cases h : decide (cmp x prev < 0) = desc
    · simp only [h, if_true, List.cons_append, ih x]
    · simp only [h, if_false, List.nil_append]

theorem countAndMakeRun_perm {α : Type} (cmp : α → α → Int) (l : List α) :
    ((countAndMakeRun cmp l).1 ++ (countAndMakeRun cmp l).2).Perm l := by
  match l with
  | [] => exact List.Perm.refl _
  | [a] => exact List.Perm.refl _
  | a :: b :: rest =>
    unfold countAndMakeRun
    by_cases h : cmp b a < 0
    · simp only [h, if_true]
      refine (List.Perm.append_right _ (List.reverse_perm _)).trans ?_
      simp only [List.cons_append, extendRun_append]
      exact List.Perm.refl _
    · simp only [h, if_false, List.cons_append, extendRun_append]
      exact List.Perm.refl _

theorem binaryInsert_perm {α : Type} (cmp : α → α → Int) (pivot : α) (work : List α) :
    (binaryInsert cmp pivot work).Perm (pivot :: work) := by
  unfold binaryInsert
  refine List.perm_middle.trans ?_
  rw [List.take_append_drop]

theorem binaryInsertionSort_perm {α : Type} (cmp : α → α → Int) :
    ∀ (rest work : List α), (binaryInsertionSort cmp work rest).Perm (work ++ rest) := by
  intro rest
  induction rest with
  | nil => intro work; simp [binaryInsertionSort]
  | cons p ps ih =>
    intro work
    unfold binaryInsertionSort
    refine (ih _).trans ?_
    refine (List.Perm.append_right _ (binaryInsert_perm cmp p work)).trans ?_
    simpa using (@List.perm_middle _ p work ps).symm

theorem arraySort_perm {α : Type} (cmp : α → α → Int) (l : List α) :
    (arraySort cmp l).Perm l :=
  (binaryInsertionSort_perm cmp _ _).trans (countAndMakeRun_perm cmp l)

theorem mem_arraySort {α : Type} (cmp : α → α → Int) (l : List α) (x : α) :
    x ∈ arraySort cmp l ↔ x ∈ l :=
  (arraySort_perm cmp l).mem_iff

theorem sectionsOK_sortPass (f : SortField) (order : Option Order) (map : List MemoryRegion)
    (hok : SectionsOK map) : SectionsOK (sortPass f order map) := by
  intro i r hr x hx
  unfold sortPass at hr ⊢
  rw [findMemory_map (sortSections f order) (fun r => ⟨rfl, rfl⟩)]
  rw [List.getElem?_map] at hr
  cases hm : map[i]? with
  | none => simp [hm] at hr
  | some r0 =>
    simp only [hm, Option.map_some', Option.some.injEq] at hr
    subst hr
    simp only [sortSections, mem_arraySort, List.mem_map] at hx
    obtain ⟨x0, hx0, rfl⟩ := hx
    exact hok i r0 hm x0 hx0

theorem parseMapfile_sectionsOK (options : Options) (lines : List (List Char))
    (map : List MemoryRegion) (h : parseMapfile options lines = .ok (.object map)) :
    SectionsOK map := by
  unfold parseMapfile at h
  cases hp : parseLines lines with
  | error e => simp [hp] at h
  | ok m0 =>
    have hok := parseLines_sectionsOK lines m0 hp
    simp only [hp, Except.ok.injEq, finish] at h
    split at h
    · cases h
    · simp only [Output.object.injEq] at h
      subst h
      cases options.sortby with
      | none => exact hok
      | some f => exact sectionsOK_sortPass f options.order m0 hok

/-! ## C2, C3: region resolution -/

/-- C2: region resolution.  In every result of `parseMapfile`, a section found in
the `sections` of the region at index `i` passes the range test
`region.origin <= section.origin <= region.origin + region.length` of that
region, fails the test of every region before it in parse order, and is in the
`sections` of no region at another index. -/
theorem region_resolution (options : Options) (lines : List (List Char))
    (map : List MemoryRegion) (h : parseMapfile options lines = .ok (.object map))
    (i : Nat) (r : MemoryRegion) (x : Section) (hr : map[i]? = some r) (hx : x ∈ r.sections) :
    inRegion r x.origin = true ∧
      (∀ (j : Nat) (r1 : MemoryRegion), j < i → map[j]? = some r1 → inRegion r1 x.origin = false) ∧
      (∀ (j : Nat) (r1 : MemoryRegion), map[j]? = some r1 → x ∈ r1.sections → j = i) := by
  have hok := parseMapfile_sectionsOK options lines map h
  have hfind := (hok i r hr x hx).2
  obtain ⟨⟨r0, hr0, hin⟩, hfirst⟩ := findMemory_some map x.origin i hfind
  rw [hr] at hr0
  cases hr0
  refine ⟨hin, hfirst, ?_⟩
  intro j r1 hr1 hx1
  have hfind1 := (hok j r1 hr1 x hx1).2
  rw [hfind] at hfind1
  cases hfind1
  rfl

/-- C2 (witness): in the sample, the section `.bss` at `0x20000000` is in the
sections of `RAM`, the first region whose range holds its origin, and in those of
no other region. -/
theorem region_resolution_witness :
    inRegion ⟨"RAM".toList, .fin 0x20000000, .fin 0x5000, "xrw".toList,
        [⟨".bss".toList, .fin 0x20000000, .fin 0x200, []⟩]⟩ (.fin 0x20000000) = true ∧
      (∀ (j : Nat) (r1 : MemoryRegion), j < 1 → sampleMap[j]? = some r1 →
        inRegion r1 (.fin 0x20000000) = false) ∧
      (∀ (j : Nat) (r1 : MemoryRegion), sampleMap[j]? = some r1 →
        (⟨".bss".toList, .fin 0x20000000, .fin 0x200, []⟩ : Section) ∈ r1.sections → j = 1) :=
  region_resolution ⟨none, none, none⟩ sampleLines sampleMap rfl 1 _
    ⟨".bss".toList, .fin 0x20000000, .fin 0x200, []⟩ rfl (List.mem_singleton.2 rfl)

theorem inRegion_fin (r : MemoryRegion) (a b : Int) (o : JSNum)
    (ho : r.origin = .fin a) (hsum : JSNum.add r.origin r.length = .fin b)
    (h : inRegion r o = true) : ∃ v, o = .fin v ∧ a ≤ v ∧ v ≤ b := by
  unfold inRegion at h
  rw [ho] at h hsum
  rw [hsum] at h
  cases o with
  | nan => simp [JSNum.ge, JSNum.le] at h
  | ninf => simp [JSNum.ge, JSNum.le, JSNum.lt] at h
  | pinf => simp [JSNum.ge, JSNum.le, JSNum.lt] at h
  | fin v =>
    simp only [JSNum.ge, JSNum.le, JSNum.lt, Bool.and_eq_true, Bool.or_eq_true,
      decide_eq_true_eq, JSNum.fin.injEq] at h
    exact ⟨v, rfl, by omega, by omega⟩


theorem sampleMap_disjoint : RangesDisjoint sampleMap := by
  intro j k rj rk o hne hj hk ⟨h1, h2⟩
  have key : ∀ (n : Nat) (rn : MemoryRegion),
      sampleMap[n]? = some rn →
      inRegion rn o = true →
      (n = 0 ∧ ∃ v, o = .fin v ∧ 0x8000000 ≤ v ∧ v ≤ 0x8020000) ∨
      (n = 1 ∧ ∃ v, o = .fin v ∧ 0x20000000 ≤ v ∧ v ≤ 0x20005000) := by
    intro n rn hn hin
    match n, hn with
    | 0, hn =>
      simp only [sampleMap, List.getElem?_cons_zero, Option.some.injEq] at hn
      subst hn
      exact Or.inl ⟨rfl, inRegion_fin _ _ _ o (by rfl) (by rfl) hin⟩
    | 1, hn =>
      simp only [sampleMap, List.getElem?_cons_succ, List.getElem?_cons_zero, Option.some.injEq] at hn
      subst hn
      exact Or.inr ⟨rfl, inRegion_fin _ _ _ o (by rfl) (by rfl) hin⟩
    | n + 2, hn => simp [sampleMap] at hn
  rcases key j rj hj h1 with ⟨rfl, v, rfl, hv1, hv2⟩ | ⟨rfl, v, rfl, hv1, hv2⟩ <;>
    rcases key k rk hk h2 with ⟨rfl, w, hw, hw1, hw2⟩ | ⟨rfl, w, hw, hw1, hw2⟩ <;>
    first
      | exact hne rfl
      | (cases hw; omega)

/-- C3 (amended): region containment.  In every result of `parseMapfile`, for a
section attached to the region at index `i`, at least one region passes the
range test, the section is attached to the first such region in parse order, and
when the ranges of the declared regions are pairwise disjoint that region is the
only one passing the test. -/
theorem region_containment (options : Options) (lines : List (List Char))
    (map : List MemoryRegion) (h : parseMapfile options lines = .ok (.object map))
    (i : Nat) (r : MemoryRegion) (x : Section) (hr : map[i]? = some r) (hx : x ∈ r.sections) :
    (∃ (j : Nat) (r1 : MemoryRegion), map[j]? = some r1 ∧ inRegion r1 x.origin = true) ∧
      inRegion r x.origin = true ∧
      (∀ (j : Nat) (r1 : MemoryRegion), map[j]? = some r1 → inRegion r1 x.origin = true → i ≤ j) ∧
      (RangesDisjoint map → ∀ (j : Nat) (r1 : MemoryRegion), map[j]? = some r1 → inRegion r1 x.origin = true → j = i) := by
  have hok := parseMapfile_sectionsOK options lines map h
  have hfind := (hok i r hr x hx).2
  obtain ⟨⟨r0, hr0, hin⟩, hfirst⟩ := findMemory_some map x.origin i hfind
  rw [hr] at hr0
  cases hr0
  refine ⟨⟨i, r, hr, hin⟩, hin, ?_, ?_⟩
  · intro j r1 hr1 hin1
    by_contra hlt
    have := hfirst j r1 (by omega) hr1
    rw [hin1] at this
    cases this
  · intro hdis j r1 hr1 hin1
    by_contra hne
    exact hdis j i r1 r x.origin hne hr1 hr ⟨hin1, hin⟩

/-- C3 (counterexample): two regions pass the range test of one section.  With
`FLASH` at `0x08000000` and `FLASH2` at `0x08001000`, both of length `0x1000`, the
section at `0x08001000` is attached to `FLASH` and passes the test of both; the
same for a section at `0x2800` inside the overlapping regions `A` and `B`. -/
theorem region_containment_counterexample :
    (parseMapfile ⟨none, none, none⟩
        ["Memory Configuration".toList, "FLASH 0x08000000 0x1000 xr".toList,
         "FLASH2 0x08001000 0x1000 xr".toList, "Linker script and memory map".toList,
         ".text 0x08001000 0x10".toList] =
      .ok (.object
        [⟨"FLASH".toList, .fin 0x8000000, .fin 0x1000, "xr".toList,
          [⟨".text".toList, .fin 0x8001000, .fin 0x10, []⟩]⟩,
         ⟨"FLASH2".toList, .fin 0x8001000, .fin 0x1000, "xr".toList, []⟩]) ∧
      inRegion ⟨"FLASH".toList, .fin 0x8000000, .fin 0x1000, "xr".toList,
          [⟨".text".toList, .fin 0x8001000, .fin 0x10, []⟩]⟩ (.fin 0x8001000) = true ∧
      inRegion ⟨"FLASH2".toList, .fin 0x8001000, .fin 0x1000, "xr".toList, []⟩
          (.fin 0x8001000) = true) ∧
    (parseMapfile ⟨none, none, none⟩
        ["Memory Configuration".toList, "A 0x1000 0x2000 xr".toList,
         "B 0x2000 0x2000 xr".toList, "Linker script and memory map".toList,
         ".text 0x2800 0x10".toList] =
      .ok (.object
        [⟨"A".toList, .fin 0x1000, .fin 0x2000, "xr".toList,
          [⟨".text".toList, .fin 0x2800, .fin 0x10, []⟩]⟩,
         ⟨"B".toList, .fin 0x2000, .fin 0x2000, "xr".toList, []⟩]) ∧
      inRegion ⟨"A".toList, .fin 0x1000, .fin 0x2000, "xr".toList,
          [⟨".text".toList, .fin 0x2800, .fin 0x10, []⟩]⟩ (.fin 0x2800) = true ∧
      inRegion ⟨"B".toList, .fin 0x2000, .fin 0x2000, "xr".toList, []⟩ (.fin 0x2800) = true) :=
  ⟨⟨rfl, rfl, rfl⟩, ⟨rfl, rfl, rfl⟩⟩

/-- C3 (witness): in the sample, whose two ranges are apart, the section `.bss`
is attached to `RAM`, the only region passing the test. -/
theorem region_containment_witness :
    (∃ (j : Nat) (r1 : MemoryRegion), sampleMap[j]? = some r1 ∧
        inRegion r1 (.fin 0x20000000) = true) ∧
      (∀ (j : Nat) (r1 : MemoryRegion), sampleMap[j]? = some r1 →
        inRegion r1 (.fin 0x20000000) = true → j = 1) :=
  have h := region_containment ⟨none, none, none⟩ sampleLines sampleMap rfl 1 _
    ⟨".bss".toList, .fin 0x20000000, .fin 0x200, []⟩ rfl (List.mem_singleton.2 rfl)
  ⟨h.1, h.2.2.2 sampleMap_disjoint⟩

/-! ## C4: discarded sections -/

/-- C4: discard rule.  No section of a result of `parseMapfile` has origin 0 (every
one has a positive origin); and a section header whose origin parses to 0 leaves
`map` as it is and resets `section`, both when the one-line expression matches a
line starting with `.` in the memory map and when the continuation expression
matches the line after a bare section name. -/
theorem discard_rule :
    (∀ (options : Options) (lines : List (List Char)) (map : List MemoryRegion),
      parseMapfile options lines = .ok (.object map) →
      ∀ r ∈ map, ∀ x ∈ r.sections, x.origin ≠ .fin 0 ∧ JSNum.gt x.origin (.fin 0) = true) ∧
    (∀ (s : State) (line n o l : List Char), s.state = 2 → line.head? = some '.' →
      reMatch reSection line = some [n, o, l] → parseInt16 o = .fin 0 →
      step s line = .ok { s with sec := none }) ∧
    (∀ (s : State) (line o l : List Char), s.state = 3 →
      reMatch reSection2 line = some [o, l] → parseInt16 o = .fin 0 →
      step s line = .ok { s with sec := none, state := 2 }) := by
  refine ⟨?_, ?_, ?_⟩
  · intro options lines map h r hr x hx
    have hok := parseMapfile_sectionsOK options lines map h
    obtain ⟨i, hi⟩ := List.mem_iff_getElem?.1 hr
    have hpos := (hok i r hi x hx).1
    refine ⟨?_, hpos⟩
    intro h0
    rw [h0] at hpos
    revert hpos
    decide
  · intro s line n o l hs hhead hm ho
    have hgt : JSNum.gt (JSNum.fin 0) (JSNum.fin 0) = false := by decide
    simp [step, hs, hhead, hm, ho, openSection, hgt]
  · intro s line o l hs hm ho
    have hgt : JSNum.gt (JSNum.fin 0) (JSNum.fin 0) = false := by decide
    simp [step, hs, hm, ho, openSection, hgt]

/-- C4 (witness): the sample has a header `.comment 0x0 0x30`, and its result has
no section of origin 0; the one-line header `.comment 0x0 0x30` and the
continuation `  0x0 0x30` create nothing. -/
theorem discard_rule_witness :
    (∀ r ∈ sampleMap, ∀ x ∈ r.sections,
      x.origin ≠ .fin 0 ∧ JSNum.gt x.origin (.fin 0) = true) ∧
    step ⟨sampleMap, some (1, 0), 2, ".bss".toList⟩ ".comment 0x0 0x30".toList =
      .ok ⟨sampleMap, none, 2, ".bss".toList⟩ ∧
    step ⟨sampleMap, some (1, 0), 3, ".comment".toList⟩ "  0x0 0x30".toList =
      .ok ⟨sampleMap, none, 2, ".comment".toList⟩ :=
  ⟨discard_rule.1 ⟨none, none, none⟩ sampleLines sampleMap rfl,
   discard_rule.2.1 ⟨sampleMap, some (1, 0), 2, ".bss".toList⟩ ".comment 0x0 0x30".toList
     ".comment".toList "0".toList "30".toList rfl rfl rfl rfl,
   discard_rule.2.2 ⟨sampleMap, some (1, 0), 3, ".comment".toList⟩ "  0x0 0x30".toList
     "0".toList "30".toList rfl rfl rfl⟩

/-! ## C5: order preservation -/

theorem sectionExt_refl (a : Section) : SectionExt a a := ⟨rfl, rfl, rfl, fun _ _ h => h⟩

theorem sectionExt_trans {a b c : Section} (h1 : SectionExt a b) (h2 : SectionExt b c) :
    SectionExt a c :=
  ⟨h1.1.trans h2.1, h1.2.1.trans h2.2.1, h1.2.2.1.trans h2.2.2.1,
    fun k y h => h2.2.2.2 k y (h1.2.2.2 k y h)⟩

theorem regionExt_refl (a : MemoryRegion) : RegionExt a a :=
  ⟨rfl, rfl, rfl, rfl, fun _ x h => ⟨x, h, sectionExt_refl x⟩⟩

theorem regionExt_trans {a b c : MemoryRegion} (h1 : RegionExt a b) (h2 : RegionExt b c) :
    RegionExt a c := by
  refine ⟨h1.1.trans h2.1, h1.2.1.trans h2.2.1, h1.2.2.1.trans h2.2.2.1,
    h1.2.2.2.1.trans h2.2.2.2.1, ?_⟩
  intro j x hx
  obtain ⟨x1, hx1, he1⟩ := h1.2.2.2.2 j x hx
  obtain ⟨x2, hx2, he2⟩ := h2.2.2.2.2 j x1 hx1
  exact ⟨x2, hx2, sectionExt_trans he1 he2⟩

theorem mapExt_refl (m : List MemoryRegion) : MapExt m m :=
  fun _ r h => ⟨r, h, regionExt_refl r⟩

theorem mapExt_trans {a b c : List MemoryRegion} (h1 : MapExt a b) (h2 : MapExt b c) :
    MapExt a c := by
  intro i r hr
  obtain ⟨r1, hr1, he1⟩ := h1 i r hr
  obtain ⟨r2, hr2, he2⟩ := h2 i r1 hr1
  exact ⟨r2, hr2, regionExt_trans he1 he2⟩

theorem getElem?_append_some {α : Type} (l l2 : List α) (i : Nat) (a : α)
    (h : l[i]? = some a) : (l ++ l2)[i]? = some a := by
  have hlt : i < l.length := (List.getElem?_eq_some_iff.1 h).1
  rw [List.getElem?_append_left hlt]
  exact h

theorem mapExt_append (m : List MemoryRegion) (r : MemoryRegion) : MapExt m (m ++ [r]) :=
  fun i r0 h => ⟨r0, getElem?_append_some m [r] i r0 h, regionExt_refl r0⟩

theorem mapExt_modifyAt (m : List MemoryRegion) (f : MemoryRegion → MemoryRegion) (i : Nat)
    (hf : ∀ r, RegionExt r (f r)) : MapExt m (modifyAt f i m) := by
  intro j r hr
  rw [getElem?_modifyAt]
  by_cases hji : j = i
  · simp only [hji, if_true]
    rw [hji] at hr
    exact ⟨f r, by simp [hr], hf r⟩
  · simp only [hji, if_false]
    exact ⟨r, hr, regionExt_refl r⟩

theorem mapExt_pushSection (m : List MemoryRegion) (i : Nat) (x : Section) :
    MapExt m (pushSection m i x) := by
  apply mapExt_modifyAt
  intro r
  refine ⟨rfl, rfl, rfl, rfl, ?_⟩
  intro j x0 hx0
  exact ⟨x0, getElem?_append_some _ _ j x0 hx0, sectionExt_refl x0⟩

theorem mapExt_pushSymbol (m : List MemoryRegion) (pos : Nat × Nat) (y : Symbol) :
    MapExt m (pushSymbol m pos y) := by
  apply mapExt_modifyAt
  intro r
  refine ⟨rfl, rfl, rfl, rfl, ?_⟩
  intro j x0 hx0
  simp only [getElem?_modifyAt]
  by_cases hj : j = pos.2
  · simp only [hj, if_true]
    rw [hj] at hx0
    refine ⟨{ x0 with symbols := x0.symbols ++ [y] }, by simp [hx0], rfl, rfl, rfl, ?_⟩
    intro k y0 hy0
    exact getElem?_append_some x0.symbols [y] k y0 hy0
  · simp only [hj, if_false]
    exact ⟨x0, hx0, sectionExt_refl x0⟩

theorem stepEffect_mapExt (s s1 : State) (h : StepEffect s s1) : MapExt s.map s1.map := by
  cases h with
  | same hmap => rw [hmap]; exact mapExt_refl _
  | region r hstate hr hmap => rw [hmap]; exact mapExt_append _ r
  | sect i x hstate hx hpos hfind hmap hsec => rw [hmap]; exact mapExt_pushSection _ i x
  | symbol pos y hstate hsec hmap hsec1 _ => rw [hmap]; exact mapExt_pushSymbol _ pos y

theorem run_mapExt : ∀ (lines : List (List Char)) (s s1 : State),
    run s lines = .ok s1 → MapExt s.map s1.map := by
  intro lines
  induction lines with
  | nil =>
    intro s s1 h
    simp only [run, Except.ok.injEq] at h
    subst h
    exact mapExt_refl _
  | cons line rest ih =>
    intro s s1 h
    cases hstep : step s line with
    | error e => rw [run_cons_error rest hstep] at h; cases h
    | ok s2 =>
      rw [run_cons_ok rest hstep] at h
      exact mapExt_trans (stepEffect_mapExt s s2 (step_effect s s2 line hstep).1) (ih s2 s1 h)

theorem run_append : ∀ (l1 l2 : List (List Char)) (s s2 : State),
    run s (l1 ++ l2) = .ok s2 → ∃ s1, run s l1 = .ok s1 ∧ run s1 l2 = .ok s2 := by
  intro l1
  induction l1 with
  | nil => intro l2 s s2 h; exact ⟨s, rfl, h⟩
  | cons line rest ih =>
    intro l2 s s2 h
    rw [List.cons_append] at h
    cases hstep : step s line with
    | error e => rw [run_cons_error _ hstep] at h; cases h
    | ok s0 =>
      rw [run_cons_ok _ hstep] at h
      obtain ⟨s1, h1, h2⟩ := ih l2 s0 s2 h
      exact ⟨s1, by rw [run_cons_ok _ hstep]; exact h1, h2⟩

/-- C5: order preservation.  One iteration of the line loop leaves `map` as it is,
or pushes a region without sections at its end, or pushes a section without
symbols at the end of the sections of one region, or pushes a symbol at the end
of the symbols of the open section; in each case every older entry keeps its
index.  Hence, with no `sortby`, the result for the lines `l1 ++ l2` is the
result for `l1` with pushes only: what the lines of `l1` define comes, in every
list, before what the lines of `l2` define. -/
theorem order_preservation :
    (∀ (s s1 : State) (line : List Char), step s line = .ok s1 →
      (s1.map = s.map ∨
        (∃ r, r.sections = [] ∧ s1.map = s.map ++ [r]) ∨
        (∃ i x, x.symbols = [] ∧ s1.map = pushSection s.map i x) ∨
        (∃ pos y, s.sec = some pos ∧ s1.map = pushSymbol s.map pos y)) ∧
      MapExt s.map s1.map) ∧
    (∀ (options : Options) (l1 l2 : List (List Char)) (m2 : List MemoryRegion),
      options.sortby = none → parseMapfile options (l1 ++ l2) = .ok (.object m2) →
      ∃ m1, parseMapfile options l1 = .ok (.object m1) ∧ MapExt m1 m2) := by
  refine ⟨?_, ?_⟩
  · intro s s1 line h
    have heff := (step_effect s s1 line h).1
    refine ⟨?_, stepEffect_mapExt s s1 heff⟩
    cases heff with
    | same hmap => exact Or.inl hmap
    | region r hstate hr hmap => exact Or.inr (Or.inl ⟨r, hr, hmap⟩)
    | sect i x hstate hx hpos hfind hmap hsec => exact Or.inr (Or.inr (Or.inl ⟨i, x, hx, hmap⟩))
    | symbol pos y hstate hsec hmap hsec1 _ =>
      exact Or.inr (Or.inr (Or.inr ⟨pos, y, hsec, hmap⟩))
  · intro options l1 l2 m2 hsort h
    unfold parseMapfile parseLines at h ⊢
    cases hrun : run State.init (l1 ++ l2) with
    | error e => simp [hrun] at h
    | ok s2 =>
      obtain ⟨s1, h1, h12⟩ := run_append l1 l2 State.init s2 hrun
      simp only [hrun, finish, hsort, Except.ok.injEq] at h
      simp only [h1, finish, hsort, Except.ok.injEq]
      split at h
      · cases h
      · rename_i hfmt
        simp only [Output.object.injEq] at h
        subst h
        exact ⟨s1.map, by simp [hfmt], run_mapExt l2 s1 s2 h12⟩

/-- C5 (witness): reading `.text 0x08000000 0x1000` with `FLASH` declared pushes one
section at the end of the sections of `FLASH`; and the result for the sample is
the result for its first five lines with pushes only. -/
theorem order_preservation_witness :
    MapExt [⟨"FLASH".toList, .fin 0x8000000, .fin 0x20000, "xr".toList, []⟩]
        [⟨"FLASH".toList, .fin 0x8000000, .fin 0x20000, "xr".toList,
          [⟨".text".toList, .fin 0x8000000, .fin 0x1000, []⟩]⟩] ∧
      ∃ m1, parseMapfile ⟨none, none, none⟩ (sampleLines.take 5) = .ok (.object m1) ∧
        MapExt m1 sampleMap :=
  ⟨(order_preservation.1
      ⟨[⟨"FLASH".toList, .fin 0x8000000, .fin 0x20000, "xr".toList, []⟩], none, 2, []⟩
      ⟨[⟨"FLASH".toList, .fin 0x8000000, .fin 0x20000, "xr".toList,
          [⟨".text".toList, .fin 0x8000000, .fin 0x1000, []⟩]⟩], some (0, 0), 2, []⟩
      ".text 0x08000000 0x1000".toList rfl).2,
    order_preservation.2 ⟨none, none, none⟩ (sampleLines.take 5) (sampleLines.drop 5)
      sampleMap rfl rfl⟩

/-! ## C6, C7: orphan sections and the archive form -/

theorem matchAtoms_inner (caps : List (List Char)) (Y : List Char) (hY : Token Y) :
    matchAtoms true [grp .nonSpace .plus, chr ')'] caps (Y ++ [')']) = some (caps ++ [Y]) := by
  obtain ⟨hne, hall⟩ := hY
  cases Y with
  | nil => exact absurd rfl hne
  | cons y ys =>
    have hy : isSpace y = false := hall y (by simp)
    simp only [matchAtoms, matchAtom, grp, List.cons_append, CClass.test, hy, Bool.not_false,
      if_true]
    apply greedy_backtrack _ _ _ ys [')'] [y]
    · intro c hc
      simp [CClass.test, hall c (by simp [hc])]
    · simp [matchAtoms, matchAtom, chr, CClass.test]
    · intro pre2 post2 hsplit hne2 _
      have hpost : post2 = [] := by
        cases pre2 with
        | nil => exact absurd rfl hne2
        | cons d ds =>
          simp only [List.cons_append, List.cons.injEq] at hsplit
          have := hsplit.2
          cases ds with
          | nil => simpa using this.symm
          | cons e es => simp at this
      subst hpost
      simp [matchAtoms, matchAtom, chr]

theorem matchAtoms_parenForm (caps : List (List Char)) (X Y : List Char) (hX : Token X)
    (hY : Token Y) (hparen : '(' ∉ Y) :
    matchAtoms true [grp .nonSpace .plus, chr '(', grp .nonSpace .plus, chr ')'] caps
        (parenForm X Y) = some (caps ++ [X, Y]) := by
  obtain ⟨hne, hall⟩ := hX
  cases X with
  | nil => exact absurd rfl hne
  | cons x xs =>
    have hx : isSpace x = false := hall x (by simp)
    unfold parenForm
    rw [matchAtoms]
    simp only [matchAtom, grp, List.cons_append, CClass.test, hx, Bool.not_false, if_true]
    apply greedy_backtrack _ _ _ xs ('(' :: (Y ++ [')'])) [x]
    · intro c hc
      simp [CClass.test, hall c (by simp [hc])]
    · have hin := matchAtoms_inner (caps ++ [x :: xs]) Y hY
      rw [matchAtoms]
      simp only [matchAtom, chr, CClass.test, decide_True, if_true, Bool.false_eq_true, if_false,
        List.singleton_append]
      simpa [grp, chr] using hin
    · intro pre2 post2 hsplit hne2 _
      apply matchAtoms_lit_none
      intro hhead
      cases pre2 with
      | nil => exact absurd rfl hne2
      | cons d ds =>
        simp only [List.cons_append, List.cons.injEq] at hsplit
        have hmem : '(' ∈ Y ++ [')'] := by
          rw [hsplit.2]
          cases post2 with
          | nil => simp at hhead
          | cons e es =>
            simp only [List.head?_cons, Option.some.injEq] at hhead
            simp [hhead]
        simp only [List.mem_append, List.mem_singleton] at hmem
        rcases hmem with hmem | hmem
        · exact hparen hmem
        · exact absurd hmem (by decide)

theorem parenForm_stops (X Y : List Char) (hX : Token X) :
    StopsAt CClass.space.test (parenForm X Y) := by
  obtain ⟨hne, hall⟩ := hX
  cases X with
  | nil => exact absurd rfl hne
  | cons x xs =>
    intro c hc
    simp only [parenForm, List.cons_append, List.head?_cons, Option.some.injEq] at hc
    subst hc
    simpa [CClass.test] using hall x (by simp)

theorem reSymbolArchive_match (n o l x y : List Char) (hn : Token n) (ho : HexToken o)
    (hl : HexToken l) (hx : Token x) (hy : Token y) (hparen : '(' ∉ y) :
    reMatch reSymbolArchive (symbolLine n o l (parenForm x y)) = some [n, o, l, x, y] := by
  have hstop := parenForm_stops x y hx
  obtain ⟨hn1, hn2⟩ := hn
  obtain ⟨ho1, ho2⟩ := ho
  obtain ⟨hl1, hl2⟩ := hl
  have := matchAtoms_segs true [grp .nonSpace .plus, chr '(', grp .nonSpace .plus, chr ')']
    (parenForm x y) [n, o, l, x, y]
    [cls .space .one, grp .nonSpace .plus, cls .space .plus, chr '0', chr 'x',
      grp .hexLower .plus, cls .space .plus, chr '0', chr 'x', grp .hexLower .plus,
      cls .space .plus]
    [[' '], n, [' '], ['0'], ['x'], o, [' '], ['0'], ['x'], l, [' ']] [] (by
      simp [SegMatch, SegOK, grp, cls, chr, CClass.test, StopsAt, hn1, ho1, hl1]
      simp only [StopsAt, CClass.test] at hstop
      simp_all +decide) (by
      have := matchAtoms_parenForm [n, o, l] x y hx hy hparen
      simpa [captured, grp, cls, chr] using this)
  simpa [reMatch, reSymbolArchive, tailArchive, symbolLine, fields3, fields2] using this

theorem reSymbol2Archive_match (w o l x y : List Char) (hw : Blank w) (ho : HexToken o)
    (hl : HexToken l) (hx : Token x) (hy : Token y) (hparen : '(' ∉ y) :
    reMatch reSymbol2Archive (w ++ fields3 o l (parenForm x y)) = some [o, l, x, y] := by
  have hstop := parenForm_stops x y hx
  obtain ⟨hw1, hw2⟩ := hw
  obtain ⟨ho1, ho2⟩ := ho
  obtain ⟨hl1, hl2⟩ := hl
  have := matchAtoms_segs true [grp .nonSpace .plus, chr '(', grp .nonSpace .plus, chr ')']
    (parenForm x y) [o, l, x, y]
    [cls .space .plus, chr '0', chr 'x',
      grp .hexLower .plus, cls .space .plus, chr '0', chr 'x', grp .hexLower .plus,
      cls .space .plus]
    [w, ['0'], ['x'], o, [' '], ['0'], ['x'], l, [' ']] [] (by
      simp [SegMatch, SegOK, grp, cls, chr, CClass.test, StopsAt, hw1, ho1, hl1]
      simp only [StopsAt, CClass.test] at hstop
      simp_all +decide) (by
      have := matchAtoms_parenForm [o, l] x y hx hy hparen
      simpa [captured, grp, cls, chr] using this)
  simpa [reMatch, reSymbol2Archive, tailArchive, fields3, fields2] using this

/-- C6 (the code at the failing input): a section header with a positive origin
in no declared region, on one line or on two, makes `parseMapfile` throw the
`TypeError` of reading `sections` of `undefined`: no result, no silent drop, but
no `OrphanSectionError` either, the program has no such error. -/
theorem orphan_section_typeError :
    parseMapfile ⟨none, none, none⟩
        ["Memory Configuration".toList, "FLASH 0x08000000 0x00020000 xr".toList,
         "Linker script and memory map".toList, ".data 0x20000000 0x100".toList] =
      .error .typeError ∧
    parseMapfile ⟨none, none, none⟩
        ["Memory Configuration".toList, "FLASH 0x08000000 0x00020000 xr".toList,
         "Linker script and memory map".toList, ".data".toList,
         "  0x20000000 0x100".toList] =
      .error .typeError ∧
    findMemory [⟨"FLASH".toList, .fin 0x8000000, .fin 0x20000, "xr".toList, []⟩]
      (.fin 0x20000000) = none :=
  ⟨rfl, rfl, rfl⟩

/-- C7 (amended): archive form.  While a section is open, the symbol line
` NAME 0xORIGIN 0xLENGTH X(Y)` (and, after a bare symbol name, the continuation
`<white space>0xORIGIN 0xLENGTH X(Y)`) pushes onto the open section the symbol
with `archive = X`, the token before the parenthesis, and `object = Y`, the
parenthesized token; `NAME`, `X`, `Y` are tokens, `NAME` does not start with `*`,
`Y` holds no `(`. -/
theorem archive_form (s : State) (pos : Nat × Nat) (N O L X Y W : List Char)
    (hsec : s.sec = some pos) (hN : Token N) (hO : HexToken O) (hL : HexToken L)
    (hX : Token X) (hY : Token Y) (hparen : '(' ∉ Y) :
    (s.state = 2 → N.head? ≠ some '*' →
      step s (symbolLine N O L (parenForm X Y)) =
        .ok { s with map := pushSymbol s.map pos ⟨N, parseInt16 O, parseInt16 L, some X, Y⟩ }) ∧
    (s.state = 4 → Blank W →
      step s (W ++ fields3 O L (parenForm X Y)) =
        .ok { s with
              map := pushSymbol s.map pos ⟨s.name, parseInt16 O, parseInt16 L, some X, Y⟩,
              state := 2 }) := by
  refine ⟨?_, ?_⟩
  · intro hs hstar
    simp [step, hs, hsec, symbolLine_head, symbolLine_second N O L _ hN.1, hstar,
      reSymbolArchive_match N O L X Y hN hO hL hX hY hparen, addSymbol]
  · intro hs hW
    simp [step, hs, hsec, reSymbol2Archive_match W O L X Y hW hO hL hX hY hparen, addSymbol]

/-- C7 (counterexample): the line ` foo 0x8000200 0x10 bar.o(libbar.a)` gives a
symbol with `archive = "bar.o"` and `object = "libbar.a"`, not the other way
round. -/
theorem archive_form_counterexample :
    parseMapfile ⟨none, none, none⟩
        ["Memory Configuration".toList, "FLASH 0x08000000 0x00020000 xr".toList,
         "Linker script and memory map".toList, ".text 0x08000000 0x1000".toList,
         " foo 0x8000200 0x10 bar.o(libbar.a)".toList] =
      .ok (.object [⟨"FLASH".toList, .fin 0x8000000, .fin 0x20000, "xr".toList,
        [⟨".text".toList, .fin 0x8000000, .fin 0x1000,
          [⟨"foo".toList, .fin 0x8000200, .fin 0x10, some "bar.o".toList,
            "libbar.a".toList⟩]⟩]⟩]) ∧
    "libbar.a".toList ≠ "bar.o".toList :=
  ⟨rfl, by decide⟩

/-- C7 (witness): the amended statement at ` foo 0x8000200 0x10 bar.o(libbar.a)`
and at the continuation `   0x8000200 0x10 bar.o(libbar.a)` after the name `foo`. -/
theorem archive_form_witness :
    step ⟨[⟨"FLASH".toList, .fin 0x8000000, .fin 0x20000, "xr".toList,
            [⟨".text".toList, .fin 0x8000000, .fin 0x1000, []⟩]⟩], some (0, 0), 2, []⟩
        " foo 0x8000200 0x10 bar.o(libbar.a)".toList =
      .ok ⟨[⟨"FLASH".toList, .fin 0x8000000, .fin 0x20000, "xr".toList,
            [⟨".text".toList, .fin 0x8000000, .fin 0x1000,
              [⟨"foo".toList, .fin 0x8000200, .fin 0x10, some "bar.o".toList,
                "libbar.a".toList⟩]⟩]⟩], some (0, 0), 2, []⟩ ∧
    step ⟨[⟨"FLASH".toList, .fin 0x8000000, .fin 0x20000, "xr".toList,
            [⟨".text".toList, .fin 0x8000000, .fin 0x1000, []⟩]⟩], some (0, 0), 4,
          "foo".toList⟩
        "   0x8000200 0x10 bar.o(libbar.a)".toList =
      .ok ⟨[⟨"FLASH".toList, .fin 0x8000000, .fin 0x20000, "xr".toList,
            [⟨".text".toList, .fin 0x8000000, .fin 0x1000,
              [⟨"foo".toList, .fin 0x8000200, .fin 0x10, some "bar.o".toList,
                "libbar.a".toList⟩]⟩]⟩], some (0, 0), 2, "foo".toList⟩ :=
  ⟨(archive_form
      ⟨[⟨"FLASH".toList, .fin 0x8000000, .fin 0x20000, "xr".toList,
          [⟨".text".toList, .fin 0x8000000, .fin 0x1000, []⟩]⟩], some (0, 0), 2, []⟩
      (0, 0) "foo".toList "8000200".toList "10".toList "bar.o".toList "libbar.a".toList
      "   ".toList rfl (by decide) (by decide) (by decide) (by decide) (by decide)
      (by decide)).1 rfl (by decide),
   (archive_form
      ⟨[⟨"FLASH".toList, .fin 0x8000000, .fin 0x20000, "xr".toList,
          [⟨".text".toList, .fin 0x8000000, .fin 0x1000, []⟩]⟩], some (0, 0), 4, "foo".toList⟩
      (0, 0) "foo".toList "8000200".toList "10".toList "bar.o".toList "libbar.a".toList
      "   ".toList rfl (by decide) (by decide) (by decide) (by decide) (by decide)
      (by decide)).2 rfl (by decide)⟩

/-! ## C8, C9: two-line records -/

theorem stopsAt_suffix (n pre post : List Char) (hn : ∀ c ∈ n, isSpace c = false)
    (h : n = pre ++ post) : StopsAt isSpace post := by
  intro c hc
  apply hn
  rw [h]
  cases post with
  | nil => simp at hc
  | cons d ds =>
    simp only [List.head?_cons, Option.some.injEq] at hc
    simp [hc]

theorem reSection_none (n : List Char) (hn : ∀ c ∈ n, isSpace c = false) :
    reMatch reSection n = none := by
  unfold reMatch reSection
  rw [matchAtoms]
  simp only [matchAtom, grp]
  apply greedy_none
  intro pre post hsplit _
  exact matchAtoms_space_plus_none false _ _ false post (stopsAt_suffix n pre post hn hsplit)

/-- C8 (amended): two-line section.  In the memory map, a bare section name `N`
starting with `.` followed by the continuation `<white space>0xORIGIN 0xLENGTH`,
with the origin positive and `i` the first region whose range holds it, pushes
the single section `N` with that origin and length onto region `i` and opens it:
the same section, in the same place, as the one-line header `N 0xORIGIN 0xLENGTH`
(the two-line form also leaves `N` in the variable `name`). -/
theorem two_line_section (s : State) (N W O L : List Char) (i : Nat) (hs : s.state = 2)
    (hN : Token N) (hdot : N.head? = some '.') (hW : Blank W) (hO : HexToken O)
    (hL : HexToken L) (hpos : JSNum.gt (parseInt16 O) (.fin 0) = true)
    (hfind : findMemory s.map (parseInt16 O) = some i) :
    run s [N, W ++ fields2 O L] =
        .ok { s with
              map := pushSection s.map i ⟨N, parseInt16 O, parseInt16 L, []⟩,
              sec := some (i, sectionCount s.map i), name := N } ∧
      step s (sectionLine N O L) =
        .ok { s with
              map := pushSection s.map i ⟨N, parseInt16 O, parseInt16 L, []⟩,
              sec := some (i, sectionCount s.map i) } := by
  have h1 : step s N = .ok { s with name := N, state := 3 } := by
    simp [step, hs, hdot, reSection_none N hN.2, reSectionName_match N hN.2]
  have h2 : step { s with name := N, state := 3 } (W ++ fields2 O L) =
      .ok { s with
            map := pushSection s.map i ⟨N, parseInt16 O, parseInt16 L, []⟩,
            sec := some (i, sectionCount s.map i), name := N } := by
    simp [step, reSection2_match W O L hW hO hL, openSection, hpos, hfind, hs]
  refine ⟨?_, ?_⟩
  · rw [run_cons_ok _ h1, run_cons_ok _ h2, run_nil]
  · simp [step, hs, sectionLine_head N O L '.' hdot, reSection_match N O L hN hO hL,
      openSection, hpos, hfind]

/-- C8 (counterexample): the continuation `0x20000000 0x200` as the spec writes it,
without leading white space, creates no section: `RAM` stays empty. -/
theorem two_line_section_counterexample :
    parseMapfile ⟨none, none, none⟩
        ["Memory Configuration".toList, "RAM 0x20000000 0x00005000 xrw".toList,
         "Linker script and memory map".toList, ".bss".toList, "0x20000000 0x200".toList] =
      .ok (.object [⟨"RAM".toList, .fin 0x20000000, .fin 0x5000, "xrw".toList, []⟩]) ∧
    reMatch reSection2 "0x20000000 0x200".toList = none :=
  ⟨rfl, rfl⟩

/-- C8 (witness): `.bss` followed by `   0x20000000 0x200` with `RAM` declared. -/
theorem two_line_section_witness :
    run ⟨[⟨"RAM".toList, .fin 0x20000000, .fin 0x5000, "xrw".toList, []⟩], none, 2, []⟩
        [".bss".toList, "   0x20000000 0x200".toList] =
      .ok ⟨[⟨"RAM".toList, .fin 0x20000000, .fin 0x5000, "xrw".toList,
            [⟨".bss".toList, .fin 0x20000000, .fin 0x200, []⟩]⟩], some (0, 0), 2,
          ".bss".toList⟩ ∧
    step ⟨[⟨"RAM".toList, .fin 0x20000000, .fin 0x5000, "xrw".toList, []⟩], none, 2, []⟩
        ".bss 0x20000000 0x200".toList =
      .ok ⟨[⟨"RAM".toList, .fin 0x20000000, .fin 0x5000, "xrw".toList,
            [⟨".bss".toList, .fin 0x20000000, .fin 0x200, []⟩]⟩], some (0, 0), 2, []⟩ :=
  two_line_section
    ⟨[⟨"RAM".toList, .fin 0x20000000, .fin 0x5000, "xrw".toList, []⟩], none, 2, []⟩
    ".bss".toList "   ".toList "20000000".toList "200".toList 0 rfl (by decide) rfl (by decide)
    (by decide) (by decide) rfl rfl

theorem blank_exact (d : Char) (tail : List Atom) (caps : List (List Char)) (W Z : List Char)
    (hd : isSpace d = false) (hW : Blank W) (hZ : StopsAt isSpace Z) :
    matchAtoms true (cls .space .plus :: chr d :: tail) caps (W ++ Z) =
      matchAtoms true (chr d :: tail) caps Z := by
  obtain ⟨hne, hall⟩ := hW
  cases W with
  | nil => exact absurd rfl hne
  | cons w ws =>
    have hw : isSpace w = true := hall w (by simp)
    rw [matchAtoms]
    simp only [matchAtom, cls, List.cons_append, CClass.test, hw, if_true]
    rw [greedy_exact _ _ ws Z [w]]
    · simp
    · intro c hc
      simpa [CClass.test] using hall c (by simp [hc])
    · exact hZ
    · intro pre1 pre2 hsplit hne2
      apply matchAtoms_lit_none
      cases pre2 with
      | nil => exact absurd rfl hne2
      | cons e es =>
        have he : isSpace e = true := hall e (by simp [hsplit])
        simp only [List.cons_append, List.head?_cons, ne_eq, Option.some.injEq]
        intro hed
        rw [hed, hd] at he
        cases he

theorem symbol_head_exact (d : Char) (tail : List Atom) (N Z : List Char)
    (hd : isSpace d = false) (hN : Token N) (hZ : StopsAt isSpace Z) :
    matchAtoms true
        (cls .space .one :: grp .nonSpace .plus :: cls .space .plus :: chr d :: tail) []
        (' ' :: (N ++ ' ' :: Z)) =
      (matchAtoms true (chr d :: tail) [] Z).map ([N] ++ ·) := by
  obtain ⟨hne, hall⟩ := hN
  cases N with
  | nil => exact absurd rfl hne
  | cons n ns =>
    have hn : isSpace n = false := hall n (by simp)
    have hsp : isSpace ' ' = true := by decide
    rw [matchAtoms]
    simp only [matchAtom, cls, CClass.test, hsp, if_true, Bool.false_eq_true, if_false]
    rw [matchAtoms]
    simp only [matchAtom, grp, List.cons_append, CClass.test, hn, Bool.not_false, if_true]
    rw [greedy_exact _ _ ns (' ' :: Z) [n]]
    · have hb := blank_exact d tail [n :: ns] [' '] Z hd (by decide) hZ
      simp only [cls, List.singleton_append] at hb
      simp only [List.nil_append, List.singleton_append]
      rw [hb]
      have hc := matchAtoms_caps true (chr d :: tail) [n :: ns] Z
      simpa using hc
    · intro c hc
      simp [CClass.test, hall c (by simp [hc])]
    · intro c hc
      simp only [List.head?_cons, Option.some.injEq] at hc
      subst hc
      rfl
    · intro pre1 pre2 hsplit hne2
      apply matchAtoms_space_plus_none
      intro c hc
      cases pre2 with
      | nil => exact absurd rfl hne2
      | cons e es =>
        simp only [List.cons_append, List.head?_cons, Option.some.injEq] at hc
        subst hc
        exact hall e (by simp [hsplit])

theorem bare_symbol_none (tail : List Atom) (N : List Char)
    (hN : ∀ c ∈ N, isSpace c = false) :
    matchAtoms true (cls .space .one :: grp .nonSpace .plus :: cls .space .plus :: tail) []
        (' ' :: N) = none := by
  have hsp : isSpace ' ' = true := by decide
  rw [matchAtoms]
  simp only [matchAtom, cls, CClass.test, hsp, if_true, Bool.false_eq_true, if_false]
  rw [matchAtoms]
  simp only [matchAtom, grp]
  cases N with
  | nil => rfl
  | cons n ns =>
    have hn : isSpace n = false := hN n (by simp)
    simp only [CClass.test, hn, Bool.not_false, if_true]
    apply greedy_none
    intro pre post hsplit _
    apply matchAtoms_space_plus_none
    exact stopsAt_suffix ns pre post (fun c hc => hN c (by simp [hc])) hsplit

theorem fields3_stops (O L T : List Char) : StopsAt isSpace (fields3 O L T) := by
  intro c hc
  simp only [fields3, fields2, List.head?_cons, Option.some.injEq] at hc
  subst hc
  rfl

theorem step_bare_symbol (s : State) (N : List Char) (hs : s.state = 2) (hsec : s.sec.isSome = true)
    (hN : Token N) (hstar : N.head? ≠ some '*') :
    step s (' ' :: N) = .ok { s with name := N, state := 4 } := by
  have h1 : reMatch reSymbolArchive (' ' :: N) = none := bare_symbol_none tailArchive N hN.2
  have h2 : reMatch reSymbolObject (' ' :: N) = none := bare_symbol_none tailObject N hN.2
  have h3 : (' ' :: N)[1]? = N.head? := by
    cases N with
    | nil => rfl
    | cons n ns => simp
  simp [step, hs, hsec, h1, h2, h3, hstar, reSymbolName_match N hN.2]

/-- C9: two-line symbol equals one-line symbol.  While a section is open in the
memory map, for a name token `N` not starting with `*`, lower-case hexadecimal
`ORIGIN` and `LENGTH` and any trailing token `T`, the two lines ` N` and
`<white space>0xORIGIN 0xLENGTH T` push onto the open section exactly the symbol,
named `N`, that the single line ` N 0xORIGIN 0xLENGTH T` pushes, and leave the
parser in the memory-map state (with `N` in the variable `name`). -/
theorem two_line_symbol (s : State) (pos : Nat × Nat) (N O L T W : List Char)
    (hs : s.state = 2) (hsec : s.sec = some pos) (hN : Token N) (hstar : N.head? ≠ some '*')
    (hO : HexToken O) (hL : HexToken L) (hT : Token T) (hW : Blank W) :
    ∃ y : Symbol, y.name = N ∧
      step s (symbolLine N O L T) = .ok { s with map := pushSymbol s.map pos y } ∧
      run s [' ' :: N, W ++ fields3 O L T] =
        .ok { s with map := pushSymbol s.map pos y, state := 2, name := N } := by
  have hZ := fields3_stops O L T
  have hA1 : reMatch reSymbolArchive (symbolLine N O L T) =
      (matchAtoms true tailArchive [] (fields3 O L T)).map ([N] ++ ·) :=
    symbol_head_exact '0' _ N (fields3 O L T) (by decide) hN hZ
  have hA2 : reMatch reSymbol2Archive (W ++ fields3 O L T) =
      matchAtoms true tailArchive [] (fields3 O L T) :=
    blank_exact '0' _ [] W (fields3 O L T) (by decide) hW hZ
  have hB1 := reSymbolObject_match N O L T hN hO hL hT
  have hB2 := reSymbol2Object_match W O L T hW hO hL hT
  have h1 := step_bare_symbol s N hs (by simp [hsec]) hN hstar
  have hhead := symbolLine_head N O L T
  have hsnd := symbolLine_second N O L T hN.1
  have key : ∀ y : Symbol, y.name = N →
      step s (symbolLine N O L T) = .ok { s with map := pushSymbol s.map pos y } →
      step { s with name := N, state := 4 } (W ++ fields3 O L T) =
        .ok { s with map := pushSymbol s.map pos y, state := 2, name := N } →
      ∃ y : Symbol, y.name = N ∧
        step s (symbolLine N O L T) = .ok { s with map := pushSymbol s.map pos y } ∧
        run s [' ' :: N, W ++ fields3 O L T] =
          .ok { s with map := pushSymbol s.map pos y, state := 2, name := N } := by
    intro y hy hone htwo
    exact ⟨y, hy, hone, by rw [run_cons_ok _ h1, run_cons_ok _ htwo, run_nil]⟩
  cases hA : matchAtoms true tailArchive [] (fields3 O L T) with
  | none =>
    rw [hA] at hA1 hA2
    apply key ⟨N, parseInt16 O, parseInt16 L, none, T⟩ rfl
    · simp [step, hs, hsec, hhead, hsnd, hstar, hA1, hB1, addSymbol]
    · simp [step, hsec, hA2, hB2, addSymbol]
  | some caps =>
    rw [hA] at hA1 hA2
    rcases caps with _ | ⟨o, _ | ⟨l, _ | ⟨a, _ | ⟨b, _ | ⟨e, r⟩⟩⟩⟩⟩
    · apply key ⟨N, parseInt16 O, parseInt16 L, none, T⟩ rfl
      · simp [step, hs, hsec, hhead, hsnd, hstar, hA1, hB1, addSymbol]
      · simp [step, hsec, hA2, hB2, addSymbol]
    · apply key ⟨N, parseInt16 O, parseInt16 L, none, T⟩ rfl
      · simp [step, hs, hsec, hhead, hsnd, hstar, hA1, hB1, addSymbol]
      · simp [step, hsec, hA2, hB2, addSymbol]
    · apply key ⟨N, parseInt16 O, parseInt16 L, none, T⟩ rfl
      · simp [step, hs, hsec, hhead, hsnd, hstar, hA1, hB1, addSymbol]
      · simp [step, hsec, hA2, hB2, addSymbol]
    · apply key ⟨N, parseInt16 O, parseInt16 L, none, T⟩ rfl
      · simp [step, hs, hsec, hhead, hsnd, hstar, hA1, hB1, addSymbol]
      · simp [step, hsec, hA2, hB2, addSymbol]
    · apply key ⟨N, parseInt16 o, parseInt16 l, some a, b⟩ rfl
      · simp [step, hs, hsec, hhead, hsnd, hstar, hA1, addSymbol]
      · simp [step, hsec, hA2, addSymbol]
    · apply key ⟨N, parseInt16 O, parseInt16 L, none, T⟩ rfl
      · simp [step, hs, hsec, hhead, hsnd, hstar, hA1, hB1, addSymbol]
      · simp [step, hsec, hA2, hB2, addSymbol]

/-! ## C10: the sort pass -/

theorem char_toNat_inj (a b : Char) (h : a.toNat = b.toNat) : a = b :=
  Char.ext (UInt32.ext h)

theorem char_toNat_valid (c : Char) :
    c.toNat < 55296 ∨ (57343 < c.toNat ∧ c.toNat < 1114112) := c.valid

theorem utf16_injective : ∀ a b : List Char, utf16 a = utf16 b → a = b := by
  intro a
  induction a with
  | nil =>
    intro b h
    cases b with
    | nil => rfl
    | cons d ds =>
      simp only [utf16] at h
      split at h <;> simp at h
  | cons c cs ih =>
    intro b h
    cases b with
    | nil =>
      simp only [utf16] at h
      split at h <;> simp at h
    | cons d ds =>
      have hc := char_toNat_valid c
      have hd := char_toNat_valid d
      simp only [utf16] at h
      by_cases h1 : c.toNat < 65536 <;> by_cases h2 : d.toNat < 65536
      · simp only [h1, h2, if_true, List.cons.injEq] at h
        rw [char_toNat_inj c d h.1, ih ds h.2]
      · simp only [h1, h2, if_true, if_false, List.cons.injEq] at h
        omega
      · simp only [h1, h2, if_true, if_false, List.cons.injEq] at h
        omega
      · simp only [h1, h2, if_false, List.cons.injEq] at h
        have : c.toNat = d.toNat := by omega
        rw [char_toNat_inj c d this, ih ds h.2.2]

theorem lexLt_trans : ∀ a b c : List Nat, lexLt a b = true → lexLt b c = true →
    lexLt a c = true := by
  intro a
  induction a with
  | nil =>
    intro b c h1 h2
    cases b with
    | nil => simp [lexLt] at h1
    | cons y ys =>
      cases c with
      | nil => simp [lexLt] at h2
      | cons z zs => simp [lexLt]
  | cons x xs ih =>
    intro b c h1 h2
    cases b with
    | nil => simp [lexLt] at h1
    | cons y ys =>
      cases c with
      | nil => simp [lexLt] at h2
      | cons z zs =>
        simp only [lexLt, Bool.or_eq_true, Bool.and_eq_true, decide_eq_true_eq] at h1 h2 ⊢
        rcases h1 with h1 | ⟨h1, h1r⟩ <;> rcases h2 with h2 | ⟨h2, h2r⟩
        · left; omega
        · left; omega
        · left; omega
        · right; exact ⟨by omega, ih ys zs h1r h2r⟩

theorem lexLt_total : ∀ a b : List Nat, a ≠ b → lexLt a b = true ∨ lexLt b a = true := by
  intro a
  induction a with
  | nil =>
    intro b h
    cases b with
    | nil => exact absurd rfl h
    | cons y ys => left; simp [lexLt]
  | cons x xs ih =>
    intro b h
    cases b with
    | nil => right; simp [lexLt]
    | cons y ys =>
      simp only [lexLt, Bool.or_eq_true, Bool.and_eq_true, decide_eq_true_eq]
      rcases Nat.lt_trichotomy x y with hxy | hxy | hxy
      · left; left; exact hxy
      · subst hxy
        have hne : xs ≠ ys := fun he => h (by rw [he])
        rcases ih ys hne with h1 | h1
        · left; right; exact ⟨rfl, h1⟩
        · right; right; exact ⟨rfl, h1⟩
      · right; left; exact hxy

theorem jsNum_lt_trans (a b c : JSNum) (h1 : JSNum.lt a b = true) (h2 : JSNum.lt b c = true) :
    JSNum.lt a c = true := by
  cases a <;> cases b <;> cases c <;> simp_all [JSNum.lt]
  omega

theorem jsNum_lt_total (a b : JSNum) (ha : a ≠ .nan) (hb : b ≠ .nan) (h : a ≠ b) :
    JSNum.lt a b = true ∨ JSNum.lt b a = true := by
  cases a <;> cases b <;> simp_all [JSNum.lt]

theorem jsValue_lt_trans (a b c : JSValue) (h1 : JSValue.lt a b = true)
    (h2 : JSValue.lt b c = true) : JSValue.lt a c = true := by
  cases a <;> cases b <;> cases c <;> simp_all [JSValue.lt]
  · exact lexLt_trans _ _ _ h1 h2
  · exact jsNum_lt_trans _ _ _ h1 h2

theorem precedes_trans (order : Option Order) (a b c : JSValue) (h1 : precedes order a b)
    (h2 : precedes order b c) : precedes order a c := by
  unfold precedes at *
  by_cases hd : order = some .desc
  · simp only [hd, if_true] at *
    exact jsValue_lt_trans _ _ _ h2 h1
  · simp only [hd, if_false] at *
    exact jsValue_lt_trans _ _ _ h1 h2

theorem binarySearch_fuel {α : Type} (cmp : α → α → Int) (pivot : α) (work : List α) :
    ∀ (fuel1 fuel2 left right : Nat), right - left ≤ fuel1 → right - left ≤ fuel2 →
      binarySearch cmp pivot work fuel1 left right =
        binarySearch cmp pivot work fuel2 left right := by
  intro fuel1
  induction fuel1 with
  | zero =>
    intro fuel2 left right h1 _
    have hlr : ¬ left < right := by omega
    cases fuel2 with
    | zero => rfl
    | succ k => simp [binarySearch, hlr]
  | succ n ih =>
    intro fuel2 left right h1 h2
    by_cases hlr : left < right
    · cases fuel2 with
      | zero => omega
      | succ k =>
        unfold binarySearch
        simp only [hlr, if_true]
        cases work[left + (right - left) / 2]? with
        | none => rfl
        | some m =>
          simp only
          by_cases hc : cmp pivot m < 0
          · simp only [hc, if_true]
            exact ih _ _ _ (by omega) (by omega)
          · simp only [hc, if_false]
            exact ih _ _ _ (by omega) (by omega)
    · cases fuel2 with
      | zero => simp [binarySearch, hlr]
      | succ k => simp [binarySearch, hlr]

theorem binarySearch_split {α : Type} (cmp : α → α → Int) (pivot : α) (front back : List α)
    (hfront : ∀ a ∈ front, ¬ cmp pivot a < 0) (hback : ∀ b ∈ back, cmp pivot b < 0) :
    ∀ (fuel left right : Nat), left ≤ front.length → front.length ≤ right →
      right ≤ (front ++ back).length → right - left ≤ fuel →
      binarySearch cmp pivot (front ++ back) fuel left right = front.length := by
  intro fuel
  induction fuel with
  | zero =>
    intro left right h1 h2 _ h4
    unfold binarySearch
    omega
  | succ n ih =>
    intro left right h1 h2 h3 h4
    unfold binarySearch
    by_cases hlr : left < right
    · simp only [hlr, if_true]
      have hmid : left + (right - left) / 2 < right := by omega
      have hlen : left + (right - left) / 2 < (front ++ back).length := by omega
      rw [List.getElem?_eq_getElem hlen]
      simp only
      by_cases hm : left + (right - left) / 2 < front.length
      · have hmem : (front ++ back)[left + (right - left) / 2] ∈ front := by
          rw [List.getElem_append_left hm]
          exact List.getElem_mem _
        simp only [hfront _ hmem, if_false]
        exact ih _ _ (by omega) h2 h3 (by omega)
      · have hmem : (front ++ back)[left + (right - left) / 2] ∈ back := by
          rw [List.getElem_append_right (by omega)]
          exact List.getElem_mem _
        simp only [hback _ hmem, if_true]
        exact ih _ _ h1 (by omega) (by omega) (by omega)
    · simp only [hlr, if_false]
      omega

theorem binaryInsert_split {α : Type} (cmp : α → α → Int) (pivot : α) (front back : List α)
    (hfront : ∀ a ∈ front, ¬ cmp pivot a < 0) (hback : ∀ b ∈ back, cmp pivot b < 0) :
    binaryInsert cmp pivot (front ++ back) = front ++ pivot :: back := by
  unfold binaryInsert
  rw [binarySearch_split cmp pivot front back hfront hback _ 0 _ (by omega)
    (by simp) (by omega) (by omega)]
  simp
theorem split_of_sorted {α : Type} (cmp : α → α → Int) (R : α → α → Prop)
    (hneg : ∀ a b, cmp a b < 0 ↔ ¬ R b a) (htrans : ∀ a b c, R a b → R b c → R a c)
    (pivot : α) :
    ∀ l : List α, l.Pairwise R →
      ∃ front back, l = front ++ back ∧ (∀ a ∈ front, ¬ cmp pivot a < 0) ∧
        ∀ b ∈ back, cmp pivot b < 0 := by
  intro l
  induction l with
  | nil => intro _; exact ⟨[], [], rfl, by simp, by simp⟩
  | cons y ys ih =>
    intro hs
    rw [List.pairwise_cons] at hs
    by_cases hy : cmp pivot y < 0
    · refine ⟨[], y :: ys, rfl, by simp, ?_⟩
      intro b hb
      rcases List.mem_cons.1 hb with rfl | hb
      · exact hy
      · rw [hneg]
        intro hbp
        exact (hneg _ _).1 hy (htrans _ _ _ (hs.1 b hb) hbp)
    · obtain ⟨front, back, hl, hf, hb⟩ := ih hs.2
      refine ⟨y :: front, back, by rw [hl]; rfl, ?_, hb⟩
      intro a ha
      rcases List.mem_cons.1 ha with rfl | ha
      · exact hy
      · exact hf a ha

theorem binaryInsert_sorted {α : Type} (cmp : α → α → Int) (R : α → α → Prop)
    (hneg : ∀ a b, cmp a b < 0 ↔ ¬ R b a) (htrans : ∀ a b c, R a b → R b c → R a c)
    (pivot : α) (l : List α) (hs : l.Pairwise R) (htot : ∀ y ∈ l, R pivot y ∨ R y pivot) :
    (binaryInsert cmp pivot l).Pairwise R := by
  obtain ⟨front, back, rfl, hf, hb⟩ := split_of_sorted cmp R hneg htrans pivot l hs
  rw [binaryInsert_split cmp pivot front back hf hb]
  rw [List.pairwise_append] at hs ⊢
  refine ⟨hs.1, List.pairwise_cons.2 ⟨?_, hs.2.1⟩, ?_⟩
  · intro b hb1
    rcases htot b (by simp [hb1]) with h | h
    · exact h
    · exact absurd h ((hneg _ _).1 (hb b hb1))
  · intro a ha b hb1
    rcases List.mem_cons.1 hb1 with rfl | hb1
    · have := hf a ha
      rw [hneg] at this
      exact not_not.1 this
    · exact hs.2.2 a ha b hb1

theorem binaryInsertionSort_sorted {α : Type} (cmp : α → α → Int) (R : α → α → Prop)
    (hneg : ∀ a b, cmp a b < 0 ↔ ¬ R b a) (htrans : ∀ a b c, R a b → R b c → R a c) :
    ∀ (rest work : List α), work.Pairwise R →
      (work ++ rest).Pairwise (fun a b => R a b ∨ R b a) →
      (binaryInsertionSort cmp work rest).Pairwise R := by
  intro rest
  induction rest with
  | nil => intro work hs _; exact hs
  | cons p ps ih =>
    intro work hs htot
    unfold binaryInsertionSort
    have hperm : (binaryInsert cmp p work ++ ps).Perm (work ++ p :: ps) :=
      (List.Perm.append_right _ (binaryInsert_perm cmp p work)).trans
        (by simpa using (@List.perm_middle _ p work ps).symm)
    apply ih
    · apply binaryInsert_sorted cmp R hneg htrans p work hs
      intro y hy
      rw [List.pairwise_append] at htot
      exact (htot.2.2 y hy p (by simp)).symm
    · exact (hperm.pairwise_iff (fun {a b} h => h.symm)).2 htot

theorem extendRun_asc {α : Type} (cmp : α → α → Int) (R : α → α → Prop)
    (hneg : ∀ a b, cmp a b < 0 ↔ ¬ R b a) :
    ∀ (l : List α) (prev : α), List.Chain R prev (extendRun cmp false prev l).1 := by
  intro l
  induction l with
  | nil => intro _; exact List.Chain.nil
  | cons x xs ih =>
    intro prev
    unfold extendRun
    by_cases h : cmp x prev < 0
    · simp [h]
    · simp only [h, decide_False, if_true]
      refine List.Chain.cons ?_ (ih x)
      rw [hneg] at h
      exact not_not.1 h

theorem extendRun_desc {α : Type} (cmp : α → α → Int) (R : α → α → Prop)
    (hneg : ∀ a b, cmp a b < 0 ↔ ¬ R b a) :
    ∀ (l : List α) (prev : α), (prev :: l).Pairwise (fun a b => R a b ∨ R b a) →
      List.Chain (flip R) prev (extendRun cmp true prev l).1 := by
  intro l
  induction l with
  | nil => intro _ _; exact List.Chain.nil
  | cons x xs ih =>
    intro prev htot
    unfold extendRun
    by_cases h : cmp x prev < 0
    · simp only [h, decide_True, if_true]
      rw [List.pairwise_cons] at htot
      refine List.Chain.cons ?_ (ih x htot.2)
      rcases htot.1 x (by simp) with h1 | h1
      · exact absurd h1 ((hneg _ _).1 h)
      · exact h1
    · simp [h]

theorem countAndMakeRun_sorted {α : Type} (cmp : α → α → Int) (R : α → α → Prop)
    (hneg : ∀ a b, cmp a b < 0 ↔ ¬ R b a) (htrans : ∀ a b c, R a b → R b c → R a c)
    (l : List α) (htot : l.Pairwise (fun a b => R a b ∨ R b a)) :
    (countAndMakeRun cmp l).1.Pairwise R := by
  haveI : IsTrans α R := ⟨htrans⟩
  match l, htot with
  | [], _ => simp [countAndMakeRun]
  | [a], _ => simp [countAndMakeRun]
  | a :: b :: rest, htot =>
    unfold countAndMakeRun
    rw [List.pairwise_cons] at htot
    by_cases h : cmp b a < 0
    · simp only [h, if_true]
      rw [← List.chain'_iff_pairwise, List.chain'_reverse]
      refine List.Chain'.cons ?_ (extendRun_desc cmp R hneg rest b htot.2)
      rcases htot.1 b (by simp) with h1 | h1
      · exact absurd h1 ((hneg _ _).1 h)
      · exact h1
    · simp only [h, if_false]
      rw [← List.chain'_iff_pairwise]
      refine List.Chain'.cons ?_ (extendRun_asc cmp R hneg rest b)
      rw [hneg] at h
      exact not_not.1 h

theorem arraySort_sorted {α : Type} (cmp : α → α → Int) (R : α → α → Prop)
    (hneg : ∀ a b, cmp a b < 0 ↔ ¬ R b a) (htrans : ∀ a b c, R a b → R b c → R a c)
    (l : List α) (htot : l.Pairwise (fun a b => R a b ∨ R b a)) :
    (arraySort cmp l).Pairwise R := by
  unfold arraySort
  apply binaryInsertionSort_sorted cmp R hneg htrans
  · exact countAndMakeRun_sorted cmp R hneg htrans l htot
  · exact ((countAndMakeRun_perm cmp l).pairwise_iff (fun {a b} h => h.symm)).2 htot

theorem extendRun_all {α : Type} (cmp : α → α → Int) :
    ∀ (l : List α) (prev : α), List.Chain (fun a b => ¬ cmp b a < 0) prev l →
      extendRun cmp false prev l = (l, []) := by
  intro l
  induction l with
  | nil => intro _ _; rfl
  | cons x xs ih =>
    intro prev hch
    rw [List.chain_cons] at hch
    unfold extendRun
    simp only [hch.1, decide_False, if_true, ih x hch.2]

theorem arraySort_of_chain {α : Type} (cmp : α → α → Int) (l : List α)
    (hch : l.Chain' (fun a b => ¬ cmp b a < 0)) : arraySort cmp l = l := by
  unfold arraySort
  match l, hch with
  | [], _ => rfl
  | [a], _ => rfl
  | a :: b :: rest, hch =>
    rw [List.chain'_cons] at hch
    unfold countAndMakeRun
    simp only [hch.1, if_false, extendRun_all cmp rest b hch.2]
    rfl

theorem arraySort_of_sorted {α : Type} (cmp : α → α → Int) (R : α → α → Prop)
    (hneg : ∀ a b, cmp a b < 0 ↔ ¬ R b a) (l : List α) (hs : l.Pairwise R) :
    arraySort cmp l = l := by
  apply arraySort_of_chain
  apply List.Pairwise.chain'
  exact hs.imp (fun {a b} h => by rw [hneg]; exact not_not.2 h)

theorem compare_neg (order : Option Order) (a b : JSValue) :
    compare order a b < 0 ↔ ¬ precedes order b a := by
  unfold compare precedes
  by_cases hd : order = some .desc
  · simp only [hd, if_true]
    by_cases h : JSValue.lt a b = true <;> simp [h]
  · simp only [hd, if_false]
    by_cases h : JSValue.lt b a = true <;> simp [h]

theorem arraySort_ordered {α : Type} (order : Option Order) (key : α → JSValue) :
    ∀ l : List α,
      l.Pairwise (fun a b => precedes order (key a) (key b) ∨ precedes order (key b) (key a)) →
      StrictlyOrdered order ((arraySort (fun a b => compare order (key a) (key b)) l).map key) := by
  intro l h
  unfold StrictlyOrdered
  rw [List.pairwise_map]
  exact arraySort_sorted (fun a b => compare order (key a) (key b))
    (fun a b => precedes order (key a) (key b))
    (fun a b => compare_neg order (key a) (key b))
    (fun a b c => precedes_trans order (key a) (key b) (key c)) l h

theorem arraySort_fixed {α : Type} (order : Option Order) (key : α → JSValue) (l : List α)
    (h : StrictlyOrdered order (l.map key)) :
    arraySort (fun a b => compare order (key a) (key b)) l = l := by
  unfold StrictlyOrdered at h
  rw [List.pairwise_map] at h
  exact arraySort_of_sorted (fun a b => compare order (key a) (key b))
    (fun a b => precedes order (key a) (key b))
    (fun a b => compare_neg order (key a) (key b)) l h

theorem defined_comparable (order : Option Order) (a b : JSValue) (ha : Defined a)
    (hb : Defined b) (hkind : (∃ s t, a = .str s ∧ b = .str t) ∨ (∃ m n, a = .num m ∧ b = .num n))
    (hne : a ≠ b) : precedes order a b ∨ precedes order b a := by
  have key : JSValue.lt a b = true ∨ JSValue.lt b a = true := by
    rcases hkind with ⟨s, t, rfl, rfl⟩ | ⟨m, n, rfl, rfl⟩
    · simp only [JSValue.lt]
      apply lexLt_total
      intro he
      exact hne (by rw [utf16_injective s t he])
    · simp only [JSValue.lt]
      apply jsNum_lt_total
      · intro h; exact ha.2 (by rw [h])
      · intro h; exact hb.2 (by rw [h])
      · intro h; exact hne (by rw [h])
  unfold precedes
  by_cases hd : order = some .desc
  · simp only [hd, if_true]; exact key.symm
  · simp only [hd, if_false]; exact key

theorem symbol_field_kind (f : SortField) (a b : Symbol) (ha : Defined (a.field f))
    (hb : Defined (b.field f)) :
    (∃ s t, a.field f = .str s ∧ b.field f = .str t) ∨
      (∃ m n, a.field f = .num m ∧ b.field f = .num n) := by
  cases f with
  | name => exact Or.inl ⟨_, _, rfl, rfl⟩
  | origin => exact Or.inr ⟨_, _, rfl, rfl⟩
  | length => exact Or.inr ⟨_, _, rfl, rfl⟩
  | archive =>
    cases h1 : a.archive with
    | none => simp [Defined, Symbol.field, h1] at ha
    | some s =>
      cases h2 : b.archive with
      | none => simp [Defined, Symbol.field, h2] at hb
      | some t => exact Or.inl ⟨s, t, by simp [Symbol.field, h1], by simp [Symbol.field, h2]⟩
  | object => exact Or.inl ⟨_, _, rfl, rfl⟩

theorem section_field_kind (f : SortField) (a b : Section) (ha : Defined (a.field f))
    (_hb : Defined (b.field f)) :
    (∃ s t, a.field f = .str s ∧ b.field f = .str t) ∨
      (∃ m n, a.field f = .num m ∧ b.field f = .num n) := by
  cases f with
  | name => exact Or.inl ⟨_, _, rfl, rfl⟩
  | origin => exact Or.inr ⟨_, _, rfl, rfl⟩
  | length => exact Or.inr ⟨_, _, rfl, rfl⟩
  | archive => simp [Defined, Section.field] at ha
  | object => simp [Defined, Section.field] at ha

theorem pairwise_comparable {α : Type} (order : Option Order) (key : α → JSValue)
    (hkind : ∀ a b : α, Defined (key a) → Defined (key b) →
      (∃ s t, key a = .str s ∧ key b = .str t) ∨ (∃ m n, key a = .num m ∧ key b = .num n))
    (l : List α) (hdef : ∀ a ∈ l, Defined (key a)) (hnodup : (l.map key).Nodup) :
    l.Pairwise (fun a b => precedes order (key a) (key b) ∨ precedes order (key b) (key a)) := by
  have hp : l.Pairwise (fun a b => key a ≠ key b) := by
    unfold List.Nodup at hnodup
    exact (List.pairwise_map.1 hnodup)
  have hp2 : l.Pairwise (fun a b => a ∈ l ∧ b ∈ l ∧ key a ≠ key b) := by
    rw [List.pairwise_iff_forall_sublist] at hp ⊢
    intro a b hsub
    exact ⟨hsub.subset (by simp), hsub.subset (by simp), hp hsub⟩
  exact hp2.imp (fun {a b} ⟨ha, hb, hne⟩ =>
    defined_comparable order _ _ (hdef a ha) (hdef b hb)
      (hkind a b (hdef a ha) (hdef b hb)) hne)

theorem sortSymbols_field (f g : SortField) (order : Option Order) (x : Section) :
    (sortSymbols f order x).field g = x.field g := by
  cases g <;> rfl

/-- C10: sort direction.  When `sortby = f` is given and, in the parsed structure,
the values of `f` in every `sections` list and in every `symbols` list are
defined (neither `undefined` nor `NaN`) and pairwise distinct, then in the result
the values of `f` along every `sections` list and along every `symbols` list are
strictly descending for `order = 'desc'` and strictly ascending otherwise. -/
theorem sort_direction (f : SortField) (order : Option Order) (lines : List (List Char))
    (map0 : List MemoryRegion) (hparse : parseLines lines = .ok map0)
    (hsections : ∀ r ∈ map0, (∀ x ∈ r.sections, Defined (x.field f)) ∧
      (r.sections.map (fun x => x.field f)).Nodup)
    (hsymbols : ∀ r ∈ map0, ∀ x ∈ r.sections, (∀ y ∈ x.symbols, Defined (y.field f)) ∧
      (x.symbols.map (fun y => y.field f)).Nodup) :
    ∃ map, parseMapfile ⟨some f, order, none⟩ lines = .ok (.object map) ∧
      ∀ r ∈ map, StrictlyOrdered order (r.sections.map (fun x => x.field f)) ∧
        ∀ x ∈ r.sections, StrictlyOrdered order (x.symbols.map (fun y => y.field f)) := by
  refine ⟨sortPass f order map0, by simp [parseMapfile, hparse, finish], ?_⟩
  intro r hr
  unfold sortPass at hr
  obtain ⟨r0, hr0, rfl⟩ := List.mem_map.1 hr
  obtain ⟨hdef, hnodup⟩ := hsections r0 hr0
  refine ⟨?_, ?_⟩
  · apply arraySort_ordered order (fun x : Section => x.field f)
    apply pairwise_comparable order (fun x : Section => x.field f)
      (fun a b => section_field_kind f a b)
    · intro a ha
      obtain ⟨a0, ha0, rfl⟩ := List.mem_map.1 ha
      rw [sortSymbols_field]
      exact hdef a0 ha0
    · simpa [List.map_map, Function.comp_def, sortSymbols_field] using hnodup
  · intro x hx
    simp only [sortSections, mem_arraySort] at hx
    obtain ⟨x0, hx0, rfl⟩ := List.mem_map.1 hx
    obtain ⟨hdefy, hnodupy⟩ := hsymbols r0 hr0 x0 hx0
    apply arraySort_ordered order (fun y : Symbol => y.field f)
    exact pairwise_comparable order (fun y : Symbol => y.field f)
      (fun a b => symbol_field_kind f a b) x0.symbols hdefy hnodupy

/-- C10 (witness): Scenario E.  With `sortby = 'length'` and `order = 'desc'`, the
sections of length `0x10`, `0x100`, `0x4` come out in the order `0x100`, `0x10`,
`0x4`, and the symbols of length `0x4`, `0xc` in the order `0xc`, `0x4`. -/
theorem sort_direction_witness :
    (∃ map, parseMapfile ⟨some .length, some .desc, none⟩ sortLines = .ok (.object map) ∧
      ∀ r ∈ map, StrictlyOrdered (some .desc) (r.sections.map (fun x => x.field .length)) ∧
        ∀ x ∈ r.sections,
          StrictlyOrdered (some .desc) (x.symbols.map (fun y => y.field .length))) ∧
    parseMapfile ⟨some .length, some .desc, none⟩ sortLines =
      .ok (.object [⟨"FLASH".toList, .fin 0x8000000, .fin 0x20000, "xr".toList,
        [⟨".b".toList, .fin 0x8000010, .fin 0x100, []⟩,
         ⟨".a".toList, .fin 0x8000000, .fin 0x10,
           [⟨"g".toList, .fin 0x8000004, .fin 0xc, none, "a.o".toList⟩,
            ⟨"f".toList, .fin 0x8000000, .fin 0x4, none, "a.o".toList⟩]⟩,
         ⟨".c".toList, .fin 0x8000110, .fin 0x4, []⟩]⟩]) :=
  ⟨sort_direction .length (some .desc) sortLines
      [⟨"FLASH".toList, .fin 0x8000000, .fin 0x20000, "xr".toList,
        [⟨".a".toList, .fin 0x8000000, .fin 0x10,
           [⟨"f".toList, .fin 0x8000000, .fin 0x4, none, "a.o".toList⟩,
            ⟨"g".toList, .fin 0x8000004, .fin 0xc, none, "a.o".toList⟩]⟩,
         ⟨".b".toList, .fin 0x8000010, .fin 0x100, []⟩,
         ⟨".c".toList, .fin 0x8000110, .fin 0x4, []⟩]⟩]
      rfl (by decide) (by decide),
    rfl⟩

/-- C9 (witness): ` main` followed by `    0x08000100 0x40 main.o` pushes the symbol
that ` main 0x08000100 0x40 main.o` pushes. -/
theorem two_line_symbol_witness :
    ∃ y : Symbol, y.name = "main".toList ∧
      step ⟨[⟨"FLASH".toList, .fin 0x8000000, .fin 0x20000, "xr".toList,
              [⟨".text".toList, .fin 0x8000000, .fin 0x1000, []⟩]⟩], some (0, 0), 2, []⟩
          " main 0x08000100 0x40 main.o".toList =
        .ok ⟨pushSymbol [⟨"FLASH".toList, .fin 0x8000000, .fin 0x20000, "xr".toList,
              [⟨".text".toList, .fin 0x8000000, .fin 0x1000, []⟩]⟩] (0, 0) y,
            some (0, 0), 2, []⟩ ∧
      run ⟨[⟨"FLASH".toList, .fin 0x8000000, .fin 0x20000, "xr".toList,
              [⟨".text".toList, .fin 0x8000000, .fin 0x1000, []⟩]⟩], some (0, 0), 2, []⟩
          [" main".toList, "    0x08000100 0x40 main.o".toList] =
        .ok ⟨pushSymbol [⟨"FLASH".toList, .fin 0x8000000, .fin 0x20000, "xr".toList,
              [⟨".text".toList, .fin 0x8000000, .fin 0x1000, []⟩]⟩] (0, 0) y,
            some (0, 0), 2, "main".toList⟩ :=
  two_line_symbol
    ⟨[⟨"FLASH".toList, .fin 0x8000000, .fin 0x20000, "xr".toList,
        [⟨".text".toList, .fin 0x8000000, .fin 0x1000, []⟩]⟩], some (0, 0), 2, []⟩
    (0, 0) "main".toList "08000100".toList "40".toList "main.o".toList "    ".toList rfl rfl
    (by decide) (by decide) (by decide) (by decide) (by decide) (by decide)

/-! ## C11: the sort pass twice -/

theorem sortSymbols_fixed (f : SortField) (order : Option Order) (x : Section)
    (hdef : ∀ y ∈ x.symbols, Defined (y.field f))
    (hnodup : (x.symbols.map (fun y => y.field f)).Nodup) :
    sortSymbols f order (sortSymbols f order x) = sortSymbols f order x := by
  unfold sortSymbols
  simp only
  rw [arraySort_fixed order (fun y : Symbol => y.field f) _
    (arraySort_ordered order (fun y : Symbol => y.field f) x.symbols
      (pairwise_comparable order (fun y : Symbol => y.field f)
        (fun a b => symbol_field_kind f a b) x.symbols hdef hnodup))]

theorem sortSections_fixed (f : SortField) (order : Option Order) (r : MemoryRegion)
    (hdef : ∀ x ∈ r.sections, Defined (x.field f))
    (hnodup : (r.sections.map (fun x => x.field f)).Nodup)
    (hsymbols : ∀ x ∈ r.sections, (∀ y ∈ x.symbols, Defined (y.field f)) ∧
      (x.symbols.map (fun y => y.field f)).Nodup) :
    sortSections f order (sortSections f order r) = sortSections f order r := by
  unfold sortSections
  simp only
  have hmap : (arraySort (fun a b : Section => compare order (a.field f) (b.field f))
      (r.sections.map (sortSymbols f order))).map (sortSymbols f order) =
      arraySort (fun a b : Section => compare order (a.field f) (b.field f))
        (r.sections.map (sortSymbols f order)) := by
    refine (List.map_congr_left ?_).trans (List.map_id _)
    intro x hx
    rw [mem_arraySort] at hx
    obtain ⟨x0, hx0, rfl⟩ := List.mem_map.1 hx
    exact sortSymbols_fixed f order x0 (hsymbols x0 hx0).1 (hsymbols x0 hx0).2
  rw [hmap]
  rw [arraySort_fixed order (fun x : Section => x.field f) _
    (arraySort_ordered order (fun x : Section => x.field f) _
      (pairwise_comparable order (fun x : Section => x.field f)
        (fun a b => section_field_kind f a b) _ ?_ ?_))]
  · intro a ha
    obtain ⟨a0, ha0, rfl⟩ := List.mem_map.1 ha
    simp only [sortSymbols_field]
    exact hdef a0 ha0
  · simpa [List.map_map, Function.comp_def, sortSymbols_field] using hnodup

/-- C11 (amended): sort idempotence.  For every structure in which, in every
`sections` list and in every `symbols` list, the values of the sort field are
defined (neither `undefined` nor `NaN`) and pairwise distinct, the sort pass
applied twice with the same field and direction gives the structure that one
application gives. -/
theorem sort_idempotent (f : SortField) (order : Option Order) (map : List MemoryRegion)
    (hsections : ∀ r ∈ map, (∀ x ∈ r.sections, Defined (x.field f)) ∧
      (r.sections.map (fun x => x.field f)).Nodup)
    (hsymbols : ∀ r ∈ map, ∀ x ∈ r.sections, (∀ y ∈ x.symbols, Defined (y.field f)) ∧
      (x.symbols.map (fun y => y.field f)).Nodup) :
    sortPass f order (sortPass f order map) = sortPass f order map := by
  unfold sortPass
  rw [List.map_map]
  apply List.map_congr_left
  intro r hr
  exact sortSections_fixed f order r (hsections r hr).1 (hsections r hr).2 (hsymbols r hr)

/-- C11 (witness): the parsed structure of Scenario E, whose lengths are defined
and pairwise distinct in every list, sorted twice by `length`, descending. -/
theorem sort_idempotent_witness :
    sortPass .length (some .desc) (sortPass .length (some .desc)
        [⟨"FLASH".toList, .fin 0x8000000, .fin 0x20000, "xr".toList,
          [⟨".a".toList, .fin 0x8000000, .fin 0x10,
             [⟨"f".toList, .fin 0x8000000, .fin 0x4, none, "a.o".toList⟩,
              ⟨"g".toList, .fin 0x8000004, .fin 0xc, none, "a.o".toList⟩]⟩,
           ⟨".b".toList, .fin 0x8000010, .fin 0x100, []⟩,
           ⟨".c".toList, .fin 0x8000110, .fin 0x4, []⟩]⟩]) =
      [⟨"FLASH".toList, .fin 0x8000000, .fin 0x20000, "xr".toList,
        [⟨".b".toList, .fin 0x8000010, .fin 0x100, []⟩,
         ⟨".a".toList, .fin 0x8000000, .fin 0x10,
           [⟨"g".toList, .fin 0x8000004, .fin 0xc, none, "a.o".toList⟩,
            ⟨"f".toList, .fin 0x8000000, .fin 0x4, none, "a.o".toList⟩]⟩,
         ⟨".c".toList, .fin 0x8000110, .fin 0x4, []⟩]⟩] :=
  sort_idempotent .length (some .desc)
    [⟨"FLASH".toList, .fin 0x8000000, .fin 0x20000, "xr".toList,
      [⟨".a".toList, .fin 0x8000000, .fin 0x10,
         [⟨"f".toList, .fin 0x8000000, .fin 0x4, none, "a.o".toList⟩,
          ⟨"g".toList, .fin 0x8000004, .fin 0xc, none, "a.o".toList⟩]⟩,
       ⟨".b".toList, .fin 0x8000010, .fin 0x100, []⟩,
       ⟨".c".toList, .fin 0x8000110, .fin 0x4, []⟩]⟩]
    (by decide) (by decide)

/-- C11 (counterexample): the symbols `r`, `q`, `p` of `archiveLines` have the
archives `liba.a`, none and `libz.a`, so no list of the parsed structure holds
two elements with the same value of `archive`.  Sorted by `archive` the symbols
come out as `p`, `q`, `r`; the same pass applied to that result gives `r`, `q`,
`p`: the comparator answers `-1` for both orders of a pair with an `undefined`
value, the host takes the array for a descending run and reverses it, on each
pass. -/
theorem sort_idempotent_counterexample :
    parseLines archiveLines = .ok archiveMap ∧
    (∀ r ∈ archiveMap, (r.sections.map (fun x => x.field .archive)).Nodup) ∧
    (∀ r ∈ archiveMap, ∀ x ∈ r.sections,
      (x.symbols.map (fun y => y.field .archive)).Nodup) ∧
    parseMapfile ⟨some .archive, none, none⟩ archiveLines =
      .ok (.object (sortPass .archive none archiveMap)) ∧
    sortPass .archive none archiveMap =
      [⟨"FLASH".toList, .fin 0x8000000, .fin 0x20000, "xr".toList,
        [⟨".text".toList, .fin 0x8000000, .fin 0x1000,
          [⟨"p".toList, .fin 0x8000020, .fin 0x10, some "libz.a".toList, "p.o".toList⟩,
           ⟨"q".toList, .fin 0x8000010, .fin 0x10, none, "q.o".toList⟩,
           ⟨"r".toList, .fin 0x8000000, .fin 0x10, some "liba.a".toList, "r.o".toList⟩]⟩]⟩] ∧
    sortPass .archive none (sortPass .archive none archiveMap) = archiveMap ∧
    sortPass .archive none (sortPass .archive none archiveMap) ≠
      sortPass .archive none archiveMap :=
  ⟨rfl, by decide, by decide, rfl, rfl, rfl, by decide⟩

theorem regionHead_sortSections (f : SortField) (order : Option Order) (r : MemoryRegion) :
    regionHead (sortSections f order r) = regionHead r := rfl

theorem sortPass_heads (f : SortField) (order : Option Order) (map : List MemoryRegion) :
    (sortPass f order map).map regionHead = map.map regionHead := by
  unfold sortPass
  rw [List.map_map]
  apply List.map_congr_left
  intro r _
  rfl

/-- C12 (amended): the sorter does not reorder regions.  When `sortby = f` is
given, the top-level list of regions of the result is the list of regions in
parse order, each with its name, origin, length and attributes, whatever the
field and the direction; only the `sections` and `symbols` lists are sorted. -/
theorem regions_keep_order (f : SortField) (order : Option Order) (lines : List (List Char))
    (map0 : List MemoryRegion)
    (h : parseMapfile ⟨none, order, none⟩ lines = .ok (.object map0)) :
    ∃ map, parseMapfile ⟨some f, order, none⟩ lines = .ok (.object map) ∧
      map.map regionHead = map0.map regionHead := by
  unfold parseMapfile at h ⊢
  cases hp : parseLines lines with
  | error e => simp [hp] at h
  | ok m =>
    simp only [hp, finish, Except.ok.injEq] at h ⊢
    simp only [reduceCtorEq, if_false, Output.object.injEq] at h ⊢
    subst h
    exact ⟨_, rfl, sortPass_heads f order m⟩

/-- C12 (counterexample): regions declared as `RAM` then `FLASH`, sorted by `name`
ascending, come out as `RAM`, `FLASH`, although `"FLASH" < "RAM"`. -/
theorem regions_keep_order_counterexample :
    parseMapfile ⟨some .name, some .asc, none⟩ ramFlashLines =
      .ok (.object
        [⟨"RAM".toList, .fin 0x20000000, .fin 0x5000, "xrw".toList, []⟩,
         ⟨"FLASH".toList, .fin 0x8000000, .fin 0x20000, "xr".toList, []⟩]) ∧
    JSValue.lt (.str "FLASH".toList) (.str "RAM".toList) = true :=
  ⟨rfl, rfl⟩

/-- C12 (witness): the regions of `ramFlashLines` sorted by `name` are those of
the unsorted result, in the same order. -/
theorem regions_keep_order_witness :
    ∃ map, parseMapfile ⟨some .name, some .asc, none⟩ ramFlashLines = .ok (.object map) ∧
      map.map regionHead =
        [⟨"RAM".toList, .fin 0x20000000, .fin 0x5000, "xrw".toList, []⟩,
         ⟨"FLASH".toList, .fin 0x8000000, .fin 0x20000, "xr".toList, []⟩] :=
  regions_keep_order .name (some .asc) ramFlashLines
    [⟨"RAM".toList, .fin 0x20000000, .fin 0x5000, "xrw".toList, []⟩,
     ⟨"FLASH".toList, .fin 0x8000000, .fin 0x20000, "xr".toList, []⟩] rfl

/-! ## C13, C14: no validation of the sort field, the row count -/

/-- C13 (amended): the sort field is not validated.  When `sortby` names a field
that the element type being sorted does not have (`archive` or `object` on
sections), nothing is rejected: `parseMapfile` returns a result whenever the
parse of the lines succeeds, an error of the call is the error of the parse, and
the comparator, reading `undefined` on both sides, returns `-1` for every pair of
sections. -/
theorem sort_field_not_validated (options : Options) (lines : List (List Char)) :
    (∀ map0, parseLines lines = .ok map0 → ∃ out, parseMapfile options lines = .ok out) ∧
    (∀ e, parseMapfile options lines = .error e → parseLines lines = .error e) ∧
    (∀ a b : Section, compare options.order (a.field .archive) (b.field .archive) = -1 ∧
      compare options.order (a.field .object) (b.field .object) = -1) := by
  refine ⟨?_, ?_, ?_⟩
  · intro map0 h
    exact ⟨finish options map0, by simp [parseMapfile, h]⟩
  · intro e h
    unfold parseMapfile at h
    cases hp : parseLines lines with
    | error e1 =>
      cases e
      cases e1
      rfl
    | ok m => simp [hp] at h
  · intro a b
    simp [compare, Section.field, JSValue.lt]

/-- C13 (counterexample): with `sortby = 'object'`, a field no section has, the
sample is not rejected: the call returns the regions, with the symbols of `.text`
sorted by `object`. -/
theorem sort_field_not_validated_counterexample :
    parseMapfile ⟨some .object, none, none⟩ sampleLines =
      .ok (.object
        [⟨"FLASH".toList, .fin 0x8000000, .fin 0x20000, "xr".toList,
          [⟨".text".toList, .fin 0x8000000, .fin 0x1000,
            [⟨"foo".toList, .fin 0x8000200, .fin 0x10, some "libbar.a".toList,
               "bar.o".toList⟩,
             ⟨"main".toList, .fin 0x8000100, .fin 0x40, none, "main.o".toList⟩]⟩]⟩,
         ⟨"RAM".toList, .fin 0x20000000, .fin 0x5000, "xrw".toList,
          [⟨".bss".toList, .fin 0x20000000, .fin 0x200, []⟩]⟩]) ∧
    Section.field ⟨".text".toList, .fin 0x8000000, .fin 0x1000, []⟩ .object = .undefined :=
  ⟨rfl, rfl⟩

/-- C13 (witness): the sample with `sortby = 'object'` returns a result. -/
theorem sort_field_not_validated_witness :
    ∃ out, parseMapfile ⟨some .object, none, none⟩ sampleLines = .ok out :=
  (sort_field_not_validated ⟨some .object, none, none⟩ sampleLines).1 sampleMap rfl

theorem length_toTable (map : List MemoryRegion) : (toTable map).length = symbolCount map := by
  unfold toTable symbolCount
  induction map with
  | nil => rfl
  | cons r rs ih =>
    simp only [List.flatMap_cons, List.length_append, List.map_cons, List.sum_cons, ih]
    congr 1
    induction r.sections with
    | nil => rfl
    | cons x xs ihx =>
      simp only [List.flatMap_cons, List.length_append, List.length_map, List.map_cons,
        List.sum_cons, ihx]

/-- C14: flatten row count.  For every input and every sort option, the number of
rows that `format = 'table'` returns is the total number of symbols over all
sections of all regions of the structure that the object format returns for
the same input and the same sort options. -/
theorem flatten_row_count (sortby : Option SortField) (order : Option Order)
    (lines : List (List Char)) (rows : List Row) (map : List MemoryRegion)
    (htable : parseMapfile ⟨sortby, order, some .table⟩ lines = .ok (.table rows))
    (hobject : parseMapfile ⟨sortby, order, some .object⟩ lines = .ok (.object map)) :
    rows.length = symbolCount map := by
  unfold parseMapfile at htable hobject
  cases hp : parseLines lines with
  | error e => simp [hp] at htable
  | ok m =>
    simp only [hp, finish, Except.ok.injEq, if_true, Output.table.injEq] at htable
    simp only [hp, finish, Except.ok.injEq, Option.some.injEq, reduceCtorEq, if_false,
      Output.object.injEq] at hobject
    rw [← htable, ← hobject]
    exact length_toTable _

/-- C14 (witness): the sample has two symbols, in one section, a section without
symbols, and gives two rows. -/
theorem flatten_row_count_witness :
    (toTable sampleMap).length = symbolCount sampleMap ∧ symbolCount sampleMap = 2 :=
  ⟨flatten_row_count none none sampleLines (toTable sampleMap) sampleMap rfl rfl, rfl⟩

/-! ## C18: sorting only permutes -/

theorem sectionPerm_sortSymbols (f : SortField) (order : Option Order) (x : Section) :
    SectionPerm x (sortSymbols f order x) :=
  ⟨rfl, rfl, rfl, (arraySort_perm _ x.symbols).symm⟩

theorem regionPerm_sortSections (f : SortField) (order : Option Order) (r : MemoryRegion) :
    RegionPerm r (sortSections f order r) := by
  refine ⟨rfl, rfl, rfl, rfl, r.sections.map (sortSymbols f order), ?_, ?_⟩
  · rw [List.forall₂_map_right_iff, List.forall₂_same]
    intro x _
    exact sectionPerm_sortSymbols f order x
  · exact (arraySort_perm _ _).symm

/-- C18: sorting only permutes.  For every structure and every `sortby` and
`order`, the sort pass returns the same regions in the same order, each with its
fields unchanged; the sections of a region after the pass are a permutation of
its sections before, each section with its fields unchanged and its symbols a
permutation of its symbols before.  This holds whatever the values of the field,
tied or `undefined`. -/
theorem sort_only_permutes (f : SortField) (order : Option Order) (map : List MemoryRegion) :
    List.Forall₂ RegionPerm map (sortPass f order map) := by
  unfold sortPass
  rw [List.forall₂_map_right_iff, List.forall₂_same]
  intro r _
  exact regionPerm_sortSections f order r

/-! ## C17: what the symbol expressions guarantee -/

theorem allSymbolsOK_pushSection (map : List MemoryRegion) (i : Nat) (x : Section)
    (hx : x.symbols = []) (h : AllSymbolsOK map) : AllSymbolsOK (pushSection map i x) := by
  intro r hr x1 hx1 y hy
  obtain ⟨r0, hr0, hrr⟩ := mem_modifyAt _ _ _ _ hr
  rcases hrr with rfl | rfl
  · exact h _ hr0 x1 hx1 y hy
  · simp only [List.mem_append, List.mem_singleton] at hx1
    rcases hx1 with hx1 | rfl
    · exact h r0 hr0 x1 hx1 y hy
    · rw [hx] at hy
      cases hy

theorem allSymbolsOK_pushSymbol (map : List MemoryRegion) (pos : Nat × Nat) (y : Symbol)
    (hy : SymbolOK y) (h : AllSymbolsOK map) : AllSymbolsOK (pushSymbol map pos y) := by
  intro r hr x1 hx1 y1 hy1
  obtain ⟨r0, hr0, hrr⟩ := mem_modifyAt _ _ _ _ hr
  rcases hrr with rfl | rfl
  · exact h _ hr0 x1 hx1 y1 hy1
  · obtain ⟨x0, hx0, hxx⟩ := mem_modifyAt _ _ _ _ hx1
    rcases hxx with rfl | rfl
    · exact h r0 hr0 _ hx0 y1 hy1
    · simp only [List.mem_append, List.mem_singleton] at hy1
      rcases hy1 with hy1 | rfl
      · exact h r0 hr0 x0 hx0 y1 hy1
      · exact hy

theorem step_allSymbolsOK (s s1 : State) (line : List Char) (h : step s line = .ok s1)
    (hinv : AllSymbolsOK s.map) : AllSymbolsOK s1.map := by
  cases (step_effect s s1 line h).1 with
  | same hmap => rw [hmap]; exact hinv
  | region r hstate hr hmap =>
    rw [hmap]
    intro r1 hr1 x hx y hy
    rw [List.mem_append, List.mem_singleton] at hr1
    rcases hr1 with hr1 | rfl
    · exact hinv r1 hr1 x hx y hy
    · rw [hr] at hx
      cases hx
  | sect i x hstate hx hpos hfind hmap hsec =>
    rw [hmap]
    exact allSymbolsOK_pushSection _ i x hx hinv
  | symbol pos y hstate hsec hmap hsec1 hy =>
    rw [hmap]
    exact allSymbolsOK_pushSymbol _ pos y hy hinv

theorem run_allSymbolsOK : ∀ (lines : List (List Char)) (s s1 : State),
    AllSymbolsOK s.map → run s lines = .ok s1 → AllSymbolsOK s1.map := by
  intro lines
  induction lines with
  | nil =>
    intro s s1 hinv h
    simp only [run, Except.ok.injEq] at h
    subst h
    exact hinv
  | cons line rest ih =>
    intro s s1 hinv h
    cases hstep : step s line with
    | error e => rw [run_cons_error rest hstep] at h; cases h
    | ok s2 =>
      rw [run_cons_ok rest hstep] at h
      exact ih s2 s1 (step_allSymbolsOK s s2 line hstep hinv) h

theorem parseLines_allSymbolsOK (lines : List (List Char)) (map : List MemoryRegion)
    (h : parseLines lines = .ok map) : AllSymbolsOK map := by
  unfold parseLines at h
  cases hrun : run State.init lines with
  | error e => simp [hrun] at h
  | ok s =>
    simp only [hrun, Except.ok.injEq] at h
    subst h
    exact run_allSymbolsOK lines State.init s (by intro r hr; cases hr) hrun

theorem allSymbolsOK_sortPass (f : SortField) (order : Option Order) (map : List MemoryRegion)
    (h : AllSymbolsOK map) : AllSymbolsOK (sortPass f order map) := by
  intro r hr x hx y hy
  unfold sortPass at hr
  obtain ⟨r0, hr0, rfl⟩ := List.mem_map.1 hr
  simp only [sortSections, mem_arraySort] at hx
  obtain ⟨x0, hx0, rfl⟩ := List.mem_map.1 hx
  simp only [sortSymbols, mem_arraySort] at hy
  exact h r0 hr0 x0 hx0 y hy

theorem finish_allSymbolsOK (options : Options) (map0 : List MemoryRegion)
    (h : AllSymbolsOK map0) :
    (∀ map, finish options map0 = .object map → AllSymbolsOK map) ∧
      (∀ rows, finish options map0 = .table rows → ∃ map, AllSymbolsOK map ∧ rows = toTable map) := by
  have hsorted : AllSymbolsOK (match options.sortby with
      | some f => sortPass f options.order map0
      | none => map0) := by
    cases options.sortby with
    | none => exact h
    | some f => exact allSymbolsOK_sortPass f options.order map0 h
  unfold finish
  by_cases hf : options.format = some .table
  · simp only [hf, if_true]
    exact ⟨fun map hm => (by cases hm), fun rows hr => ⟨_, hsorted, (by cases hr; rfl)⟩⟩
  · simp only [hf, if_false]
    exact ⟨fun map hm => (by cases hm; exact hsorted), fun rows hr => (by cases hr)⟩

theorem mem_toTable (map : List MemoryRegion) (row : Row) (h : row ∈ toTable map) :
    ∃ r ∈ map, ∃ x ∈ r.sections, ∃ y ∈ x.symbols,
      row = ⟨r.name, x.name, y.name, '0' :: 'x' :: toString16 y.origin, y.length, y.archive,
        y.object⟩ := by
  unfold toTable at h
  simp only [List.mem_flatMap, List.mem_map] at h
  obtain ⟨r, hr, x, hx, y, hy, rfl⟩ := h
  exact ⟨r, hr, x, hx, y, hy, rfl⟩

/-- C17: symbol object and archive.  In every result of `parseMapfile`, every
symbol (in the object format) and every row (in the table format) has a
non-empty `object`, and its `archive` is absent or a non-empty string: no symbol
has an archive without an object, and none has neither. -/
theorem symbol_object_archive (options : Options) (lines : List (List Char)) :
    (∀ map, parseMapfile options lines = .ok (.object map) →
      ∀ r ∈ map, ∀ x ∈ r.sections, ∀ y ∈ x.symbols,
        y.object ≠ [] ∧ (y.archive = none ∨ ∃ a, y.archive = some a ∧ a ≠ [])) ∧
    (∀ rows, parseMapfile options lines = .ok (.table rows) →
      ∀ row ∈ rows,
        row.object ≠ [] ∧ (row.archive = none ∨ ∃ a, row.archive = some a ∧ a ≠ [])) := by
  have key : ∀ y : Symbol, SymbolOK y →
      y.object ≠ [] ∧ (y.archive = none ∨ ∃ a, y.archive = some a ∧ a ≠ []) := by
    intro y hy
    refine ⟨hy.1.1, ?_⟩
    cases ha : y.archive with
    | none => exact Or.inl rfl
    | some a => exact Or.inr ⟨a, rfl, (hy.2.1 a ha).1⟩
  unfold parseMapfile
  cases hp : parseLines lines with
  | error e => exact ⟨fun map h => (by cases h), fun rows h => (by cases h)⟩
  | ok map0 =>
    have h0 := parseLines_allSymbolsOK lines map0 hp
    obtain ⟨hobj, htab⟩ := finish_allSymbolsOK options map0 h0
    refine ⟨?_, ?_⟩
    · intro map h r hr x hx y hy
      simp only [Except.ok.injEq] at h
      exact key y (hobj map h r hr x hx y hy)
    · intro rows h row hrow
      simp only [Except.ok.injEq] at h
      obtain ⟨map, hmap, rfl⟩ := htab rows h
      obtain ⟨r, hr, x, hx, y, hy, rfl⟩ := mem_toTable map row hrow
      exact key y (hmap r hr x hx y hy)

/-- C17 (witness): the symbols `main` (object only) and `foo` (archive and object)
of the sample. -/
theorem symbol_object_archive_witness :
    ∀ r ∈ sampleMap, ∀ x ∈ r.sections, ∀ y ∈ x.symbols,
      y.object ≠ [] ∧ (y.archive = none ∨ ∃ a, y.archive = some a ∧ a ≠ []) :=
  (symbol_object_archive ⟨none, none, none⟩ sampleLines).1 sampleMap rfl

/-! ## C15: the rows of the table -/

theorem hexChar_facts : ∀ d, d < 16 →
    hexDigit? (hexChar d) = some d ∧ isHexLower (hexChar d) = true ∧
      (hexChar d = '0' ↔ d = 0) := by
  decide

theorem hexRead_append (ds : List Char) (c : Char) :
    hexRead (ds ++ [c]) = hexRead ds * 16 + (hexDigit? c).getD 0 := by
  simp [hexRead, List.foldl_append]

theorem hexDigitsAux_spec : ∀ (fuel n : Nat) (acc : List Char), n < 16 ^ fuel → 1 ≤ fuel →
    ∃ ds, hexDigitsAux fuel n acc = ds ++ acc ∧ IsHexNumeral ds n ∧
      (n ≠ 0 → ds.head? ≠ some '0') := by
  intro fuel
  induction fuel with
  | zero => intro n acc _ h; omega
  | succ fuel ih =>
    intro n acc hn _
    unfold hexDigitsAux
    by_cases hlt : n < 16
    · obtain ⟨h1, h2, h3⟩ := hexChar_facts n hlt
      simp only [hlt, if_true]
      refine ⟨[hexChar n], rfl, ⟨by simp, by simpa using h2, fun _ => ?_, ?_⟩, ?_⟩
      · simp only [List.head?_cons, Option.some.injEq] at *
        simp_all
      · simp [hexRead, h1]
      · intro hne hhead
        simp only [List.head?_cons, Option.some.injEq] at hhead
        exact hne (h3.1 hhead)
    · simp only [hlt, if_false]
      have hq : n / 16 < 16 ^ fuel := by
        rw [Nat.div_lt_iff_lt_mul (by decide)]
        rw [pow_succ] at hn
        exact hn
      have hq1 : 1 ≤ n / 16 := by omega
      have hfuel : 1 ≤ fuel := by
        rcases Nat.eq_zero_or_pos fuel with h0 | h0
        · rw [h0] at hq
          simp at hq
          omega
        · exact h0
      obtain ⟨ds, hds, ⟨hne, hall, hzero, hread⟩, hhead⟩ :=
        ih (n / 16) (hexChar (n % 16) :: acc) hq hfuel
      obtain ⟨h1, h2, _⟩ := hexChar_facts (n % 16) (Nat.mod_lt _ (by decide))
      have hnz : ds.head? ≠ some '0' := hhead (by omega)
      refine ⟨ds ++ [hexChar (n % 16)], by simp [hds], ⟨by simp, ?_, ?_, ?_⟩, ?_⟩
      · intro c hc
        rcases List.mem_append.1 hc with hc | hc
        · exact hall c hc
        · rw [List.mem_singleton.1 hc]; exact h2
      · intro hh
        cases ds with
        | nil => exact absurd rfl hne
        | cons d ds1 => exact absurd (by simpa using hh) hnz
      · rw [hexRead_append, hread, h1]
        simp only [Option.getD_some]
        omega
      · intro _ hh
        cases ds with
        | nil => exact absurd rfl hne
        | cons d ds1 => exact absurd (by simpa using hh) hnz

theorem toString16_fin (v : Nat) : IsHexNumeral (toString16 (.fin v)) v := by
  have hlt : v < 16 ^ (v + 1) :=
    Nat.lt_of_lt_of_le (Nat.lt_pow_self (by decide) v) (Nat.pow_le_pow_right (by decide) (by omega))
  obtain ⟨ds, hds, hnum, _⟩ := hexDigitsAux_spec (v + 1) v [] hlt (by omega)
  have : toString16 (.fin v) = ds := by
    simp [toString16, hds]
  rw [this]
  exact hnum

theorem hexDigit_of_lower (c : Char) (h : isHexLower c = true) :
    ∃ d, hexDigit? c = some d := by
  simp only [isHexLower, Bool.or_eq_true, Bool.and_eq_true, decide_eq_true_eq] at h
  unfold hexDigit?
  simp only
  split
  · exact ⟨_, rfl⟩
  · split
    · exact ⟨_, rfl⟩
    · omega

theorem readHex_lower : ∀ (cs : List Char) (acc cnt : Nat), (∀ c ∈ cs, isHexLower c = true) →
    readHex cs acc cnt =
      (cs.foldl (fun a c => a * 16 + (hexDigit? c).getD 0) acc, cnt + cs.length) := by
  intro cs
  induction cs with
  | nil => intro acc cnt _; rfl
  | cons c cs ih =>
    intro acc cnt h
    obtain ⟨d, hd⟩ := hexDigit_of_lower c (h c (by simp))
    simp only [readHex, hd, List.foldl_cons, Option.getD_some, List.length_cons]
    rw [ih _ _ (fun e he => h e (by simp [he]))]
    congr 1
    omega

theorem ofInt_nat (n : Nat) :
    JSNum.ofInt (n : Int) = .pinf ∨ ∃ m : Nat, JSNum.ofInt (n : Int) = .fin (m : Int) := by
  unfold JSNum.ofInt
  have hneg : ¬ ((n : Int) < 0) := by omega
  cases roundNat (n : Int).natAbs with
  | none => left; simp [hneg]
  | some m => right; exact ⟨m, by simp [hneg]⟩

theorem parseInt16_hexToken (o : List Char) (h : HexToken o) :
    parseInt16 o = JSNum.ofInt (hexRead o : Int) := by
  obtain ⟨hne, hall⟩ := h
  cases o with
  | nil => exact absurd rfl hne
  | cons c cs =>
    have hc := hall c (by simp)
    have hsp : isSpace c = false := isHexLower_not_space c hc
    have hminus : c ≠ '-' := by intro he; rw [he] at hc; revert hc; decide
    have hplus : c ≠ '+' := by intro he; rw [he] at hc; revert hc; decide
    have hx : isHexLower 'x' = false := by decide
    have hX : isHexLower 'X' = false := by decide
    have hstrip : stripHexPrefix (c :: cs) = c :: cs := by
      unfold stripHexPrefix
      split
      · rename_i heq
        simp only [List.cons.injEq] at heq
        have := hall 'x' (by rw [heq.2]; simp)
        rw [hx] at this
        cases this
      · rename_i heq
        simp only [List.cons.injEq] at heq
        have := hall 'X' (by rw [heq.2]; simp)
        rw [hX] at this
        cases this
      · rfl
    have hread := readHex_lower (c :: cs) 0 0 hall
    have hmatch : (match c :: cs with
        | '-' :: cs => (true, cs)
        | '+' :: cs => (false, cs)
        | cs => (false, cs)) = (false, c :: cs) := by
      split
      · rename_i heq
        exact absurd (List.cons.inj heq).1 hminus
      · rename_i heq
        exact absurd (List.cons.inj heq).1 hplus
      · rfl
    unfold parseInt16
    simp only [trimStart, hsp, Bool.false_eq_true, if_false, hmatch, hstrip, hread]
    simp [hexRead]

theorem symbolOK_origin (y : Symbol) (hy : SymbolOK y) :
    y.origin = .pinf ∨ ∃ v : Nat, y.origin = .fin (v : Int) := by
  obtain ⟨o, ho, hyo⟩ := hy.2.2.1
  rw [hyo, parseInt16_hexToken o ho]
  exact ofInt_nat _

/-- C15 (amended): row content and order.  With `format = 'table'` the result is
the concatenation, over the regions in their order, then the sections in their
order, then the symbols in their order, of the rows `(region.name, section.name,
symbol.name, H, symbol.length, symbol.archive, symbol.object)` with `H` equal to
`0x` followed by `symbol.origin.toString(16)`.  A symbol origin is either
`Infinity`, printed as `Infinity`, or a non-negative integer; for one below
`2^53` the text after `0x` is its lower-case hexadecimal numeral without leading
zeros, which read in base 16 gives the origin back. -/
theorem table_rows (sortby : Option SortField) (order : Option Order)
    (lines : List (List Char)) (rows : List Row) (map : List MemoryRegion)
    (htable : parseMapfile ⟨sortby, order, some .table⟩ lines = .ok (.table rows))
    (hobject : parseMapfile ⟨sortby, order, some .object⟩ lines = .ok (.object map)) :
    rows = map.flatMap (fun r => r.sections.flatMap (fun x => x.symbols.map (rowOf r x))) ∧
      ∀ r ∈ map, ∀ x ∈ r.sections, ∀ y ∈ x.symbols,
        (y.origin = .pinf ∧ (rowOf r x y).origin = "0xInfinity".toList) ∨
        ∃ v : Nat, y.origin = .fin (v : Int) ∧
          ∃ ds, (rowOf r x y).origin = '0' :: 'x' :: ds ∧ (v < 2 ^ 53 → IsHexNumeral ds v) := by
  have hok := (finish_allSymbolsOK ⟨sortby, order, some .object⟩)
  unfold parseMapfile at htable hobject
  cases hp : parseLines lines with
  | error e => simp [hp] at htable
  | ok m =>
    have h0 := parseLines_allSymbolsOK lines m hp
    have hmap := (hok m h0).1 map (by simpa [hp] using hobject)
    simp only [hp, finish, Except.ok.injEq, if_true, Output.table.injEq] at htable
    simp only [hp, finish, Except.ok.injEq, Option.some.injEq, reduceCtorEq, if_false,
      Output.object.injEq] at hobject
    refine ⟨?_, ?_⟩
    · rw [← htable, ← hobject]
      rfl
    · intro r hr x hx y hy
      rcases symbolOK_origin y (hmap r hr x hx y hy) with hinf | ⟨v, hv⟩
      · left
        refine ⟨hinf, ?_⟩
        simp only [rowOf, hinf]
        rfl
      · right
        refine ⟨v, hv, toString16 (.fin (v : Int)), ?_, fun _ => toString16_fin v⟩
        simp only [rowOf, hv]

set_option maxRecDepth 100000 in
/-- C15 (counterexample): a symbol whose origin field has 257 digits `f` has the
origin `Infinity`, and its row holds `0xInfinity`, which is not `0x` followed by
hexadecimal digits. -/
theorem table_rows_counterexample :
    parseMapfile ⟨none, none, some .table⟩ overflowLines =
      .ok (.table [⟨"FLASH".toList, ".text".toList, "big".toList, "0xInfinity".toList,
        .fin 4, none, "a.o".toList⟩]) ∧
    isHexLower 'I' = false := by
  decide!

/-- C15 (witness): the two rows of the sample, `0x8000100` and `0x8000200`. -/
theorem table_rows_witness :
    toTable sampleMap =
      [⟨"FLASH".toList, ".text".toList, "main".toList, "0x8000100".toList, .fin 0x40, none,
          "main.o".toList⟩,
       ⟨"FLASH".toList, ".text".toList, "foo".toList, "0x8000200".toList, .fin 0x10,
          some "libbar.a".toList, "bar.o".toList⟩] :=
  (table_rows none none sampleLines (toTable sampleMap) sampleMap rfl rfl).1

/-! ## C19: where regions come from -/

theorem heads_modifyAt (f : MemoryRegion → MemoryRegion) (hf : ∀ r, regionHead (f r) = regionHead r) :
    ∀ (i : Nat) (map : List MemoryRegion),
      (modifyAt f i map).map regionHead = map.map regionHead := by
  intro i map
  induction map generalizing i with
  | nil => simp [modifyAt]
  | cons r rs ih =>
    cases i with
    | zero => simp [modifyAt, hf r]
    | succ i => simp [modifyAt, ih]

theorem stepEffect_heads (s s1 : State) (hs : 2 ≤ s.state) (h : StepEffect s s1) :
    s1.map.map regionHead = s.map.map regionHead := by
  cases h with
  | same hmap => rw [hmap]
  | region r hstate hr hmap => omega
  | sect i x hstate hx hpos hfind hmap hsec =>
    rw [hmap]
    unfold pushSection
    apply heads_modifyAt
    intro r
    rfl
  | symbol pos y hstate hsec hmap hsec1 _ =>
    rw [hmap]
    unfold pushSymbol
    apply heads_modifyAt
    intro r
    rfl

theorem regionOfLine_head (line : List Char) (r : MemoryRegion)
    (h : regionOfLine line = some r) : regionHead r = r := by
  unfold regionOfLine at h
  split at h
  · simp only [Option.some.injEq] at h
    rw [← h]
    rfl
  · cases h

theorem step_state0 (s : State) (line : List Char) (hs : s.state = 0) :
    step s line = .ok (if line = memoryConfiguration then { s with state := 1 } else s) := by
  unfold step
  simp only [hs]
  split <;> rfl

theorem step_state1 (s : State) (line : List Char) (hs : s.state = 1) :
    step s line =
      .ok (if line = linkerScript then { s with state := 2 }
        else match regionOfLine line with
          | some r => { s with map := s.map ++ [r] }
          | none => s) := by
  unfold step regionOfLine
  simp only [hs]
  by_cases hl : line = linkerScript
  · simp [hl]
  · simp only [ne_eq, hl, not_false_eq_true, if_true, if_false]
    split <;> simp_all

theorem run_heads : ∀ (lines : List (List Char)) (s s1 : State), run s lines = .ok s1 →
    s1.map.map regionHead = s.map.map regionHead ++ pendingRegions s.state lines := by
  intro lines
  induction lines with
  | nil =>
    intro s s1 h
    simp only [run, Except.ok.injEq] at h
    subst h
    match hst : s.state with
    | 0 => simp [pendingRegions, declaredRegions, configLines]
    | 1 => simp [pendingRegions]
    | n + 2 => simp [pendingRegions]
  | cons line rest ih =>
    intro s s1 h
    cases hstep : step s line with
    | error e => rw [run_cons_error rest hstep] at h; cases h
    | ok s2 =>
      rw [run_cons_ok rest hstep] at h
      have hrec := ih s2 s1 h
      rw [hrec]
      match hst : s.state with
      | 0 =>
        rw [step_state0 s line hst] at hstep
        simp only [Except.ok.injEq] at hstep
        subst hstep
        by_cases hl : line = memoryConfiguration
        · simp [hl, pendingRegions, declaredRegions, configLines]
        · simp [hl, hst, pendingRegions, declaredRegions, configLines]
      | 1 =>
        rw [step_state1 s line hst] at hstep
        simp only [Except.ok.injEq] at hstep
        subst hstep
        by_cases hl : line = linkerScript
        · simp [hl, pendingRegions]
        · cases hr : regionOfLine line with
          | none => simp [hl, hr, hst, pendingRegions]
          | some r =>
            have hrh := regionOfLine_head line r hr
            simp [hl, hr, hst, pendingRegions, hrh]
      | n + 2 =>
        obtain ⟨heff, hmono⟩ := step_effect s s2 line hstep
        have h2 : 2 ≤ s.state := by omega
        have h22 : 2 ≤ s2.state := by
          by_contra hlt
          have := hmono (by omega)
          omega
        rw [stepEffect_heads s s2 h2 heff]
        obtain ⟨k, hk⟩ : ∃ k, s2.state = k + 2 := ⟨s2.state - 2, by omega⟩
        simp [hk, pendingRegions]

theorem regionOfLine_attr (line : List Char) (r : MemoryRegion)
    (h : regionOfLine line = some r) : r.sections = [] ∧ AttrToken r.attributes := by
  unfold regionOfLine at h
  split at h
  · rename_i n o l a hm
    simp only [Option.some.injEq] at h
    rw [← h]
    have := reMatch_capOK _ _ _ hm
    simp only [reMemory, capOK_grp, capOK_cls, capOK_chr, capOK_nil] at this
    obtain ⟨_, _, _, _, _, _, hall, hne, _⟩ := this
    exact ⟨rfl, hne (by decide), hall⟩
  · cases h

theorem declaredRegions_of_not_mem (lines : List (List Char))
    (h : memoryConfiguration ∉ lines) : declaredRegions lines = [] := by
  have hd : lines.dropWhile (fun l => decide (l ≠ memoryConfiguration)) = [] := by
    rw [List.dropWhile_eq_nil_iff]
    intro l hl
    simp only [ne_eq, decide_not, Bool.not_eq_true', decide_eq_false_iff_not]
    intro he
    exact h (he ▸ hl)
  unfold declaredRegions configLines
  rw [hd]
  rfl

/-- C19: where regions come from.  In every result of `parseMapfile`, the regions
are exactly, in order, one region per line that lies strictly after the first
line equal to `Memory Configuration` and before the first later line equal to
`Linker script and memory map` and that matches `<name> 0x<field> 0x<field>
<attr>`; each is created without sections and with attributes that are a
non-empty string over `r`, `w`, `x`.  An input with no line equal to `Memory
Configuration` gives no region. -/
theorem regions_from_config (options : Options) (lines : List (List Char))
    (map : List MemoryRegion) (h : parseMapfile options lines = .ok (.object map)) :
    map.map regionHead = declaredRegions lines ∧
      (memoryConfiguration ∉ lines → map = []) ∧
      (∀ r ∈ declaredRegions lines, r.sections = [] ∧ AttrToken r.attributes) := by
  have hheads : map.map regionHead = declaredRegions lines := by
    unfold parseMapfile parseLines at h
    cases hrun : run State.init lines with
    | error e => simp [hrun] at h
    | ok s =>
      have hrh := run_heads lines State.init s hrun
      simp only [State.init, List.map_nil, List.nil_append, pendingRegions] at hrh
      simp only [hrun, finish, Except.ok.injEq] at h
      split at h
      · cases h
      · simp only [Output.object.injEq] at h
        rw [← h, ← hrh]
        cases options.sortby with
        | none => rfl
        | some f => exact sortPass_heads f options.order s.map
  refine ⟨hheads, ?_, ?_⟩
  · intro hno
    rw [declaredRegions_of_not_mem lines hno] at hheads
    exact List.map_eq_nil_iff.1 hheads
  · intro r hr
    unfold declaredRegions at hr
    obtain ⟨line, _, hline⟩ := List.mem_filterMap.1 hr
    exact regionOfLine_attr line r hline

/-- C19 (witness): the regions of the sample are those of its two configuration
lines; and the row `*default* 0x00000000 0xffffffff`, without attributes, creates
no region. -/
theorem regions_from_config_witness :
    (sampleMap.map regionHead =
        [⟨"FLASH".toList, .fin 0x8000000, .fin 0x20000, "xr".toList, []⟩,
         ⟨"RAM".toList, .fin 0x20000000, .fin 0x5000, "xrw".toList, []⟩] ∧
      declaredRegions sampleLines =
        [⟨"FLASH".toList, .fin 0x8000000, .fin 0x20000, "xr".toList, []⟩,
         ⟨"RAM".toList, .fin 0x20000000, .fin 0x5000, "xrw".toList, []⟩]) ∧
    regionOfLine "*default* 0x00000000 0xffffffff".toList = none :=
  ⟨⟨rfl, ((regions_from_config ⟨none, none, none⟩ sampleLines sampleMap rfl).1.symm.trans rfl)⟩,
    rfl⟩

/-! ## C20, C16: no open section; values that are not integers -/

theorem step_no_section (s : State) (line : List Char) (hs : s.state = 2) (hsec : s.sec = none)
    (hline : line.head? ≠ some '.') : step s line = .ok s := by
  simp [step, hs, hsec, hline]

/-- C20: no open section, no symbol.  In the memory-map state, while no section is
open, every line that does not start with `.`, so every symbol-shaped line (one
line with archive, one line plain, a bare name and its continuation), leaves
all variables as they are.  A section header whose origin is not positive, on
one line or on two, closes the open section, so that a symbol line after it is
not pushed onto the section that was open before. -/
theorem no_open_section :
    (∀ (s : State) (line : List Char), s.state = 2 → s.sec = none →
      line.head? ≠ some '.' → step s line = .ok s) ∧
    (∀ (s : State) (l1 l2 : List Char), s.state = 2 → s.sec = none →
      l1.head? ≠ some '.' → l2.head? ≠ some '.' → run s [l1, l2] = .ok s) ∧
    (∀ (s : State) (header n o l line : List Char), s.state = 2 →
      header.head? = some '.' → reMatch reSection header = some [n, o, l] →
      JSNum.gt (parseInt16 o) (.fin 0) = false → line.head? ≠ some '.' →
      run s [header, line] = .ok { s with sec := none }) ∧
    (∀ (s : State) (N cont o l line : List Char), s.state = 2 → Token N →
      N.head? = some '.' → reMatch reSection2 cont = some [o, l] →
      JSNum.gt (parseInt16 o) (.fin 0) = false → line.head? ≠ some '.' →
      run s [N, cont, line] = .ok { s with sec := none, name := N }) := by
  refine ⟨step_no_section, ?_, ?_, ?_⟩
  · intro s l1 l2 hs hsec h1 h2
    rw [run_cons_ok _ (step_no_section s l1 hs hsec h1),
      run_cons_ok _ (step_no_section s l2 hs hsec h2), run_nil]
  · intro s header n o l line hs hhead hm hgt hline
    have h1 : step s header = .ok { s with sec := none } := by
      simp [step, hs, hhead, hm, openSection, hgt]
    rw [run_cons_ok _ h1,
      run_cons_ok _ (step_no_section { s with sec := none } line hs rfl hline), run_nil]
  · intro s N cont o l line hs hN hdot hm hgt hline
    have h1 : step s N = .ok { s with name := N, state := 3 } := by
      simp [step, hs, hdot, reSection_none N hN.2, reSectionName_match N hN.2]
    have h2 : step { s with name := N, state := 3 } cont =
        .ok { s with sec := none, name := N } := by
      simp [step, hm, openSection, hgt, hs]
    rw [run_cons_ok _ h1, run_cons_ok _ h2,
      run_cons_ok _ (step_no_section { s with sec := none, name := N } line hs rfl hline),
      run_nil]

/-- C20 (witness): with `.text` open, the discarded header `.comment 0x0 0x30`
followed by ` z 0x08000300 0x2 b.o` leaves `.text` without symbols; and with no
section open the symbol line alone changes nothing. -/
theorem no_open_section_witness :
    run ⟨[⟨"FLASH".toList, .fin 0x8000000, .fin 0x20000, "xr".toList,
            [⟨".text".toList, .fin 0x8000000, .fin 0x1000, []⟩]⟩], some (0, 0), 2, []⟩
        [".comment 0x0 0x30".toList, " z 0x08000300 0x2 b.o".toList] =
      .ok ⟨[⟨"FLASH".toList, .fin 0x8000000, .fin 0x20000, "xr".toList,
            [⟨".text".toList, .fin 0x8000000, .fin 0x1000, []⟩]⟩], none, 2, []⟩ ∧
    step ⟨[⟨"FLASH".toList, .fin 0x8000000, .fin 0x20000, "xr".toList, []⟩], none, 2, []⟩
        " z 0x08000300 0x2 b.o".toList =
      .ok ⟨[⟨"FLASH".toList, .fin 0x8000000, .fin 0x20000, "xr".toList, []⟩], none, 2, []⟩ :=
  ⟨no_open_section.2.2.1
      ⟨[⟨"FLASH".toList, .fin 0x8000000, .fin 0x20000, "xr".toList,
          [⟨".text".toList, .fin 0x8000000, .fin 0x1000, []⟩]⟩], some (0, 0), 2, []⟩
      ".comment 0x0 0x30".toList ".comment".toList "0".toList "30".toList
      " z 0x08000300 0x2 b.o".toList rfl rfl rfl rfl (by decide),
    no_open_section.1
      ⟨[⟨"FLASH".toList, .fin 0x8000000, .fin 0x20000, "xr".toList, []⟩], none, 2, []⟩
      " z 0x08000300 0x2 b.o".toList rfl rfl (by decide)⟩

/-- C16 (the code at the failing input): the configuration line `X 0xzz 0x10 r`
gives a region whose origin is `NaN`, the section line `.s 0x10 0xzz` a section
whose length is `NaN`, and the configuration line `N 0x-5 0x10 r` a region whose
origin is `-5`. -/
theorem entity_values_nan :
    parseMapfile ⟨none, none, none⟩
        ["Memory Configuration".toList, "X 0xzz 0x10 r".toList, "N 0x-5 0x10 r".toList,
         "R 0x0 0x100 rw".toList, "Linker script and memory map".toList,
         ".s 0x10 0xzz".toList] =
      .ok (.object
        [⟨"X".toList, .nan, .fin 0x10, "r".toList, []⟩,
         ⟨"N".toList, .fin (-5), .fin 0x10, "r".toList, []⟩,
         ⟨"R".toList, .fin 0, .fin 0x100, "rw".toList,
          [⟨".s".toList, .fin 0x10, .nan, []⟩]⟩]) :=
  rfl

end MapfileTool
